import Mathlib

/-!
# SmartRewards persistence layer (`src/smartrewards/rewardsdb.cpp`)

A shallow embedding of `CSmartRewardsDB`: the records it stores, the keys it
stores them under, the atomic batches built by `SyncCached`, `StartFirstRound`,
`FinalizeRound` and `UndoFinalizeRound`, and the readers that look the records
up again.

The key/value store itself (`CDBWrapper` over LevelDB) and the record types
(declared in `rewardsdb.h`) are not part of the translated file; they are
modelled here from their use in `rewardsdb.cpp` and from the specification.
-/

namespace SmartRewards

/-! ## Records -/

/-- Account address (`CSmartAddress`): an opaque identifier used as a key. -/
abbrev CSmartAddress := Nat

/-- A 256-bit hash (`uint256`); `0` is the null value (`IsNull`). -/
abbrev uint256 := Nat

/-- Ledger row of one address (`CSmartRewardEntry`), with the fields the
translated file reads or writes. -/
structure CSmartRewardEntry where
  id : CSmartAddress
  balance : Int
  balanceEligible : Int
  smartnodePaymentTx : uint256
  voteProof : uint256
  disqualifyingTx : uint256
deriving DecidableEq, Repr

/-- Header of a reward round (`CSmartRewardRound`). `number` is an `int16_t`;
`percent` is a `double`, carried as its stored bit pattern because the
persistence layer only copies it. -/
structure CSmartRewardRound where
  number : Int
  startBlockHeight : Int
  startBlockTime : Int
  endBlockHeight : Int
  endBlockTime : Int
  eligibleEntries : Int
  eligibleSmart : Int
  percent : Nat
deriving DecidableEq, Repr

/-- Snapshot of one address at the end of a round (`CSmartRewardRoundResult`):
a full copy of the entry and the computed reward. -/
structure CSmartRewardRoundResult where
  entry : CSmartRewardEntry
  reward : Int
deriving DecidableEq, Repr

/-- Per-height block record (`CSmartRewardBlock`). -/
structure CSmartRewardBlock where
  nHeight : Int
  blockHash : uint256
  blockTime : Int
deriving DecidableEq, Repr

/-- Guard marking a transaction as applied (`CSmartRewardTransaction`). -/
structure CSmartRewardTransaction where
  hash : uint256
  blockHeight : Int
deriving DecidableEq, Repr

/-- The type `CSmartRewardEntryMap` is a `std::map` from address to entry: it is
traversed in key order and holds each address at most once. -/
abbrev CSmartRewardEntryMap := List (CSmartAddress × CSmartRewardEntry)

/-! ## Keys and values -/

/-- Tag `R` of the current-round pointer. -/
def DB_ROUND_CURRENT : Int := 82
/-- Tag `r` of a finalized round. -/
def DB_ROUND : Int := 114
/-- Tag `s` of a per-round snapshot. -/
def DB_ROUND_SNAPSHOT : Int := 115
/-- Tag `E` of a reward entry. -/
def DB_REWARD_ENTRY : Int := 69
/-- Tag `B` of a block stored by height. -/
def DB_BLOCK : Int := 66
/-- Tag `b` of the last-block record. -/
def DB_BLOCK_LAST : Int := 98
/-- Tag `t` of a transaction guard. -/
def DB_TX_HASH : Int := 116
/-- Tag `V` of the schema version. -/
def DB_VERSION : Int := 86
/-- Tag `L` of the lock flag. -/
def DB_LOCK : Int := 76

/-- The keys `rewardsdb.cpp` builds: a tag alone, or `make_pair(tag, natural key)`. -/
inductive Key where
  | roundCurrent
  | round (number : Int)
  | snapshot (number : Int) (id : CSmartAddress)
  | rewardEntry (id : CSmartAddress)
  | block (nHeight : Int)
  | blockLast
  | txHash (hash : uint256)
  | version
  | lock
deriving DecidableEq, Repr

/-- Serialised form of a key, component by component: the tag first, then the
parts of the natural key in the order `make_pair` nests them. The store orders
rows by the serialised key; as in the byte encoding, the rows of one tag are
contiguous, and among the snapshots the rows of one round are contiguous and
follow the seek target `(DB_ROUND_SNAPSHOT, round)`, a proper prefix of their
keys. Which of two different rounds, or of two addresses, comes first is taken
from the integer order here. -/
def Key.code : Key → List Int
  | .roundCurrent => [DB_ROUND_CURRENT]
  | .round number => [DB_ROUND, number]
  | .snapshot number id => [DB_ROUND_SNAPSHOT, number, (id : Int)]
  | .rewardEntry id => [DB_REWARD_ENTRY, (id : Int)]
  | .block nHeight => [DB_BLOCK, nHeight]
  | .blockLast => [DB_BLOCK_LAST]
  | .txHash hash => [DB_TX_HASH, (hash : Int)]
  | .version => [DB_VERSION]
  | .lock => [DB_LOCK]

/-- Strict lexicographic comparison of serialised keys (the store's comparator);
a proper prefix sorts before its extensions. -/
def codeLt : List Int → List Int → Bool
  | [], [] => false
  | [], _ :: _ => true
  | _ :: _, [] => false
  | a :: as, b :: bs => if a < b then true else if b < a then false else codeLt as bs

/-- Stored values, one class per record type. -/
inductive Value where
  | round (r : CSmartRewardRound)
  | result (s : CSmartRewardRoundResult)
  | entry (e : CSmartRewardEntry)
  | block (b : CSmartRewardBlock)
  | tx (t : CSmartRewardTransaction)
  | version (v : Nat)
  | lock (n : Int)
deriving DecidableEq, Repr

/-! ## The key/value store -/

/-- Modelled from the spec: the `CDBWrapper` store (section 4.1, "ordered
byte-key storage"), which is not in the translated sources. A store state is
the list of its rows in key order. -/
abbrev Store := List (Key × Value)

/-- Modelled from the spec: a store state holds every key once, in ascending
key order. -/
def Store.WF (S : Store) : Prop :=
  S.Pairwise (fun a b => codeLt a.1.code b.1.code = true)

/-- Modelled from the spec: `Read` by typed key; `none` when the key is absent. -/
def Store.Read : Store → Key → Option Value
  | [], _ => none
  | (k', v) :: rest, k => if k' = k then some v else Store.Read rest k

/-- Modelled from the spec: `Exists`. -/
def Store.Exists (S : Store) (k : Key) : Bool := (S.Read k).isSome

/-- Modelled from the spec: `Write` puts the row at its place in key order,
replacing the row already stored under the key. -/
def Store.Write : Store → Key → Value → Store
  | [], k, v => [(k, v)]
  | (k', v') :: rest, k, v =>
      if k' = k then (k, v) :: rest
      else if codeLt k.code k'.code then (k, v) :: (k', v') :: rest
      else (k', v') :: Store.Write rest k v

/-- Modelled from the spec: `Erase` removes the row stored under the key. -/
def Store.Erase (S : Store) (k : Key) : Store :=
  S.filter (fun kv => decide (kv.1 ≠ k))

/-- One operation recorded in a `CDBBatch`. -/
inductive BatchOp where
  | write (k : Key) (v : Value)
  | erase (k : Key)
deriving DecidableEq, Repr

/-- A `CDBBatch`: the recorded operations in program order. -/
abbrev CDBBatch := List BatchOp

/-- Key an operation acts on. -/
def BatchOp.key : BatchOp → Key
  | .write k _ => k
  | .erase k => k

/-- Value an operation leaves under its own key. -/
def BatchOp.effect : BatchOp → Option Value
  | .write _ v => some v
  | .erase _ => none

/-- Effect of one recorded operation on the store. -/
def Store.apply (S : Store) : BatchOp → Store
  | .write k v => S.Write k v
  | .erase k => S.Erase k

/-- Modelled from the spec: `WriteBatch` is atomic ("either fully applies or
fully fails"). `io` is the outcome of the underlying write: on `true` every
operation is applied in order and the call reports success, on `false` the
store is left as it was and the call reports failure. -/
def WriteBatch (S : Store) (io : Bool) (batch : CDBBatch) : Store × Bool :=
  if io then (batch.foldl Store.apply S, true) else (S, false)

/-- Modelled from the spec: `Seek` positions the cursor on the first row whose
key is not below the target; the result is the rows from there on. -/
def Store.Seek (S : Store) (target : List Int) : List (Key × Value) :=
  S.dropWhile (fun kv => codeLt kv.1.code target)

/-! ## Readers -/

/-- Source function `CSmartRewardsDB::ReadRound`. -/
def ReadRound (S : Store) (number : Int) : Option CSmartRewardRound :=
  match S.Read (.round number) with
  | some (.round r) => some r
  | _ => none

/-- Source function `CSmartRewardsDB::ReadCurrentRound`. -/
def ReadCurrentRound (S : Store) : Option CSmartRewardRound :=
  match S.Read .roundCurrent with
  | some (.round r) => some r
  | _ => none

/-- Source function `CSmartRewardsDB::ReadRewardEntry`. -/
def ReadRewardEntry (S : Store) (id : CSmartAddress) : Option CSmartRewardEntry :=
  match S.Read (.rewardEntry id) with
  | some (.entry e) => some e
  | _ => none

/-- Loop of `ReadRewardRoundResults` over the rows from the cursor on: a row
that is not a snapshot, or a snapshot of another round, ends the loop with
success; a snapshot whose value does not decode ends it with failure; any other
snapshot is appended to `results`. -/
def readRoundResultsLoop (round : Int) :
    List (Key × Value) → List CSmartRewardRoundResult → Bool × List CSmartRewardRoundResult
  | [], results => (true, results)
  | (.snapshot number _, v) :: rest, results =>
      if number ≠ round then (true, results)
      else match v with
        | .result nValue => readRoundResultsLoop round rest (results ++ [nValue])
        | _ => (false, results)
  | _ :: _, results => (true, results)

/-- Source function `CSmartRewardsDB::ReadRewardRoundResults`: the success flag and the
`results` list after the call (rows are appended to the list passed in). -/
def ReadRewardRoundResults (S : Store) (round : Int)
    (results : List CSmartRewardRoundResult) : Bool × List CSmartRewardRoundResult :=
  readRoundResultsLoop round (S.Seek [DB_ROUND_SNAPSHOT, round]) results

/-! ## Batches -/

/-- Operation `SyncCached` records for one changed entry: erase the row when
the balance is not positive, write it otherwise. -/
def syncEntryOp (r : CSmartAddress × CSmartRewardEntry) : BatchOp :=
  if r.2.balance ≤ 0 then .erase (.rewardEntry r.1) else .write (.rewardEntry r.1) (.entry r.2)

/-- Operation `SyncCached` records for one transaction. -/
def syncTxOp (fUndo : Bool) (t : CSmartRewardTransaction) : BatchOp :=
  if fUndo then .erase (.txHash t.hash) else .write (.txHash t.hash) (.tx t)

/-- Batch built by `CSmartRewardsDB::SyncCached` (the overload taking a block):
the entry loop, the transaction loop, the block record and last-block pointer
when the block is valid, and the current-round header. `IsValid` is
`CSmartRewardBlock::IsValid`, declared in the header. -/
def syncCachedBatch (IsValid : CSmartRewardBlock → Bool)
    (block : CSmartRewardBlock) (current : CSmartRewardRound)
    (rewards : CSmartRewardEntryMap) (transactions : List CSmartRewardTransaction)
    (fUndo : Bool) : CDBBatch :=
  rewards.map syncEntryOp
    ++ transactions.map (syncTxOp fUndo)
    ++ (if IsValid block then
          [.write (.block block.nHeight) (.block block), .write .blockLast (.block block)]
        else [])
    ++ [.write .roundCurrent (.round current)]

/-- Source function `CSmartRewardsDB::SyncCached` (the overload taking a block). -/
def SyncCached (IsValid : CSmartRewardBlock → Bool) (S : Store) (io : Bool)
    (block : CSmartRewardBlock) (current : CSmartRewardRound)
    (rewards : CSmartRewardEntryMap) (transactions : List CSmartRewardTransaction)
    (fUndo : Bool) : Store × Bool :=
  WriteBatch S io (syncCachedBatch IsValid block current rewards transactions fUndo)

/-- Batch built by `CSmartRewardsDB::StartFirstRound`. -/
def startFirstRoundBatch (start : CSmartRewardRound) (entries : List CSmartRewardEntry) :
    CDBBatch :=
  entries.map (fun e => BatchOp.write (.rewardEntry e.id) (.entry e))
    ++ [.write .roundCurrent (.round start)]

/-- Source function `CSmartRewardsDB::StartFirstRound`. -/
def StartFirstRound (S : Store) (io : Bool) (start : CSmartRewardRound)
    (entries : List CSmartRewardEntry) : Store × Bool :=
  WriteBatch S io (startFirstRoundBatch start entries)

/-- Batch built by `CSmartRewardsDB::FinalizeRound`: the snapshots under
`(current.number, s.entry.id)`, the entries, the finalized round under its
number, the current-round pointer. -/
def finalizeRoundBatch (current next : CSmartRewardRound)
    (entries : List CSmartRewardEntry) (results : List CSmartRewardRoundResult) : CDBBatch :=
  results.map (fun s => BatchOp.write (.snapshot current.number s.entry.id) (.result s))
    ++ entries.map (fun e => BatchOp.write (.rewardEntry e.id) (.entry e))
    ++ [.write (.round current.number) (.round current),
        .write .roundCurrent (.round next)]

/-- Source function `CSmartRewardsDB::FinalizeRound`. -/
def FinalizeRound (S : Store) (io : Bool) (current next : CSmartRewardRound)
    (entries : List CSmartRewardEntry) (results : List CSmartRewardRoundResult) :
    Store × Bool :=
  WriteBatch S io (finalizeRoundBatch current next entries results)

/-- Operations `UndoFinalizeRound` records for one snapshot. -/
def undoResultOps (number : Int) (s : CSmartRewardRoundResult) : List BatchOp :=
  [.erase (.snapshot number s.entry.id), .write (.rewardEntry s.entry.id) (.entry s.entry)]

/-- Batch built by `CSmartRewardsDB::UndoFinalizeRound`. -/
def undoFinalizeRoundBatch (current : CSmartRewardRound)
    (results : List CSmartRewardRoundResult) : CDBBatch :=
  (results.map (undoResultOps current.number)).flatten
    ++ [.erase (.round current.number), .write .roundCurrent (.round current)]

/-- Source function `CSmartRewardsDB::UndoFinalizeRound`. -/
def UndoFinalizeRound (S : Store) (io : Bool) (current : CSmartRewardRound)
    (results : List CSmartRewardRoundResult) : Store × Bool :=
  WriteBatch S io (undoFinalizeRoundBatch current results)

/-- Narrowing of an integer to `int16_t` (two's complement wrap-around). -/
def wrapInt16 (x : Int) : Int := (x + 32768) % 65536 - 32768

/-- No stored reward entry has a balance of zero or less. -/
def NoNonPositiveEntry (S : Store) : Prop :=
  ∀ id e, ReadRewardEntry S id = some e → 0 < e.balance


/-- Whether a row is a snapshot of the given round. -/
def isSnapshotOf (round : Int) (kv : Key × Value) : Bool :=
  match kv.1 with
  | .snapshot number _ => decide (number = round)
  | _ => false

/-- Snapshot carried by a row, when its value is one. -/
def rowResult (kv : Key × Value) : Option CSmartRewardRoundResult :=
  match kv.2 with
  | .result s => some s
  | _ => none

/-! ## Transactions, blocks and `Verify` -/

/-- Source function `CSmartRewardsDB::ReadTransaction`. -/
def ReadTransaction (S : Store) (hash : uint256) : Option CSmartRewardTransaction :=
  match S.Read (.txHash hash) with
  | some (.tx t) => some t
  | _ => none

/-- Source function `CSmartRewardsDB::ReadBlock`. -/
def ReadBlock (S : Store) (nHeight : Int) : Option CSmartRewardBlock :=
  match S.Read (.block nHeight) with
  | some (.block b) => some b
  | _ => none

/-- Source function `CSmartRewardsDB::ReadLastBlock`. -/
def ReadLastBlock (S : Store) : Option CSmartRewardBlock :=
  match S.Read .blockLast with
  | some (.block b) => some b
  | _ => none

/-- Typed read `Read(DB_VERSION, dbVersion)` of the schema version (a `uint8_t`). -/
def ReadVersion (S : Store) : Option Nat :=
  match S.Read .version with
  | some (.version v) => some v
  | _ => none

/-- Modelled from the spec: the default-constructed block `CSmartRewardBlock()`,
whose constructor is declared in the header; it is the "empty" block record of
section 4.4, passed when no block is supplied. -/
def emptyBlock : CSmartRewardBlock := { nHeight := 0, blockHash := 0, blockTime := 0 }

/-- Source function `CSmartRewardsDB::SyncCached`, the overload without a block
argument: it passes a default-constructed block to the other overload. -/
def SyncCachedNoBlock (IsValid : CSmartRewardBlock → Bool) (S : Store) (io : Bool)
    (current : CSmartRewardRound) (rewards : CSmartRewardEntryMap)
    (transactions : List CSmartRewardTransaction) (fUndo : Bool) : Store × Bool :=
  SyncCached IsValid S io emptyBlock current rewards transactions fUndo

/-- Conversion `size_t(n)` of an `int`: the value itself when it is not
negative, the value plus `2^64` otherwise. -/
def size_t (n : Int) : Nat := if 0 ≤ n then n.toNat else (n + 2 ^ 64).toNat

/-- Cursor loop of `Verify` over the rows from `Seek(DB_BLOCK)` on. A block row
whose value does not decode, or whose value holds another height than its key,
ends the call with an error (`none`); a block row in order is appended to
`testBlocks`; the first row of another class ends the loop, with an error when
fewer blocks were collected than `size_t(last.nHeight)`; the end of the store
ends the loop without that test. -/
def verifyLoop (lastHeight : Int) :
    List (Key × Value) → List CSmartRewardBlock → Option (List CSmartRewardBlock)
  | [], testBlocks => some testBlocks
  | (.block nHeight, v) :: rest, testBlocks =>
      match v with
      | .block nValue =>
          if nValue.nHeight ≠ nHeight then none
          else verifyLoop lastHeight rest (testBlocks ++ [nValue])
      | _ => none
  | _ :: _, testBlocks =>
      if testBlocks.length < size_t lastHeight then none else some testBlocks

/-- Modelled from the spec: `std::sort(testBlocks)` with the `operator<` of the
header; section 4.2 says "sort by height". -/
def sortBlocks (testBlocks : List CSmartRewardBlock) : List CSmartRewardBlock :=
  testBlocks.insertionSort (fun a b => a.nHeight ≤ b.nHeight)

/-- Final loop of `Verify`, from the second sorted block on: every block has
the height of its predecessor plus one. -/
def adjacentHeights : CSmartRewardBlock → List CSmartRewardBlock → Bool
  | _, [] => true
  | prev, b :: rest => if prev.nHeight + 1 ≠ b.nHeight then false else adjacentHeights b rest

/-- Source function `CSmartRewardsDB::Verify`: the returned flag together with
the reported `lastBlockHeight`. `REWARDS_DB_VERSION` is the constant of the
header. The result is `none` where the source has no defined behaviour: the
last-block record is read, no block was collected, and the final loop starts
at `testBlocks.begin() + 1` of an empty vector. -/
def Verify (REWARDS_DB_VERSION : Nat) (S : Store) : Option (Bool × Int) :=
  match ReadVersion S with
  | none => some (false, 0)
  | some dbVersion =>
      if dbVersion < REWARDS_DB_VERSION then some (false, 0)
      else
        match ReadLastBlock S with
        | none => some (true, 0)
        | some last =>
            match verifyLoop last.nHeight (S.Seek [DB_BLOCK]) [] with
            | none => some (false, last.nHeight)
            | some testBlocks =>
                match sortBlocks testBlocks with
                | [] => none
                | first :: rest => some (adjacentHeights first rest, last.nHeight)

/-- Whether a row is a block stored by height. -/
def isBlockRow (kv : Key × Value) : Bool :=
  match kv.1 with
  | .block _ => true
  | _ => false

/-- The block ledger of the store is the heights `1..tip`: a per-height record
exists exactly for these heights and, unless `tip = 0` (no block at all, no
last-block record), the last-block record has height `tip`. -/
def LedgerContiguous (S : Store) (tip : Int) : Prop :=
  0 ≤ tip
    ∧ (∀ n : Int, S.Exists (.block n) = true ↔ 1 ≤ n ∧ n ≤ tip)
    ∧ ((tip = 0 ∧ S.Exists .blockLast = false)
      ∨ (0 < tip ∧ (ReadLastBlock S).map (fun b => b.nHeight) = some tip))

/-- Block carried by a row, when its value is one. -/
def rowBlock (kv : Key × Value) : Option CSmartRewardBlock :=
  match kv.2 with
  | .block b => some b
  | _ => none

/-- Height in the key of a block row (0 for the rows of other classes). -/
def rowHeight (kv : Key × Value) : Int :=
  match kv.1 with
  | .block nHeight => nHeight
  | _ => 0

/-! ## Payout readers -/

/-- Loop of `ReadRewardPayouts` (value list): as the loop of
`ReadRewardRoundResults`, but a decoded snapshot is appended to `payouts` only
when its reward is not zero. -/
def readPayoutsLoop (round : Int) :
    List (Key × Value) → List CSmartRewardRoundResult → Bool × List CSmartRewardRoundResult
  | [], payouts => (true, payouts)
  | (.snapshot number _, v) :: rest, payouts =>
      if number ≠ round then (true, payouts)
      else match v with
        | .result nValue =>
            readPayoutsLoop round rest
              (if nValue.reward ≠ 0 then payouts ++ [nValue] else payouts)
        | _ => (false, payouts)
  | _ :: _, payouts => (true, payouts)

/-- Source function `CSmartRewardsDB::ReadRewardPayouts`, the overload filling a
list of values. -/
def ReadRewardPayouts (S : Store) (round : Int)
    (payouts : List CSmartRewardRoundResult) : Bool × List CSmartRewardRoundResult :=
  readPayoutsLoop round (S.Seek [DB_ROUND_SNAPSHOT, round]) payouts

/-- Loop of `ReadRewardPayouts` (pointer list): each kept snapshot is a fresh
copy on the heap, listed here by its value; when a value does not decode every
listed object is deleted and the list is cleared. -/
def readPayoutsPtrLoop (round : Int) :
    List (Key × Value) → List CSmartRewardRoundResult → Bool × List CSmartRewardRoundResult
  | [], payouts => (true, payouts)
  | (.snapshot number _, v) :: rest, payouts =>
      if number ≠ round then (true, payouts)
      else match v with
        | .result nValue =>
            readPayoutsPtrLoop round rest
              (if nValue.reward ≠ 0 then payouts ++ [nValue] else payouts)
        | _ => (false, [])
  | _ :: _, payouts => (true, payouts)

/-- Source function `CSmartRewardsDB::ReadRewardPayouts`, the overload filling a
list of pointers. -/
def ReadRewardPayoutsPtr (S : Store) (round : Int)
    (payouts : List CSmartRewardRoundResult) : Bool × List CSmartRewardRoundResult :=
  readPayoutsPtrLoop round (S.Seek [DB_ROUND_SNAPSHOT, round]) payouts

/-! ## Eligibility and score -/

/-- Test `uint256::IsNull`. -/
def uint256.IsNull (x : uint256) : Bool := decide (x = 0)

/-- Source function `CSmartRewardEntry::IsEligible`. -/
def CSmartRewardEntry.IsEligible (e : CSmartRewardEntry) : Bool :=
  !uint256.IsNull e.voteProof && uint256.IsNull e.smartnodePaymentTx
    && decide (e.balanceEligible > 0) && uint256.IsNull e.disqualifyingTx

/-- Flag `voteProofFlag` of the specification: the vote proof is set. -/
def voteProofFlag (e : CSmartRewardEntry) : Bool := decide (e.voteProof ≠ 0)

/-- Flag `smartnodeFlag` of the specification: a smartnode payment transaction
is recorded for the address. -/
def smartnodeFlag (e : CSmartRewardEntry) : Bool := decide (e.smartnodePaymentTx ≠ 0)

/-- Flag `disqualifyingFlag` of the specification: a disqualifying transaction
is recorded for the address. -/
def disqualifyingFlag (e : CSmartRewardEntry) : Bool := decide (e.disqualifyingTx ≠ 0)

/-- The derived predicate `IsEligible` in the words of the specification
(section 3): `voteProofFlag ∧ ¬smartnodeFlag ∧ balanceEligible>0 ∧
¬disqualifyingFlag`. -/
def IsEligibleSpec (e : CSmartRewardEntry) : Bool :=
  voteProofFlag e && !smartnodeFlag e && decide (e.balanceEligible > 0)
    && !disqualifyingFlag e

/-- Eligible amount shown for a change address in
`SmartrewardsList::updateOverviewUI`, once its reward entry was found.
`nFirst_1_3_Round` is the consensus parameter `nRewardsFirst_1_3_Round`. -/
def changeAddressEligible (nFirst_1_3_Round : Int) (currentRound : CSmartRewardRound)
    (reward : CSmartRewardEntry) : Int :=
  if currentRound.number < nFirst_1_3_Round then reward.balanceEligible
  else if reward.IsEligible then reward.balanceEligible else 0

/-- Eligible amount shown for a wallet address in
`SmartrewardsList::updateOverviewUI`, once its reward entry was found. -/
def walletAddressEligible (nFirst_1_3_Round : Int) (currentRound : CSmartRewardRound)
    (reward : CSmartRewardEntry) : Int :=
  if currentRound.number < nFirst_1_3_Round then reward.balanceEligible
  else if reward.IsEligible then reward.balanceEligible else 0

/-- Source function `CSmartRewardRoundResult::CalculateScore`. `GetHash` is the
hash of the `CHashWriter` stream (not in the sources), applied to what was
written to it: the reward, the address and the block hash, in that order. -/
def CSmartRewardRoundResult.CalculateScore (GetHash : List Int → uint256)
    (r : CSmartRewardRoundResult) (blockHash : uint256) : Nat :=
  GetHash [r.reward, (r.entry.id : Int), (blockHash : Int)]

/-! ## The database object and its lock flag -/

/-- A `CSmartRewardsDB` instance: the store it is opened on and its in-memory
member `locked`. -/
structure CSmartRewardsDB where
  store : Store
  locked : Bool
deriving DecidableEq, Repr

/-- Constructor `CSmartRewardsDB::CSmartRewardsDB`, given the store as the base
class has opened it (empty when wiped): `locked` is cleared and the version
marker is written when it is absent. `io` is the outcome of that write. -/
def CSmartRewardsDB.construct (REWARDS_DB_VERSION : Nat) (opened : Store) (io : Bool) :
    CSmartRewardsDB :=
  { store :=
      if !opened.Exists .version then
        (WriteBatch opened io [.write .version (.version REWARDS_DB_VERSION)]).1
      else opened,
    locked := false }

/-- Source function `CSmartRewardsDB::Lock`; `io` is the outcome of the write. -/
def CSmartRewardsDB.Lock (db : CSmartRewardsDB) (io : Bool) : CSmartRewardsDB :=
  { store := (WriteBatch db.store io [.write .lock (.lock 1)]).1, locked := true }

/-- Source function `CSmartRewardsDB::Unlock`; `io` is the outcome of the erase. -/
def CSmartRewardsDB.Unlock (db : CSmartRewardsDB) (io : Bool) : CSmartRewardsDB :=
  if db.locked then { db with store := (WriteBatch db.store io [.erase .lock]).1 } else db

/-- Source function `CSmartRewardsDB::IsLocked`. -/
def CSmartRewardsDB.IsLocked (db : CSmartRewardsDB) : Bool := db.store.Exists .lock

/-- A call of one of the four batch operations, with its arguments. -/
inductive BatchCall where
  | syncCached (block : CSmartRewardBlock) (current : CSmartRewardRound)
      (rewards : CSmartRewardEntryMap) (transactions : List CSmartRewardTransaction)
      (fUndo : Bool)
  | startFirstRound (start : CSmartRewardRound) (entries : List CSmartRewardEntry)
  | finalizeRound (current next : CSmartRewardRound) (entries : List CSmartRewardEntry)
      (results : List CSmartRewardRoundResult)
  | undoFinalizeRound (current : CSmartRewardRound)
      (results : List CSmartRewardRoundResult)

/-- Batch a call hands to `WriteBatch`. -/
def BatchCall.batch (IsValid : CSmartRewardBlock → Bool) : BatchCall → CDBBatch
  | .syncCached block current rewards transactions fUndo =>
      syncCachedBatch IsValid block current rewards transactions fUndo
  | .startFirstRound start entries => startFirstRoundBatch start entries
  | .finalizeRound current next entries results =>
      finalizeRoundBatch current next entries results
  | .undoFinalizeRound current results => undoFinalizeRoundBatch current results

/-- Store and returned flag of a call whose batch write has the outcome `io`. -/
def BatchCall.run (IsValid : CSmartRewardBlock → Bool) (S : Store) (io : Bool) :
    BatchCall → Store × Bool
  | .syncCached block current rewards transactions fUndo =>
      SyncCached IsValid S io block current rewards transactions fUndo
  | .startFirstRound start entries => StartFirstRound S io start entries
  | .finalizeRound current next entries results =>
      FinalizeRound S io current next entries results
  | .undoFinalizeRound current results => UndoFinalizeRound S io current results

/-- Store after a sequence of calls, each with the outcome of its batch write. -/
def runCalls (IsValid : CSmartRewardBlock → Bool) : Store → List (BatchCall × Bool) → Store
  | S, [] => S
  | S, (c, io) :: rest => runCalls IsValid (c.run IsValid S io).1 rest

/-- The instance after a sequence of batch calls made through it. -/
def CSmartRewardsDB.runCalls (IsValid : CSmartRewardBlock → Bool) (db : CSmartRewardsDB)
    (calls : List (BatchCall × Bool)) : CSmartRewardsDB :=
  { db with store := SmartRewards.runCalls IsValid db.store calls }

/-- No per-height block record of the store lies above the height `nHeight`. -/
def heightsAtMost (S : Store) (nHeight : Int) : Bool :=
  (S.filter isBlockRow).all (fun x => decide (rowHeight x ≤ nHeight))

/-- Every valid block supplied to `SyncCached` in the sequence of calls has a
height that is not below a per-height record stored at that moment. -/
def blocksAscending (IsValid : CSmartRewardBlock → Bool) :
    Store → List (BatchCall × Bool) → Bool
  | _, [] => true
  | S, (c, io) :: rest =>
      (match c with
        | .syncCached block _ _ _ _ => !IsValid block || heightsAtMost S block.nHeight
        | _ => true)
      && blocksAscending IsValid (c.run IsValid S io).1 rest

/-- The last-block record, when there is one, is the per-height record stored
under its own height, and no per-height record is stored above it. -/
def LastBlockMirrors (S : Store) : Prop :=
  ∀ last : CSmartRewardBlock, ReadLastBlock S = some last →
    ReadBlock S last.nHeight = some last
      ∧ ∀ n : Int, S.Exists (.block n) = true → n ≤ last.nHeight

/-! ## Sample data (the scenario of section 8 of the specification) -/

/-- Entry of address `A`: balance 100, all of it eligible, vote proof set. -/
def entryA : CSmartRewardEntry :=
  { id := 1, balance := 100, balanceEligible := 100, smartnodePaymentTx := 0,
    voteProof := 7, disqualifyingTx := 0 }

/-- Entry of address `B`: balance 50, nothing eligible. -/
def entryB : CSmartRewardEntry :=
  { id := 2, balance := 50, balanceEligible := 0, smartnodePaymentTx := 0,
    voteProof := 0, disqualifyingTx := 0 }

/-- Entry of address `A` once its balance has dropped to zero. -/
def entryAZero : CSmartRewardEntry :=
  { id := 1, balance := 0, balanceEligible := 0, smartnodePaymentTx := 0,
    voteProof := 0, disqualifyingTx := 0 }

/-- Entry of address `A` after the round boundary: eligibility fields reset. -/
def entryANext : CSmartRewardEntry :=
  { id := 1, balance := 100, balanceEligible := 100, smartnodePaymentTx := 0,
    voteProof := 0, disqualifyingTx := 0 }

/-- Header of round 1. -/
def round1 : CSmartRewardRound :=
  { number := 1, startBlockHeight := 1, startBlockTime := 1000, endBlockHeight := 10,
    endBlockTime := 2000, eligibleEntries := 1, eligibleSmart := 100, percent := 1 }

/-- Header of round 2. -/
def round2 : CSmartRewardRound :=
  { number := 2, startBlockHeight := 11, startBlockTime := 2001, endBlockHeight := 20,
    endBlockTime := 3000, eligibleEntries := 0, eligibleSmart := 0, percent := 0 }

/-- Header of a round numbered 5. -/
def round5 : CSmartRewardRound :=
  { number := 5, startBlockHeight := 11, startBlockTime := 2001, endBlockHeight := 20,
    endBlockTime := 3000, eligibleEntries := 0, eligibleSmart := 0, percent := 0 }

/-- Snapshot of `A` for round 1, reward 1. -/
def resultA : CSmartRewardRoundResult := { entry := entryA, reward := 1 }

/-- Snapshot of `B` for round 1, reward 0. -/
def resultB : CSmartRewardRoundResult := { entry := entryB, reward := 0 }

/-- A block at height 1. -/
def block1 : CSmartRewardBlock := { nHeight := 1, blockHash := 11, blockTime := 1000 }

/-- A transaction guard. -/
def tx1 : CSmartRewardTransaction := { hash := 77, blockHeight := 1 }

/-- A validity test for blocks used in the examples: the hash is not null. -/
def hashNotNull (b : CSmartRewardBlock) : Bool := decide (b.blockHash ≠ 0)

/-- Store of the scenario during round 1: entries of `A` and `B`, round 1 current. -/
def storeRound1 : Store :=
  [(.rewardEntry 1, .entry entryA), (.rewardEntry 2, .entry entryB),
   (.roundCurrent, .round round1)]

/-- Snapshot of an address `C` (id 3) that has no reward entry. -/
def resultC : CSmartRewardRoundResult :=
  { entry := { id := 3, balance := 10, balanceEligible := 10, smartnodePaymentTx := 0,
               voteProof := 0, disqualifyingTx := 0 },
    reward := 0 }

/-- Header of round 3. -/
def round3 : CSmartRewardRound :=
  { number := 3, startBlockHeight := 21, startBlockTime := 3001, endBlockHeight := 30,
    endBlockTime := 4000, eligibleEntries := 0, eligibleSmart := 0, percent := 0 }

/-- Snapshot of `A` for round 2, reward 0. -/
def resultA2 : CSmartRewardRoundResult := { entry := entryANext, reward := 0 }

/-- Store of the scenario during round 2: round 1 finalized, with its two
snapshots. -/
def storeRound2 : Store :=
  [(.rewardEntry 1, .entry entryANext), (.rewardEntry 2, .entry entryB),
   (.roundCurrent, .round round2), (.round 1, .round round1),
   (.snapshot 1 1, .result resultA), (.snapshot 1 2, .result resultB)]

/-- A block at height 2. -/
def block2 : CSmartRewardBlock := { nHeight := 2, blockHash := 12, blockTime := 1100 }

/-- A block at height 3. -/
def block3 : CSmartRewardBlock := { nHeight := 3, blockHash := 13, blockTime := 1200 }

/-- A block at height 5. -/
def block5 : CSmartRewardBlock := { nHeight := 5, blockHash := 15, blockTime := 1400 }

/-- A second transaction guard with the hash of `tx1`. -/
def tx1Again : CSmartRewardTransaction := { hash := 77, blockHeight := 2 }

/-- Another transaction guard. -/
def tx2 : CSmartRewardTransaction := { hash := 78, blockHeight := 2 }

/-- Store with a two-block ledger: blocks 1 and 2, last block 2, version 10,
round 1 current, the guard of `tx1`. -/
def storeBlocks2 : Store :=
  [(.block 1, .block block1), (.block 2, .block block2),
   (.rewardEntry 1, .entry entryA), (.roundCurrent, .round round1),
   (.version, .version 10), (.blockLast, .block block2), (.txHash 77, .tx tx1)]

/-- Fresh store: only the version marker. -/
def storeFresh : Store := [(.version, .version 10)]

/-- Ledger of three blocks from which height 2 was removed; last block 3. -/
def storeGap : Store :=
  [(.block 1, .block block1), (.block 3, .block block3),
   (.version, .version 10), (.blockLast, .block block3)]

/-- Ledger with the blocks 1, 2 and 3 whose last-block record is block 2 (the
state after block 3 was disconnected). -/
def storeAhead : Store :=
  [(.block 1, .block block1), (.block 2, .block block2), (.block 3, .block block3),
   (.version, .version 10), (.blockLast, .block block2)]

/-- Ledger with the blocks 2 and 3 only, last block 2. -/
def storeNoFirst : Store :=
  [(.block 2, .block block2), (.block 3, .block block3),
   (.version, .version 10), (.blockLast, .block block2)]

/-- Entry whose eligible balance is negative. -/
def entryNegative : CSmartRewardEntry :=
  { id := 4, balance := 20, balanceEligible := -5, smartnodePaymentTx := 0,
    voteProof := 0, disqualifyingTx := 0 }

/-- Snapshot with the reward and address of `resultA` and other entry fields. -/
def resultAOther : CSmartRewardRoundResult :=
  { entry := { id := 1, balance := 999, balanceEligible := 0, smartnodePaymentTx := 5,
               voteProof := 0, disqualifyingTx := 9 },
    reward := 1 }

/-- A stand-in for the stream hash in the examples. -/
def sampleHash (stream : List Int) : uint256 :=
  stream.foldl (fun acc x => (acc * 31 + x.toNat) % 1000003) 7

/-- Another header numbered 1, differing from `round1` in its counters. -/
def round1Other : CSmartRewardRound :=
  { number := 1, startBlockHeight := 1, startBlockTime := 1000, endBlockHeight := 10,
    endBlockTime := 2000, eligibleEntries := 2, eligibleSmart := 150, percent := 2 }

theorem Store.read_write_same (S : Store) (k : Key) (v : Value) :
    (S.Write k v).Read k = some v := by
  induction S with
  | nil => simp [Store.Write, Store.Read]
  | cons hd tl ih =>
    obtain ⟨k', v'⟩ := hd
    unfold Store.Write
    by_cases h1 : k' = k
    · simp [h1, Store.Read]
    · by_cases h2 : codeLt k.code k'.code = true
      · simp [h1, h2, Store.Read]
      · simp [h1, h2, Store.Read, ih]

theorem Store.read_write_other (S : Store) {k k' : Key} (v : Value) (h : k' ≠ k) :
    (S.Write k v).Read k' = S.Read k' := by
  induction S with
  | nil => simp [Store.Write, Store.Read, Ne.symm h]
  | cons hd tl ih =>
    obtain ⟨k₀, v₀⟩ := hd
    unfold Store.Write
    by_cases h1 : k₀ = k
    · subst h1
      simp [Store.Read, Ne.symm h]
    · by_cases h2 : codeLt k.code k₀.code = true
      · simp [h1, h2, Store.Read, Ne.symm h]
      · simp only [h1, h2, if_false, Store.Read, ih]

theorem Store.read_erase_same (S : Store) (k : Key) : (S.Erase k).Read k = none := by
  induction S with
  | nil => simp [Store.Erase, Store.Read]
  | cons hd tl ih =>
    obtain ⟨k₀, v₀⟩ := hd
    by_cases h1 : k₀ = k
    · simpa [Store.Erase, List.filter_cons, h1] using ih
    · simpa [Store.Erase, List.filter_cons, h1, Store.Read] using ih

theorem Store.read_erase_other (S : Store) {k k' : Key} (h : k' ≠ k) :
    (S.Erase k).Read k' = S.Read k' := by
  induction S with
  | nil => simp [Store.Erase, Store.Read]
  | cons hd tl ih =>
    obtain ⟨k₀, v₀⟩ := hd
    by_cases h1 : k₀ = k
    · subst h1
      simpa [Store.Erase, List.filter_cons, Store.Read, Ne.symm h] using ih
    · by_cases h2 : k₀ = k'
      · subst h2
        simp [Store.Erase, List.filter_cons, h1, Store.Read]
      · simpa [Store.Erase, List.filter_cons, h1, Store.Read, h2] using ih

theorem Store.read_apply_same (S : Store) (op : BatchOp) :
    (S.apply op).Read op.key = op.effect := by
  cases op with
  | write k v => exact Store.read_write_same S k v
  | erase k => exact Store.read_erase_same S k

theorem Store.read_apply_other (S : Store) (op : BatchOp) {k : Key} (h : k ≠ op.key) :
    (S.apply op).Read k = S.Read k := by
  cases op with
  | write k₀ v => exact Store.read_write_other S v h
  | erase k₀ => exact Store.read_erase_other S h

/-- A batch leaves every key it has no operation on as it was. -/
theorem Store.read_foldl_other (ops : List BatchOp) (S : Store) {k : Key}
    (h : ∀ op ∈ ops, k ≠ op.key) : (ops.foldl Store.apply S).Read k = S.Read k := by
  induction ops generalizing S with
  | nil => rfl
  | cons op tl ih =>
    rw [List.foldl_cons, ih _ (fun o ho => h o (List.mem_cons_of_mem _ ho)),
      Store.read_apply_other S op (h op (List.mem_cons_self _ _))]

/-- The value under a key a batch operates on is the effect of one of the
operations on that key (the last one), whatever the store held before. -/
theorem Store.read_foldl_touched (ops : List BatchOp) (S : Store) {k : Key}
    (h : ∃ op ∈ ops, op.key = k) :
    ∃ op ∈ ops, op.key = k ∧ ∀ S' : Store, (ops.foldl Store.apply S').Read k = op.effect := by
  induction ops generalizing S with
  | nil => simp at h
  | cons op tl ih =>
    by_cases ht : ∃ o ∈ tl, o.key = k
    · obtain ⟨o, ho, hk, hr⟩ := ih (S.apply op) ht
      exact ⟨o, List.mem_cons_of_mem _ ho, hk, fun S' => by rw [List.foldl_cons]; exact hr _⟩
    · have hop : op.key = k := by
        obtain ⟨o, ho, hk⟩ := h
        rcases List.mem_cons.mp ho with rfl | ho'
        · exact hk
        · exact absurd ⟨o, ho', hk⟩ ht
      refine ⟨op, List.mem_cons_self _ _, hop, fun S' => ?_⟩
      have hnot : ∀ o ∈ tl, k ≠ o.key := fun o ho hk => ht ⟨o, ho, hk.symm⟩
      rw [List.foldl_cons, Store.read_foldl_other tl _ hnot, ← hop]
      exact Store.read_apply_same S' op

/-- When the operations after `op` leave its key alone, the batch leaves the
effect of `op` under that key. -/
theorem Store.read_foldl_split (pre post : List BatchOp) (op : BatchOp) (S : Store)
    (h : ∀ o ∈ post, op.key ≠ o.key) :
    ((pre ++ op :: post).foldl Store.apply S).Read op.key = op.effect := by
  rw [List.foldl_append, List.foldl_cons, Store.read_foldl_other post _ h]
  exact Store.read_apply_same _ op


theorem WriteBatch_success {S : Store} {io : Bool} {batch : CDBBatch}
    (h : (WriteBatch S io batch).2 = true) :
    (WriteBatch S io batch).1 = batch.foldl Store.apply S := by
  cases io <;> simp_all [WriteBatch]

/-! ## FinalizeRound: the round records -/

/-- C7: after a successful `FinalizeRound(current, next, entries, results)`,
`ReadRound(current.number)` returns `current` and `ReadCurrentRound` returns
`next`, whatever the store held before. -/
theorem finalizeRound_reads_rounds (S : Store) (io : Bool)
    (current next : CSmartRewardRound) (entries : List CSmartRewardEntry)
    (results : List CSmartRewardRoundResult)
    (h : (FinalizeRound S io current next entries results).2 = true) :
    ReadRound (FinalizeRound S io current next entries results).1 current.number
        = some current
      ∧ ReadCurrentRound (FinalizeRound S io current next entries results).1 = some next := by
  unfold FinalizeRound finalizeRoundBatch at h ⊢
  rw [WriteBatch_success h]
  constructor
  · have hr := Store.read_foldl_split
      (results.map (fun s => BatchOp.write (.snapshot current.number s.entry.id) (.result s))
        ++ entries.map (fun e => BatchOp.write (.rewardEntry e.id) (.entry e)))
      [BatchOp.write .roundCurrent (.round next)]
      (BatchOp.write (.round current.number) (.round current)) S
      (by intro o ho; simp at ho; subst ho; simp [BatchOp.key])
    simp only [BatchOp.key, BatchOp.effect] at hr
    simp only [ReadRound, hr]
  · have hr := Store.read_foldl_split
      (results.map (fun s => BatchOp.write (.snapshot current.number s.entry.id) (.result s))
        ++ entries.map (fun e => BatchOp.write (.rewardEntry e.id) (.entry e))
        ++ [BatchOp.write (.round current.number) (.round current)])
      [] (BatchOp.write .roundCurrent (.round next)) S (by simp)
    simp only [BatchOp.key, BatchOp.effect, List.append_assoc, List.singleton_append] at hr
    simp only [ReadCurrentRound, List.append_assoc, hr]

theorem finalizeRound_reads_rounds_witness :
    (FinalizeRound storeRound1 true round1 round2 [entryANext, entryB] [resultA, resultB]).2
        = true
      ∧ ReadRound
          (FinalizeRound storeRound1 true round1 round2 [entryANext, entryB]
            [resultA, resultB]).1 round1.number = some round1
      ∧ ReadCurrentRound
          (FinalizeRound storeRound1 true round1 round2 [entryANext, entryB]
            [resultA, resultB]).1 = some round2 :=
  ⟨rfl, finalizeRound_reads_rounds storeRound1 true round1 round2 [entryANext, entryB]
    [resultA, resultB] rfl⟩


/-! ## UndoFinalizeRound -/

/-- C9: after a successful `UndoFinalizeRound(current, results)` no snapshot is
stored under `(current.number, s.entry.id)` for any `s` in `results`, no
finalized-round record is stored under `current.number` (so `ReadRound` fails),
and `ReadCurrentRound` returns `current`. -/
theorem undoFinalizeRound_erases (S : Store) (io : Bool) (current : CSmartRewardRound)
    (results : List CSmartRewardRoundResult)
    (h : (UndoFinalizeRound S io current results).2 = true) :
    (∀ s ∈ results,
        (UndoFinalizeRound S io current results).1.Exists
          (.snapshot current.number s.entry.id) = false)
      ∧ (UndoFinalizeRound S io current results).1.Exists (.round current.number) = false
      ∧ ReadRound (UndoFinalizeRound S io current results).1 current.number = none
      ∧ ReadCurrentRound (UndoFinalizeRound S io current results).1 = some current := by
  unfold UndoFinalizeRound undoFinalizeRoundBatch at h ⊢
  rw [WriteBatch_success h]
  have hround : (List.foldl Store.apply S
      ((results.map (undoResultOps current.number)).flatten
        ++ [BatchOp.erase (.round current.number),
            BatchOp.write .roundCurrent (.round current)])).Read (.round current.number)
      = none := by
    have hr := Store.read_foldl_split
      (results.map (undoResultOps current.number)).flatten
      [BatchOp.write .roundCurrent (.round current)]
      (BatchOp.erase (.round current.number)) S
      (by intro o ho; simp at ho; subst ho; simp [BatchOp.key])
    simpa only [BatchOp.key, BatchOp.effect] using hr
  refine ⟨?_, ?_, ?_, ?_⟩
  · intro s hs
    obtain ⟨op, hop, hk, hr⟩ := Store.read_foldl_touched
      ((results.map (undoResultOps current.number)).flatten
        ++ [BatchOp.erase (.round current.number),
            BatchOp.write .roundCurrent (.round current)]) S
      (k := .snapshot current.number s.entry.id)
      ⟨BatchOp.erase (.snapshot current.number s.entry.id), by
        simp only [List.mem_append, List.mem_flatten, List.mem_map]
        exact Or.inl ⟨_, ⟨s, hs, rfl⟩, by simp [undoResultOps]⟩, rfl⟩
    have heff : op.effect = none := by
      simp only [List.mem_append, List.mem_flatten, List.mem_map] at hop
      rcases hop with ⟨l, ⟨s', _, rfl⟩, hin⟩ | hin
      · simp only [undoResultOps, List.mem_cons, List.mem_singleton, List.not_mem_nil,
          or_false] at hin
        rcases hin with rfl | rfl
        · rfl
        · simp [BatchOp.key] at hk
      · simp only [List.mem_cons, List.mem_singleton, List.not_mem_nil, or_false] at hin
        rcases hin with rfl | rfl
        · rfl
        · simp [BatchOp.key] at hk
    rw [Store.Exists, hr S, heff]
    rfl
  · rw [Store.Exists, hround]
    rfl
  · simp only [ReadRound, hround]
  · have hr := Store.read_foldl_split
      ((results.map (undoResultOps current.number)).flatten
        ++ [BatchOp.erase (.round current.number)])
      [] (BatchOp.write .roundCurrent (.round current)) S (by simp)
    simp only [BatchOp.key, BatchOp.effect, List.append_assoc, List.singleton_append] at hr
    simp only [ReadCurrentRound, hr]

theorem undoFinalizeRound_erases_witness :
    (UndoFinalizeRound
        (FinalizeRound storeRound1 true round1 round2 [entryANext, entryB]
          [resultA, resultB]).1 true round1 [resultA, resultB]).2 = true
      ∧ ((∀ s ∈ [resultA, resultB],
          (UndoFinalizeRound
            (FinalizeRound storeRound1 true round1 round2 [entryANext, entryB]
              [resultA, resultB]).1 true round1 [resultA, resultB]).1.Exists
            (.snapshot round1.number s.entry.id) = false)
        ∧ (UndoFinalizeRound
            (FinalizeRound storeRound1 true round1 round2 [entryANext, entryB]
              [resultA, resultB]).1 true round1 [resultA, resultB]).1.Exists
            (.round round1.number) = false
        ∧ ReadRound
            (UndoFinalizeRound
              (FinalizeRound storeRound1 true round1 round2 [entryANext, entryB]
                [resultA, resultB]).1 true round1 [resultA, resultB]).1 round1.number = none
        ∧ ReadCurrentRound
            (UndoFinalizeRound
              (FinalizeRound storeRound1 true round1 round2 [entryANext, entryB]
                [resultA, resultB]).1 true round1 [resultA, resultB]).1 = some round1) :=
  ⟨rfl, undoFinalizeRound_erases _ true round1 [resultA, resultB] rfl⟩

/-- C10: for a `results` list with pairwise distinct addresses, after a
successful `UndoFinalizeRound(current, results)` the entry read under
`s.entry.id` is `s.entry` for every `s` in `results`, and the entries of every
address that does not occur in `results` read as before. -/
theorem undoFinalizeRound_restores_entries (S : Store) (io : Bool)
    (current : CSmartRewardRound) (results : List CSmartRewardRoundResult)
    (hd : (results.map (fun s => s.entry.id)).Nodup)
    (h : (UndoFinalizeRound S io current results).2 = true) :
    (∀ s ∈ results,
        ReadRewardEntry (UndoFinalizeRound S io current results).1 s.entry.id = some s.entry)
      ∧ (∀ id : CSmartAddress, (∀ s ∈ results, s.entry.id ≠ id) →
          ReadRewardEntry (UndoFinalizeRound S io current results).1 id
            = ReadRewardEntry S id) := by
  unfold UndoFinalizeRound undoFinalizeRoundBatch at h ⊢
  rw [WriteBatch_success h]
  constructor
  · intro s hs
    obtain ⟨l₁, l₂, rfl⟩ := List.append_of_mem hs
    have hnot : ∀ s' ∈ l₂, s'.entry.id ≠ s.entry.id := by
      intro s' hs' heq
      rw [List.map_append, List.map_cons] at hd
      have h2 := (List.nodup_append.mp hd).2.1
      rw [List.nodup_cons] at h2
      exact h2.1 (List.mem_map.mpr ⟨s', hs', heq⟩)
    have hr := Store.read_foldl_split
      ((l₁.map (undoResultOps current.number)).flatten
        ++ [BatchOp.erase (.snapshot current.number s.entry.id)])
      ((l₂.map (undoResultOps current.number)).flatten
        ++ [BatchOp.erase (.round current.number),
            BatchOp.write .roundCurrent (.round current)])
      (BatchOp.write (.rewardEntry s.entry.id) (.entry s.entry)) S
      (by
        intro o ho
        simp only [List.mem_append, List.mem_flatten, List.mem_map] at ho
        rcases ho with ⟨l, ⟨s', hs', rfl⟩, hin⟩ | hin
        · simp only [undoResultOps, List.mem_cons, List.mem_singleton, List.not_mem_nil,
            or_false] at hin
          rcases hin with rfl | rfl
          · simp [BatchOp.key]
          · simpa [BatchOp.key] using (hnot s' hs').symm
        · simp only [List.mem_cons, List.mem_singleton, List.not_mem_nil, or_false] at hin
          rcases hin with rfl | rfl <;> simp [BatchOp.key])
    simp only [BatchOp.key, BatchOp.effect] at hr
    have hshape : (List.map (undoResultOps current.number) (l₁ ++ s :: l₂)).flatten
          ++ [BatchOp.erase (.round current.number),
              BatchOp.write .roundCurrent (.round current)]
        = ((l₁.map (undoResultOps current.number)).flatten
            ++ [BatchOp.erase (.snapshot current.number s.entry.id)])
          ++ BatchOp.write (.rewardEntry s.entry.id) (.entry s.entry)
            :: ((l₂.map (undoResultOps current.number)).flatten
              ++ [BatchOp.erase (.round current.number),
                  BatchOp.write .roundCurrent (.round current)]) := by
      simp [undoResultOps]
    rw [hshape]
    simp only [ReadRewardEntry, hr]
  · intro id hid
    have hr := Store.read_foldl_other
      ((results.map (undoResultOps current.number)).flatten
        ++ [BatchOp.erase (.round current.number),
            BatchOp.write .roundCurrent (.round current)]) S (k := .rewardEntry id)
      (by
        intro o ho
        simp only [List.mem_append, List.mem_flatten, List.mem_map] at ho
        rcases ho with ⟨l, ⟨s', hs', rfl⟩, hin⟩ | hin
        · simp only [undoResultOps, List.mem_cons, List.mem_singleton, List.not_mem_nil,
            or_false] at hin
          rcases hin with rfl | rfl
          · simp [BatchOp.key]
          · simpa [BatchOp.key] using (hid s' hs').symm
        · simp only [List.mem_cons, List.mem_singleton, List.not_mem_nil, or_false] at hin
          rcases hin with rfl | rfl <;> simp [BatchOp.key])
    simp only [ReadRewardEntry, hr]

theorem undoFinalizeRound_restores_entries_witness :
    ([resultA, resultB].map (fun s => s.entry.id)).Nodup
      ∧ (UndoFinalizeRound
          (FinalizeRound storeRound1 true round1 round2 [entryANext, entryB]
            [resultA, resultB]).1 true round1 [resultA, resultB]).2 = true
      ∧ ((∀ s ∈ [resultA, resultB],
          ReadRewardEntry
            (UndoFinalizeRound
              (FinalizeRound storeRound1 true round1 round2 [entryANext, entryB]
                [resultA, resultB]).1 true round1 [resultA, resultB]).1 s.entry.id
            = some s.entry)
        ∧ (∀ id : CSmartAddress, (∀ s ∈ [resultA, resultB], s.entry.id ≠ id) →
          ReadRewardEntry
            (UndoFinalizeRound
              (FinalizeRound storeRound1 true round1 round2 [entryANext, entryB]
                [resultA, resultB]).1 true round1 [resultA, resultB]).1 id
            = ReadRewardEntry
                (FinalizeRound storeRound1 true round1 round2 [entryANext, entryB]
                  [resultA, resultB]).1 id)) :=
  ⟨by decide, rfl,
    undoFinalizeRound_restores_entries _ true round1 [resultA, resultB] (by decide) rfl⟩


/-! ## SyncCached: entries -/

theorem syncEntryOp_key (r : CSmartAddress × CSmartRewardEntry) :
    (syncEntryOp r).key = .rewardEntry r.1 := by
  unfold syncEntryOp
  split <;> rfl

theorem syncTxOp_key (fUndo : Bool) (t : CSmartRewardTransaction) :
    (syncTxOp fUndo t).key = .txHash t.hash := by
  unfold syncTxOp
  split <;> rfl

/-- The operations `SyncCached` records after the entry loop act on no reward
entry. -/
theorem syncCached_tail_keys (IsValid : CSmartRewardBlock → Bool)
    (block : CSmartRewardBlock) (current : CSmartRewardRound)
    (transactions : List CSmartRewardTransaction) (fUndo : Bool) (o : BatchOp)
    (ho : o ∈ transactions.map (syncTxOp fUndo)
      ++ (if IsValid block then
            [BatchOp.write (.block block.nHeight) (.block block),
             BatchOp.write .blockLast (.block block)]
          else [])
      ++ [BatchOp.write .roundCurrent (.round current)]) (id : CSmartAddress) :
    Key.rewardEntry id ≠ o.key := by
  simp only [List.mem_append, List.mem_map, List.mem_singleton] at ho
  rcases ho with (⟨t, _, rfl⟩ | hb) | rfl
  · rw [syncTxOp_key]
    simp
  · split at hb
    · simp only [List.mem_cons, List.mem_singleton, List.not_mem_nil, or_false] at hb
      rcases hb with rfl | rfl <;> simp [BatchOp.key]
    · simp at hb
  · simp [BatchOp.key]

theorem readRewardEntry_eq_some (S : Store) (id : CSmartAddress) (e : CSmartRewardEntry) :
    ReadRewardEntry S id = some e ↔ S.Read (.rewardEntry id) = some (.entry e) := by
  unfold ReadRewardEntry
  split
  · rename_i e' heq
    rw [heq]
    simp
  · rename_i hne
    constructor
    · intro h
      cases h
    · intro h
      exact absurd h (hne e)

/-- C2: for a map of changed entries (each address once), after a successful
`SyncCached` every address of the map whose entry has balance `≤ 0` has no
stored reward entry and `ReadRewardEntry` fails for it, and every address whose
entry has balance `> 0` reads back exactly that entry. -/
theorem syncCached_tombstones (IsValid : CSmartRewardBlock → Bool) (S : Store) (io : Bool)
    (block : CSmartRewardBlock) (current : CSmartRewardRound)
    (rewards : CSmartRewardEntryMap) (transactions : List CSmartRewardTransaction)
    (fUndo : Bool)
    (hd : (rewards.map Prod.fst).Nodup)
    (h : (SyncCached IsValid S io block current rewards transactions fUndo).2 = true) :
    ∀ r ∈ rewards,
      (r.2.balance ≤ 0 →
          (SyncCached IsValid S io block current rewards transactions fUndo).1.Exists
              (.rewardEntry r.1) = false
            ∧ ReadRewardEntry
                (SyncCached IsValid S io block current rewards transactions fUndo).1 r.1
              = none)
        ∧ (0 < r.2.balance →
          ReadRewardEntry
              (SyncCached IsValid S io block current rewards transactions fUndo).1 r.1
            = some r.2) := by
  intro r hr
  unfold SyncCached syncCachedBatch at h ⊢
  rw [WriteBatch_success h]
  obtain ⟨l₁, l₂, rfl⟩ := List.append_of_mem hr
  have hnot : ∀ r' ∈ l₂, r'.1 ≠ r.1 := by
    intro r' hr' heq
    rw [List.map_append, List.map_cons] at hd
    have h2 := (List.nodup_append.mp hd).2.1
    rw [List.nodup_cons] at h2
    exact h2.1 (List.mem_map.mpr ⟨r', hr', heq⟩)
  have hread := Store.read_foldl_split (l₁.map syncEntryOp)
    (l₂.map syncEntryOp
      ++ (transactions.map (syncTxOp fUndo)
        ++ (if IsValid block then
              [BatchOp.write (.block block.nHeight) (.block block),
               BatchOp.write .blockLast (.block block)]
            else [])
        ++ [BatchOp.write .roundCurrent (.round current)]))
    (syncEntryOp r) S
    (by
      intro o ho
      rw [syncEntryOp_key]
      rcases List.mem_append.mp ho with ho | ho
      · obtain ⟨r', hr', rfl⟩ := List.mem_map.mp ho
        rw [syncEntryOp_key]
        intro heq
        exact hnot r' hr' (by injection heq with heq; exact heq.symm)
      · exact syncCached_tail_keys IsValid block current transactions fUndo o ho r.1)
  rw [syncEntryOp_key] at hread
  have hshape : List.map syncEntryOp (l₁ ++ r :: l₂)
        ++ transactions.map (syncTxOp fUndo)
        ++ (if IsValid block then
              [BatchOp.write (.block block.nHeight) (.block block),
               BatchOp.write .blockLast (.block block)]
            else [])
        ++ [BatchOp.write .roundCurrent (.round current)]
      = l₁.map syncEntryOp ++ syncEntryOp r
        :: (l₂.map syncEntryOp
          ++ (transactions.map (syncTxOp fUndo)
            ++ (if IsValid block then
                  [BatchOp.write (.block block.nHeight) (.block block),
                   BatchOp.write .blockLast (.block block)]
                else [])
            ++ [BatchOp.write .roundCurrent (.round current)])) := by
    simp only [List.map_append, List.map_cons, List.append_assoc, List.cons_append]
  rw [hshape]
  constructor
  · intro hb
    have heff : (syncEntryOp r).effect = none := by
      simp [syncEntryOp, hb, BatchOp.effect]
    rw [heff] at hread
    constructor
    · rw [Store.Exists, hread]
      rfl
    · simp only [ReadRewardEntry, hread]
  · intro hb
    have heff : (syncEntryOp r).effect = some (.entry r.2) := by
      simp [syncEntryOp, not_le.mpr hb, BatchOp.effect]
    rw [heff] at hread
    simp only [ReadRewardEntry, hread]

theorem syncCached_tombstones_witness :
    (([(1, entryAZero), (2, entryB)] : CSmartRewardEntryMap).map Prod.fst).Nodup
      ∧ (SyncCached hashNotNull storeRound1 true block1 round1
          [(1, entryAZero), (2, entryB)] [tx1] false).2 = true
      ∧ ∀ r ∈ ([(1, entryAZero), (2, entryB)] : CSmartRewardEntryMap),
          (r.2.balance ≤ 0 →
            (SyncCached hashNotNull storeRound1 true block1 round1
                [(1, entryAZero), (2, entryB)] [tx1] false).1.Exists (.rewardEntry r.1)
                = false
              ∧ ReadRewardEntry
                  (SyncCached hashNotNull storeRound1 true block1 round1
                    [(1, entryAZero), (2, entryB)] [tx1] false).1 r.1 = none)
            ∧ (0 < r.2.balance →
              ReadRewardEntry
                  (SyncCached hashNotNull storeRound1 true block1 round1
                    [(1, entryAZero), (2, entryB)] [tx1] false).1 r.1 = some r.2) :=
  ⟨by decide, rfl,
    syncCached_tombstones hashNotNull storeRound1 true block1 round1
      [(1, entryAZero), (2, entryB)] [tx1] false (by decide) rfl⟩


/-! ## Stored balances stay positive -/

/-- A batch keeps every stored balance positive when each entry it writes has a
positive balance. -/
theorem noNonPositiveEntry_foldl (ops : List BatchOp) (S : Store)
    (hS : NoNonPositiveEntry S)
    (hops : ∀ op ∈ ops, ∀ id e, op.key = .rewardEntry id →
      op.effect = some (.entry e) → 0 < e.balance) :
    NoNonPositiveEntry (ops.foldl Store.apply S) := by
  intro id e hread
  rw [readRewardEntry_eq_some] at hread
  by_cases ht : ∃ op ∈ ops, op.key = .rewardEntry id
  · obtain ⟨op, hop, hk, hr⟩ := Store.read_foldl_touched ops S ht
    rw [hr S] at hread
    exact hops op hop id e hk hread
  · have hnot : ∀ o ∈ ops, Key.rewardEntry id ≠ o.key := fun o ho hk => ht ⟨o, ho, hk.symm⟩
    rw [Store.read_foldl_other ops S hnot] at hread
    exact hS id e ((readRewardEntry_eq_some S id e).mpr hread)

/-- C1 (amended): on a store without an entry of balance `≤ 0`, a successful
`SyncCached` leaves no such entry for every input; a successful
`StartFirstRound` or `FinalizeRound` leaves none when every entry of `entries`
has a positive balance, and a successful `UndoFinalizeRound` leaves none when
the entry embedded in every element of `results` has a positive balance. -/
theorem batches_keep_balances_positive (S : Store) (hS : NoNonPositiveEntry S) :
    (∀ (IsValid : CSmartRewardBlock → Bool) (io : Bool) (block : CSmartRewardBlock)
        (current : CSmartRewardRound) (rewards : CSmartRewardEntryMap)
        (transactions : List CSmartRewardTransaction) (fUndo : Bool),
        (SyncCached IsValid S io block current rewards transactions fUndo).2 = true →
        NoNonPositiveEntry
          (SyncCached IsValid S io block current rewards transactions fUndo).1)
      ∧ (∀ (io : Bool) (start : CSmartRewardRound) (entries : List CSmartRewardEntry),
        (∀ e ∈ entries, 0 < e.balance) →
        (StartFirstRound S io start entries).2 = true →
        NoNonPositiveEntry (StartFirstRound S io start entries).1)
      ∧ (∀ (io : Bool) (current next : CSmartRewardRound)
        (entries : List CSmartRewardEntry) (results : List CSmartRewardRoundResult),
        (∀ e ∈ entries, 0 < e.balance) →
        (FinalizeRound S io current next entries results).2 = true →
        NoNonPositiveEntry (FinalizeRound S io current next entries results).1)
      ∧ (∀ (io : Bool) (current : CSmartRewardRound)
        (results : List CSmartRewardRoundResult),
        (∀ s ∈ results, 0 < s.entry.balance) →
        (UndoFinalizeRound S io current results).2 = true →
        NoNonPositiveEntry (UndoFinalizeRound S io current results).1) := by
  refine ⟨?_, ?_, ?_, ?_⟩
  · intro IsValid io block current rewards transactions fUndo h
    unfold SyncCached syncCachedBatch at h ⊢
    rw [WriteBatch_success h]
    apply noNonPositiveEntry_foldl _ S hS
    intro op hop id e hk heff
    simp only [List.append_assoc] at hop
    rcases List.mem_append.mp hop with hop | hop
    · obtain ⟨r, _, rfl⟩ := List.mem_map.mp hop
      unfold syncEntryOp at heff
      split at heff
      · simp [BatchOp.effect] at heff
      · rename_i hb
        simp only [BatchOp.effect, Option.some.injEq, Value.entry.injEq] at heff
        subst heff
        exact not_le.mp hb
    · have := syncCached_tail_keys IsValid block current transactions fUndo op
        (by simpa only [List.append_assoc] using hop) id
      exact absurd hk.symm this
  · intro io start entries hpos h
    unfold StartFirstRound startFirstRoundBatch at h ⊢
    rw [WriteBatch_success h]
    apply noNonPositiveEntry_foldl _ S hS
    intro op hop id e hk heff
    rcases List.mem_append.mp hop with hop | hop
    · obtain ⟨e', he', rfl⟩ := List.mem_map.mp hop
      simp only [BatchOp.effect, Option.some.injEq, Value.entry.injEq] at heff
      subst heff
      exact hpos _ he'
    · simp only [List.mem_singleton] at hop
      subst hop
      simp [BatchOp.key] at hk
  · intro io current next entries results hpos h
    unfold FinalizeRound finalizeRoundBatch at h ⊢
    rw [WriteBatch_success h]
    apply noNonPositiveEntry_foldl _ S hS
    intro op hop id e hk heff
    simp only [List.mem_append, List.mem_map, List.mem_cons, List.mem_singleton,
      List.not_mem_nil, or_false] at hop
    rcases hop with (⟨s, _, rfl⟩ | ⟨e', he', rfl⟩) | rfl | rfl
    · simp [BatchOp.key] at hk
    · simp only [BatchOp.effect, Option.some.injEq, Value.entry.injEq] at heff
      subst heff
      exact hpos _ he'
    · simp [BatchOp.key] at hk
    · simp [BatchOp.key] at hk
  · intro io current results hpos h
    unfold UndoFinalizeRound undoFinalizeRoundBatch at h ⊢
    rw [WriteBatch_success h]
    apply noNonPositiveEntry_foldl _ S hS
    intro op hop id e hk heff
    simp only [List.mem_append, List.mem_flatten, List.mem_map] at hop
    rcases hop with ⟨l, ⟨s, hs, rfl⟩, hin⟩ | hin
    · simp only [undoResultOps, List.mem_cons, List.mem_singleton, List.not_mem_nil,
        or_false] at hin
      rcases hin with rfl | rfl
      · simp [BatchOp.effect] at heff
      · simp only [BatchOp.effect, Option.some.injEq, Value.entry.injEq] at heff
        subst heff
        exact hpos _ hs
    · simp only [List.mem_cons, List.mem_singleton, List.not_mem_nil, or_false] at hin
      rcases hin with rfl | rfl
      · simp [BatchOp.effect] at heff
      · simp [BatchOp.key] at hk

theorem storeRound1_noNonPositiveEntry : NoNonPositiveEntry storeRound1 := by
  intro id e h
  rw [readRewardEntry_eq_some] at h
  simp only [storeRound1, Store.Read] at h
  split at h
  · cases h
    decide
  · split at h
    · cases h
      decide
    · simp at h

theorem storeRound2_noNonPositiveEntry : NoNonPositiveEntry storeRound2 := by
  intro id e h
  rw [readRewardEntry_eq_some] at h
  simp only [storeRound2, Store.Read] at h
  split at h
  · cases h
    decide
  · split at h
    · cases h
      decide
    · simp at h

theorem emptyStore_noNonPositiveEntry : NoNonPositiveEntry [] := by
  intro id e h
  cases h

theorem batches_keep_balances_positive_witness :
    NoNonPositiveEntry storeRound1
      ∧ NoNonPositiveEntry
          (SyncCached hashNotNull storeRound1 true block1 round1
            [(1, entryAZero), (2, entryB)] [tx1] false).1
      ∧ NoNonPositiveEntry (StartFirstRound [] true round1 [entryA, entryB]).1
      ∧ NoNonPositiveEntry
          (FinalizeRound storeRound1 true round1 round2 [entryANext, entryB]
            [resultA, resultB]).1
      ∧ NoNonPositiveEntry
          (UndoFinalizeRound storeRound2 true round1 [resultA, resultB]).1 :=
  ⟨storeRound1_noNonPositiveEntry,
    (batches_keep_balances_positive storeRound1 storeRound1_noNonPositiveEntry).1
      hashNotNull true block1 round1 [(1, entryAZero), (2, entryB)] [tx1] false rfl,
    (batches_keep_balances_positive [] emptyStore_noNonPositiveEntry).2.1
      true round1 [entryA, entryB] (by decide) rfl,
    (batches_keep_balances_positive storeRound1 storeRound1_noNonPositiveEntry).2.2.1
      true round1 round2 [entryANext, entryB] [resultA, resultB] (by decide) rfl,
    (batches_keep_balances_positive storeRound2 storeRound2_noNonPositiveEntry).2.2.2
      true round1 [resultA, resultB] (by decide) rfl⟩

/-- C1 as stated fails. Each of the three stores below holds no entry of
balance `≤ 0`: the empty store, the scenario store during round 1, and the
scenario store during round 2. `StartFirstRound` on the first,
`FinalizeRound` on the second and `UndoFinalizeRound` on the third succeed and
store the entry of `A` with balance 0 that they are given. -/
theorem round_batches_store_zero_balance :
    (NoNonPositiveEntry []
        ∧ (StartFirstRound [] true round1 [entryAZero, entryB]).2 = true
        ∧ ReadRewardEntry (StartFirstRound [] true round1 [entryAZero, entryB]).1 1
            = some entryAZero
        ∧ ¬ NoNonPositiveEntry (StartFirstRound [] true round1 [entryAZero, entryB]).1)
      ∧ (NoNonPositiveEntry storeRound1
        ∧ (FinalizeRound storeRound1 true round1 round2 [entryAZero, entryB]
            [resultA, resultB]).2 = true
        ∧ ReadRewardEntry
            (FinalizeRound storeRound1 true round1 round2 [entryAZero, entryB]
              [resultA, resultB]).1 1 = some entryAZero
        ∧ ¬ NoNonPositiveEntry
            (FinalizeRound storeRound1 true round1 round2 [entryAZero, entryB]
              [resultA, resultB]).1)
      ∧ (NoNonPositiveEntry storeRound2
        ∧ (UndoFinalizeRound storeRound2 true round1 [⟨entryAZero, 0⟩, resultB]).2 = true
        ∧ ReadRewardEntry
            (UndoFinalizeRound storeRound2 true round1 [⟨entryAZero, 0⟩, resultB]).1 1
            = some entryAZero
        ∧ ¬ NoNonPositiveEntry
            (UndoFinalizeRound storeRound2 true round1 [⟨entryAZero, 0⟩, resultB]).1) := by
  refine ⟨⟨emptyStore_noNonPositiveEntry, rfl, rfl, ?_⟩,
    ⟨storeRound1_noNonPositiveEntry, rfl, rfl, ?_⟩,
    ⟨storeRound2_noNonPositiveEntry, rfl, rfl, ?_⟩⟩
  · intro hinv
    exact absurd (hinv 1 entryAZero rfl) (by decide)
  · intro hinv
    exact absurd (hinv 1 entryAZero rfl) (by decide)
  · intro hinv
    exact absurd (hinv 1 entryAZero rfl) (by decide)

/-! ## FinalizeRound and UndoFinalizeRound: the recorded operations -/

theorem mem_finalizeRoundBatch (current next : CSmartRewardRound)
    (entries : List CSmartRewardEntry) (results : List CSmartRewardRoundResult)
    (op : BatchOp) :
    op ∈ finalizeRoundBatch current next entries results ↔
      (∃ s ∈ results, op = .write (.snapshot current.number s.entry.id) (.result s))
        ∨ (∃ e ∈ entries, op = .write (.rewardEntry e.id) (.entry e))
        ∨ op = .write (.round current.number) (.round current)
        ∨ op = .write .roundCurrent (.round next) := by
  unfold finalizeRoundBatch
  simp only [List.mem_append, List.mem_map, List.mem_cons, List.mem_singleton,
    List.not_mem_nil, or_false, or_assoc]
  constructor
  · rintro (⟨s, hs, rfl⟩ | ⟨e, he, rfl⟩ | rfl | rfl)
    · exact Or.inl ⟨s, hs, rfl⟩
    · exact Or.inr (Or.inl ⟨e, he, rfl⟩)
    · exact Or.inr (Or.inr (Or.inl rfl))
    · exact Or.inr (Or.inr (Or.inr rfl))
  · rintro (⟨s, hs, rfl⟩ | ⟨e, he, rfl⟩ | rfl | rfl)
    · exact Or.inl ⟨s, hs, rfl⟩
    · exact Or.inr (Or.inl ⟨e, he, rfl⟩)
    · exact Or.inr (Or.inr (Or.inl rfl))
    · exact Or.inr (Or.inr (Or.inr rfl))

theorem mem_undoFinalizeRoundBatch (current : CSmartRewardRound)
    (results : List CSmartRewardRoundResult) (op : BatchOp) :
    op ∈ undoFinalizeRoundBatch current results ↔
      (∃ s ∈ results, op = .erase (.snapshot current.number s.entry.id))
        ∨ (∃ s ∈ results, op = .write (.rewardEntry s.entry.id) (.entry s.entry))
        ∨ op = .erase (.round current.number)
        ∨ op = .write .roundCurrent (.round current) := by
  unfold undoFinalizeRoundBatch
  simp only [List.mem_append, List.mem_flatten, List.mem_map, List.mem_cons,
    List.mem_singleton, List.not_mem_nil, or_false]
  constructor
  · rintro (⟨l, ⟨s, hs, rfl⟩, hin⟩ | rfl | rfl)
    · simp only [undoResultOps, List.mem_cons, List.mem_singleton, List.not_mem_nil,
        or_false] at hin
      rcases hin with rfl | rfl
      · exact Or.inl ⟨s, hs, rfl⟩
      · exact Or.inr (Or.inl ⟨s, hs, rfl⟩)
    · exact Or.inr (Or.inr (Or.inl rfl))
    · exact Or.inr (Or.inr (Or.inr rfl))
  · rintro (⟨s, hs, rfl⟩ | ⟨s, hs, rfl⟩ | rfl | rfl)
    · exact Or.inl ⟨_, ⟨s, hs, rfl⟩, by simp [undoResultOps]⟩
    · exact Or.inl ⟨_, ⟨s, hs, rfl⟩, by simp [undoResultOps]⟩
    · exact Or.inr (Or.inl rfl)
    · exact Or.inr (Or.inr rfl)

/-- The batch of `FinalizeRound` leaves `next` under the current-round key. -/
theorem finalizeRoundBatch_read_roundCurrent (S : Store) (current next : CSmartRewardRound)
    (entries : List CSmartRewardEntry) (results : List CSmartRewardRoundResult) :
    ((finalizeRoundBatch current next entries results).foldl Store.apply S).Read
      .roundCurrent = some (.round next) := by
  have hr := Store.read_foldl_split
    (results.map (fun s => BatchOp.write (.snapshot current.number s.entry.id) (.result s))
      ++ entries.map (fun e => BatchOp.write (.rewardEntry e.id) (.entry e))
      ++ [BatchOp.write (.round current.number) (.round current)])
    [] (BatchOp.write .roundCurrent (.round next)) S (by simp)
  simp only [BatchOp.key, BatchOp.effect, List.append_assoc, List.singleton_append] at hr
  simp only [finalizeRoundBatch, List.append_assoc, hr]

/-- C5 (amended): after a successful `FinalizeRound` for round `n = current.number`
on a store that held no snapshot for round `n`, a snapshot is stored under
`(n, addr)` if and only if `addr` is the address `s.entry.id` of an element `s`
of the supplied `results` list. -/
theorem finalizeRound_snapshot_iff (S : Store) (io : Bool)
    (current next : CSmartRewardRound) (entries : List CSmartRewardEntry)
    (results : List CSmartRewardRoundResult)
    (hno : ∀ id : CSmartAddress, S.Exists (.snapshot current.number id) = false)
    (h : (FinalizeRound S io current next entries results).2 = true)
    (addr : CSmartAddress) :
    (FinalizeRound S io current next entries results).1.Exists
        (.snapshot current.number addr) = true
      ↔ ∃ s ∈ results, s.entry.id = addr := by
  unfold FinalizeRound at h ⊢
  rw [WriteBatch_success h]
  constructor
  · intro hex
    by_cases ht : ∃ op ∈ finalizeRoundBatch current next entries results,
        op.key = .snapshot current.number addr
    · obtain ⟨op, hop, hk⟩ := ht
      rcases (mem_finalizeRoundBatch _ _ _ _ op).mp hop with
        ⟨s, hs, rfl⟩ | ⟨e, _, rfl⟩ | rfl | rfl
      · simp only [BatchOp.key, Key.snapshot.injEq, true_and] at hk
        exact ⟨s, hs, hk⟩
      · simp [BatchOp.key] at hk
      · simp [BatchOp.key] at hk
      · simp [BatchOp.key] at hk
    · have hnot : ∀ o ∈ finalizeRoundBatch current next entries results,
          Key.snapshot current.number addr ≠ o.key := fun o ho hk => ht ⟨o, ho, hk.symm⟩
      rw [Store.Exists, Store.read_foldl_other _ S hnot] at hex
      have := hno addr
      rw [Store.Exists] at this
      rw [this] at hex
      cases hex
  · rintro ⟨s, hs, rfl⟩
    obtain ⟨op, hop, hk, hr⟩ := Store.read_foldl_touched
      (finalizeRoundBatch current next entries results) S
      (k := .snapshot current.number s.entry.id)
      ⟨_, (mem_finalizeRoundBatch _ _ _ _ _).mpr (Or.inl ⟨s, hs, rfl⟩), rfl⟩
    rw [Store.Exists, hr S]
    rcases (mem_finalizeRoundBatch _ _ _ _ op).mp hop with
      ⟨s', _, rfl⟩ | ⟨e, _, rfl⟩ | rfl | rfl
    · rfl
    · simp [BatchOp.key] at hk
    · simp [BatchOp.key] at hk
    · simp [BatchOp.key] at hk

theorem storeRound1_no_snapshot (number : Int) (id : CSmartAddress) :
    storeRound1.Exists (.snapshot number id) = false := by
  simp [storeRound1, Store.Exists, Store.Read]

theorem finalizeRound_snapshot_iff_witness :
    (∀ id : CSmartAddress, storeRound1.Exists (.snapshot round1.number id) = false)
      ∧ (FinalizeRound storeRound1 true round1 round2 [entryANext, entryB]
          [resultA, resultB]).2 = true
      ∧ ((FinalizeRound storeRound1 true round1 round2 [entryANext, entryB]
            [resultA, resultB]).1.Exists (.snapshot round1.number 2) = true
          ↔ ∃ s ∈ [resultA, resultB], s.entry.id = 2) :=
  ⟨storeRound1_no_snapshot round1.number, rfl,
    finalizeRound_snapshot_iff storeRound1 true round1 round2 [entryANext, entryB]
      [resultA, resultB] (storeRound1_no_snapshot round1.number) rfl 2⟩

/-- C5 as stated fails: in the scenario store (entries of `A` and `B`, no
snapshots) `FinalizeRound` of round 1 with the results `[resultA, resultC]`
succeeds; afterwards no snapshot is stored under `(1, B)` although `B` was in
the entry set (stored, and in `entries`), and a snapshot is stored under
`(1, C)` although `C` was not. -/
theorem finalizeRound_snapshots_follow_results :
    (∀ id : CSmartAddress, storeRound1.Exists (.snapshot round1.number id) = false)
      ∧ (FinalizeRound storeRound1 true round1 round2 [entryANext, entryB]
          [resultA, resultC]).2 = true
      ∧ ReadRewardEntry storeRound1 entryB.id = some entryB
      ∧ entryB ∈ [entryANext, entryB]
      ∧ (FinalizeRound storeRound1 true round1 round2 [entryANext, entryB]
          [resultA, resultC]).1.Exists (.snapshot round1.number entryB.id) = false
      ∧ ReadRewardEntry storeRound1 resultC.entry.id = none
      ∧ (∀ e ∈ [entryANext, entryB], e.id ≠ resultC.entry.id)
      ∧ (FinalizeRound storeRound1 true round1 round2 [entryANext, entryB]
          [resultA, resultC]).1.Exists (.snapshot round1.number resultC.entry.id) = true :=
  ⟨storeRound1_no_snapshot round1.number, rfl, rfl, by decide, rfl, rfl, by decide, rfl⟩

/-- C8 (amended): after a successful `FinalizeRound(current, next, entries,
results)` the current round stored is the supplied `next` and the finalized
record stored under `current.number` is `current`; so the current round stored
has the number of `next`, the finalized record has number `current.number`, and
the stored current number is `current.number + 1` (as a signed 16-bit value)
exactly when the caller supplies `next.number = current.number + 1`. -/
theorem finalizeRound_round_numbers (S : Store) (io : Bool)
    (current next : CSmartRewardRound) (entries : List CSmartRewardEntry)
    (results : List CSmartRewardRoundResult)
    (h : (FinalizeRound S io current next entries results).2 = true) :
    ReadCurrentRound (FinalizeRound S io current next entries results).1 = some next
      ∧ ReadRound (FinalizeRound S io current next entries results).1 current.number
          = some current
      ∧ (ReadCurrentRound (FinalizeRound S io current next entries results).1).map
          (fun r => r.number) = some next.number
      ∧ (ReadRound (FinalizeRound S io current next entries results).1
          current.number).map (fun r => r.number) = some current.number
      ∧ ((ReadCurrentRound (FinalizeRound S io current next entries results).1).map
            (fun r => r.number) = some (wrapInt16 (current.number + 1))
          ↔ next.number = wrapInt16 (current.number + 1)) := by
  unfold FinalizeRound at h ⊢
  rw [WriteBatch_success h]
  have hcur : ReadCurrentRound
      ((finalizeRoundBatch current next entries results).foldl Store.apply S)
      = some next := by
    simp only [ReadCurrentRound, finalizeRoundBatch_read_roundCurrent]
  have hrnd : ReadRound
      ((finalizeRoundBatch current next entries results).foldl Store.apply S)
      current.number = some current := by
    have hr := Store.read_foldl_split
      (results.map (fun s => BatchOp.write (.snapshot current.number s.entry.id) (.result s))
        ++ entries.map (fun e => BatchOp.write (.rewardEntry e.id) (.entry e)))
      [BatchOp.write .roundCurrent (.round next)]
      (BatchOp.write (.round current.number) (.round current)) S
      (by intro o ho; simp at ho; subst ho; simp [BatchOp.key])
    simp only [BatchOp.key, BatchOp.effect] at hr
    simp only [ReadRound, finalizeRoundBatch, hr]
  rw [hcur, hrnd]
  simp

theorem finalizeRound_round_numbers_witness :
    (FinalizeRound storeRound1 true round1 round2 [entryANext, entryB]
        [resultA, resultB]).2 = true
      ∧ (ReadCurrentRound (FinalizeRound storeRound1 true round1 round2
            [entryANext, entryB] [resultA, resultB]).1 = some round2
        ∧ ReadRound (FinalizeRound storeRound1 true round1 round2
            [entryANext, entryB] [resultA, resultB]).1 round1.number = some round1
        ∧ (ReadCurrentRound (FinalizeRound storeRound1 true round1 round2
            [entryANext, entryB] [resultA, resultB]).1).map (fun r => r.number)
          = some round2.number
        ∧ (ReadRound (FinalizeRound storeRound1 true round1 round2
            [entryANext, entryB] [resultA, resultB]).1 round1.number).map
            (fun r => r.number) = some round1.number
        ∧ ((ReadCurrentRound (FinalizeRound storeRound1 true round1 round2
              [entryANext, entryB] [resultA, resultB]).1).map (fun r => r.number)
              = some (wrapInt16 (round1.number + 1))
            ↔ round2.number = wrapInt16 (round1.number + 1))) :=
  ⟨rfl, finalizeRound_round_numbers storeRound1 true round1 round2 [entryANext, entryB]
    [resultA, resultB] rfl⟩

/-- C8 as stated fails: on the scenario store, whose current round has number
1, `FinalizeRound` called with a `next` header numbered 5 succeeds and the
current round stored afterwards has number 5, not 2. -/
theorem finalizeRound_next_number_unchecked :
    (ReadCurrentRound storeRound1).map (fun r => r.number) = some 1
      ∧ (FinalizeRound storeRound1 true round1 round5 [entryANext, entryB]
          [resultA, resultB]).2 = true
      ∧ (ReadCurrentRound (FinalizeRound storeRound1 true round1 round5
          [entryANext, entryB] [resultA, resultB]).1).map (fun r => r.number) = some 5
      ∧ (ReadCurrentRound (FinalizeRound storeRound1 true round1 round5
          [entryANext, entryB] [resultA, resultB]).1).map (fun r => r.number)
          ≠ some (wrapInt16 (1 + 1)) :=
  ⟨rfl, rfl, rfl, by decide⟩


/-! ## Key order and well-formed stores -/

theorem codeLt_irrefl (a : List Int) : codeLt a a = false := by
  induction a with
  | nil => rfl
  | cons x xs ih => simp [codeLt, ih]

theorem codeLt_trans {a b c : List Int} (hab : codeLt a b = true) (hbc : codeLt b c = true) :
    codeLt a c = true := by
  induction a generalizing b c with
  | nil =>
    cases b with
    | nil => simp [codeLt] at hab
    | cons y ys =>
      cases c with
      | nil => simp [codeLt] at hbc
      | cons z zs => simp [codeLt]
  | cons x xs ih =>
    cases b with
    | nil => simp [codeLt] at hab
    | cons y ys =>
      cases c with
      | nil => simp [codeLt] at hbc
      | cons z zs =>
        simp only [codeLt] at hab hbc ⊢
        by_cases hxy : x < y
        · by_cases hyz : y < z
          · simp [lt_trans hxy hyz]
          · by_cases hzy : z < y
            · simp [hyz, hzy] at hbc
            · have hyz' : y = z := le_antisymm (not_lt.mp hzy) (not_lt.mp hyz)
              subst hyz'
              simp [hxy]
        · by_cases hyx : y < x
          · simp [hxy, hyx] at hab
          · have hxy' : x = y := le_antisymm (not_lt.mp hyx) (not_lt.mp hxy)
            subst hxy'
            simp only [hxy, if_false] at hab
            by_cases hxz : x < z
            · simp [hxz]
            · by_cases hzx : z < x
              · simp [hxz, hzx] at hbc
              · simp only [hxz, hzx, if_false] at hbc ⊢
                exact ih hab hbc

theorem codeLt_total (a b : List Int) :
    codeLt a b = true ∨ a = b ∨ codeLt b a = true := by
  induction a generalizing b with
  | nil =>
    cases b with
    | nil => exact Or.inr (Or.inl rfl)
    | cons y ys => exact Or.inl rfl
  | cons x xs ih =>
    cases b with
    | nil => exact Or.inr (Or.inr rfl)
    | cons y ys =>
      simp only [codeLt]
      by_cases hxy : x < y
      · simp [hxy]
      · by_cases hyx : y < x
        · simp [hxy, hyx]
        · have hxy' : x = y := le_antisymm (not_lt.mp hyx) (not_lt.mp hxy)
          subst hxy'
          simp only [hxy, if_false, List.cons.injEq, true_and]
          exact ih ys

theorem Key.code_injective {k k' : Key} (h : k.code = k'.code) : k = k' := by
  cases k <;> cases k' <;>
    simp_all [Key.code, DB_ROUND_CURRENT, DB_ROUND, DB_ROUND_SNAPSHOT, DB_REWARD_ENTRY,
      DB_BLOCK, DB_BLOCK_LAST, DB_TX_HASH, DB_VERSION, DB_LOCK]

theorem Store.mem_write {S : Store} {k : Key} {v : Value} {x : Key × Value}
    (hx : x ∈ S.Write k v) : x = (k, v) ∨ x ∈ S := by
  induction S with
  | nil =>
    simp only [Store.Write, List.mem_singleton] at hx
    exact Or.inl hx
  | cons hd tl ih =>
    obtain ⟨k', v'⟩ := hd
    unfold Store.Write at hx
    by_cases h1 : k' = k
    · simp only [h1, if_true, List.mem_cons] at hx
      rcases hx with rfl | hx
      · exact Or.inl rfl
      · exact Or.inr (List.mem_cons_of_mem _ hx)
    · by_cases h2 : codeLt k.code k'.code = true
      · simp only [h1, h2, if_true, if_false, List.mem_cons] at hx
        rcases hx with rfl | rfl | hx
        · exact Or.inl rfl
        · exact Or.inr (List.mem_cons_self _ _)
        · exact Or.inr (List.mem_cons_of_mem _ hx)
      · rw [if_neg h1, if_neg h2, List.mem_cons] at hx
        rcases hx with rfl | hx
        · exact Or.inr (List.mem_cons_self _ _)
        · rcases ih hx with rfl | hx'
          · exact Or.inl rfl
          · exact Or.inr (List.mem_cons_of_mem _ hx')

theorem Store.WF_write {S : Store} (hS : S.WF) (k : Key) (v : Value) : (S.Write k v).WF := by
  induction S with
  | nil => simp [Store.Write, Store.WF]
  | cons hd tl ih =>
    obtain ⟨k', v'⟩ := hd
    unfold Store.WF at hS ih ⊢
    rw [List.pairwise_cons] at hS
    obtain ⟨hhd, htl⟩ := hS
    unfold Store.Write
    by_cases h1 : k' = k
    · subst h1
      simp only [if_true]
      exact List.pairwise_cons.mpr ⟨hhd, htl⟩
    · by_cases h2 : codeLt k.code k'.code = true
      · simp only [h1, h2, if_true, if_false]
        refine List.pairwise_cons.mpr ⟨?_, List.pairwise_cons.mpr ⟨hhd, htl⟩⟩
        intro x hx
        rcases List.mem_cons.mp hx with rfl | hx
        · exact h2
        · exact codeLt_trans h2 (hhd x hx)
      · rw [if_neg h1, if_neg h2]
        refine List.pairwise_cons.mpr ⟨?_, ih htl⟩
        intro x hx
        rcases Store.mem_write hx with rfl | hx
        · rcases codeLt_total k'.code k.code with hlt | heq | hgt
          · exact hlt
          · exact absurd (Key.code_injective heq) h1
          · exact absurd hgt h2
        · exact hhd x hx

theorem Store.WF_erase {S : Store} (hS : S.WF) (k : Key) : (S.Erase k).WF :=
  List.Pairwise.sublist (List.filter_sublist S) hS

theorem Store.WF_apply {S : Store} (hS : S.WF) (op : BatchOp) : (S.apply op).WF := by
  cases op with
  | write k v => exact Store.WF_write hS k v
  | erase k => exact Store.WF_erase hS k

theorem Store.WF_foldl (ops : List BatchOp) {S : Store} (hS : S.WF) :
    (ops.foldl Store.apply S).WF := by
  induction ops generalizing S with
  | nil => exact hS
  | cons op tl ih => exact ih (Store.WF_apply hS op)

theorem Store.read_eq_none_of_lt {S : Store} {k : Key}
    (h : ∀ x ∈ S, codeLt k.code x.1.code = true) : S.Read k = none := by
  induction S with
  | nil => rfl
  | cons hd tl ih =>
    obtain ⟨k', v'⟩ := hd
    have hne : k' ≠ k := by
      rintro rfl
      have := h (k', v') (List.mem_cons_self _ _)
      rw [codeLt_irrefl] at this
      cases this
    simp only [Store.Read, hne, if_false]
    exact ih (fun x hx => h x (List.mem_cons_of_mem _ hx))

theorem Store.mem_of_read {S : Store} {k : Key} {v : Value} (h : S.Read k = some v) :
    (k, v) ∈ S := by
  induction S with
  | nil => cases h
  | cons hd tl ih =>
    obtain ⟨k', v'⟩ := hd
    by_cases h1 : k' = k
    · subst h1
      simp only [Store.Read, if_true, Option.some.injEq] at h
      subst h
      exact List.mem_cons_self _ _
    · simp only [Store.Read, h1, if_false] at h
      exact List.mem_cons_of_mem _ (ih h)

/-- Two well-formed stores that read the same under every key are the same
store. -/
theorem Store.ext_of_WF {S S' : Store} (hS : S.WF) (hS' : S'.WF)
    (h : ∀ k, S.Read k = S'.Read k) : S = S' := by
  induction S generalizing S' with
  | nil =>
    cases S' with
    | nil => rfl
    | cons hd' tl' =>
      obtain ⟨k', v'⟩ := hd'
      have := h k'
      simp [Store.Read] at this
  | cons hd tl ih =>
    obtain ⟨k, v⟩ := hd
    cases S' with
    | nil =>
      have := h k
      simp [Store.Read] at this
    | cons hd' tl' =>
      obtain ⟨k', v'⟩ := hd'
      unfold Store.WF at hS hS'
      rw [List.pairwise_cons] at hS hS'
      obtain ⟨hhd, htl⟩ := hS
      obtain ⟨hhd', htl'⟩ := hS'
      by_cases hk : k = k'
      · subst hk
        have hv : v = v' := by
          have := h k
          simpa [Store.Read] using this
        subst hv
        have htails : ∀ key, Store.Read tl key = Store.Read tl' key := by
          intro key
          by_cases hkey : k = key
          · subst hkey
            rw [Store.read_eq_none_of_lt hhd, Store.read_eq_none_of_lt hhd']
          · have := h key
            simpa only [Store.Read, hkey, if_false] using this
        rw [ih htl htl' htails]
      · exfalso
        have h1 := h k
        simp only [Store.Read, if_true, Ne.symm hk, if_false] at h1
        have h2 := h k'
        simp only [Store.Read, if_true, hk, if_false] at h2
        have hlt1 := hhd' (k, v) (Store.mem_of_read h1.symm)
        have hlt2 := hhd (k', v') (Store.mem_of_read h2)
        have := codeLt_trans hlt1 hlt2
        rw [codeLt_irrefl] at this
        cases this


theorem readCurrentRound_eq_some (S : Store) (r : CSmartRewardRound) :
    ReadCurrentRound S = some r ↔ S.Read .roundCurrent = some (.round r) := by
  unfold ReadCurrentRound
  split
  · rename_i r' heq
    rw [heq]
    simp
  · rename_i hne
    constructor
    · intro h
      cases h
    · intro h
      exact absurd h (hne r)

theorem Store.read_eq_none_of_exists_false {S : Store} {k : Key}
    (h : S.Exists k = false) : S.Read k = none := by
  unfold Store.Exists at h
  cases hr : S.Read k with
  | none => rfl
  | some v => rw [hr] at h; cases h

theorem storeRound1_WF : storeRound1.WF := by
  simp [Store.WF, storeRound1, Key.code, codeLt, DB_REWARD_ENTRY, DB_ROUND_CURRENT]

/-! ## UndoFinalizeRound against FinalizeRound -/

/-- C3 (amended): on a store `S` whose current-round pointer is `current` and
that holds no finalized-round record and no snapshot for `current.number`,
`FinalizeRound(current, next, entries, results)` followed by
`UndoFinalizeRound(current, results)` gives back exactly `S`, provided the
entry embedded in each element of `results` is the entry `S` stores under its
address and every address of `entries` occurs in `results`. -/
theorem undoFinalizeRound_inverts_finalizeRound (S : Store) (hS : S.WF) (io io' : Bool)
    (current next : CSmartRewardRound) (entries : List CSmartRewardEntry)
    (results : List CSmartRewardRoundResult)
    (hcur : ReadCurrentRound S = some current)
    (hnoRound : S.Exists (.round current.number) = false)
    (hnoSnap : ∀ id : CSmartAddress, S.Exists (.snapshot current.number id) = false)
    (hcopies : ∀ s ∈ results, ReadRewardEntry S s.entry.id = some s.entry)
    (hentries : ∀ e ∈ entries, ∃ s ∈ results, s.entry.id = e.id)
    (hfin : (FinalizeRound S io current next entries results).2 = true)
    (hundo : (UndoFinalizeRound (FinalizeRound S io current next entries results).1 io'
      current results).2 = true) :
    (UndoFinalizeRound (FinalizeRound S io current next entries results).1 io'
      current results).1 = S := by
  unfold UndoFinalizeRound at hundo ⊢
  rw [WriteBatch_success hundo]
  unfold FinalizeRound at hfin ⊢
  rw [WriteBatch_success hfin]
  refine Store.ext_of_WF (Store.WF_foldl _ (Store.WF_foldl _ hS)) hS (fun k => ?_)
  by_cases hu : ∃ op ∈ undoFinalizeRoundBatch current results, op.key = k
  · obtain ⟨op, hop, hk, hr⟩ := Store.read_foldl_touched _ S hu
    rw [hr]
    rcases (mem_undoFinalizeRoundBatch _ _ op).mp hop with
      ⟨s, _, rfl⟩ | ⟨s, hs, rfl⟩ | rfl | rfl
    · rw [← hk]
      exact (Store.read_eq_none_of_exists_false (hnoSnap s.entry.id)).symm
    · rw [← hk]
      exact ((readRewardEntry_eq_some S _ _).mp (hcopies s hs)).symm
    · rw [← hk]
      exact (Store.read_eq_none_of_exists_false hnoRound).symm
    · rw [← hk]
      exact ((readCurrentRound_eq_some S _).mp hcur).symm
  · have hnu : ∀ o ∈ undoFinalizeRoundBatch current results, k ≠ o.key :=
      fun o ho hko => hu ⟨o, ho, hko.symm⟩
    rw [Store.read_foldl_other _ _ hnu]
    by_cases hf : ∃ op ∈ finalizeRoundBatch current next entries results, op.key = k
    · exfalso
      obtain ⟨op, hop, hk⟩ := hf
      rcases (mem_finalizeRoundBatch _ _ _ _ op).mp hop with
        ⟨s, hs, rfl⟩ | ⟨e, he, rfl⟩ | rfl | rfl
      · exact hu ⟨_, (mem_undoFinalizeRoundBatch _ _ _).mpr (Or.inl ⟨s, hs, rfl⟩), hk⟩
      · obtain ⟨s, hs, hid⟩ := hentries e he
        refine hu ⟨_, (mem_undoFinalizeRoundBatch _ _ _).mpr
          (Or.inr (Or.inl ⟨s, hs, rfl⟩)), ?_⟩
        rw [← hk]
        simp [BatchOp.key, hid]
      · exact hu ⟨_, (mem_undoFinalizeRoundBatch _ _ _).mpr (Or.inr (Or.inr (Or.inl rfl))),
          hk⟩
      · exact hu ⟨_, (mem_undoFinalizeRoundBatch _ _ _).mpr (Or.inr (Or.inr (Or.inr rfl))),
          hk⟩
    · have hnf : ∀ o ∈ finalizeRoundBatch current next entries results, k ≠ o.key :=
        fun o ho hko => hf ⟨o, ho, hko.symm⟩
      exact Store.read_foldl_other _ _ hnf

theorem undoFinalizeRound_inverts_finalizeRound_witness :
    storeRound1.WF
      ∧ ReadCurrentRound storeRound1 = some round1
      ∧ storeRound1.Exists (.round round1.number) = false
      ∧ (∀ id : CSmartAddress, storeRound1.Exists (.snapshot round1.number id) = false)
      ∧ (∀ s ∈ [resultA, resultB], ReadRewardEntry storeRound1 s.entry.id = some s.entry)
      ∧ (∀ e ∈ [entryANext, entryB], ∃ s ∈ [resultA, resultB], s.entry.id = e.id)
      ∧ (FinalizeRound storeRound1 true round1 round2 [entryANext, entryB]
          [resultA, resultB]).2 = true
      ∧ (UndoFinalizeRound
          (FinalizeRound storeRound1 true round1 round2 [entryANext, entryB]
            [resultA, resultB]).1 true round1 [resultA, resultB]).2 = true
      ∧ (UndoFinalizeRound
          (FinalizeRound storeRound1 true round1 round2 [entryANext, entryB]
            [resultA, resultB]).1 true round1 [resultA, resultB]).1 = storeRound1 :=
  ⟨storeRound1_WF, rfl, rfl, storeRound1_no_snapshot round1.number, by decide, by decide,
    rfl, rfl,
    undoFinalizeRound_inverts_finalizeRound storeRound1 storeRound1_WF true true round1
      round2 [entryANext, entryB] [resultA, resultB] rfl rfl
      (storeRound1_no_snapshot round1.number) (by decide) (by decide) rfl rfl⟩

/-- C3 as stated fails: the scenario store has `round1` as current round, no
finalized record and no snapshot for round 1; `FinalizeRound` with the entries
`[entryANext, entryB]` and the snapshot list `[resultB]`, then
`UndoFinalizeRound` with the same list, both succeed and leave the entry of `A`
as written by `FinalizeRound`, not as it was. -/
theorem undoFinalizeRound_keeps_finalized_entries :
    storeRound1.WF
      ∧ ReadCurrentRound storeRound1 = some round1
      ∧ storeRound1.Exists (.round round1.number) = false
      ∧ (∀ id : CSmartAddress, storeRound1.Exists (.snapshot round1.number id) = false)
      ∧ (FinalizeRound storeRound1 true round1 round2 [entryANext, entryB] [resultB]).2
          = true
      ∧ (UndoFinalizeRound
          (FinalizeRound storeRound1 true round1 round2 [entryANext, entryB] [resultB]).1
          true round1 [resultB]).2 = true
      ∧ ReadRewardEntry storeRound1 1 = some entryA
      ∧ ReadRewardEntry
          (UndoFinalizeRound
            (FinalizeRound storeRound1 true round1 round2 [entryANext, entryB]
              [resultB]).1 true round1 [resultB]).1 1 = some entryANext
      ∧ (UndoFinalizeRound
          (FinalizeRound storeRound1 true round1 round2 [entryANext, entryB] [resultB]).1
          true round1 [resultB]).1 ≠ storeRound1 :=
  ⟨storeRound1_WF, rfl, rfl, storeRound1_no_snapshot round1.number, rfl, rfl, rfl, rfl,
    by decide⟩

/-- C4 (amended): let `S1` be the store after `FinalizeRound(current, next,
entries, results)` on `S`. `UndoFinalizeRound(current, results)` on `S1`
followed by `FinalizeRound` with the identical inputs gives exactly `S1`,
provided each address of `results` also occurs in `entries` or the entry `S`
stores under it is the copy embedded in the result. -/
theorem finalizeRound_reapplication (S : Store) (hS : S.WF) (io io' io'' : Bool)
    (current next : CSmartRewardRound) (entries : List CSmartRewardEntry)
    (results : List CSmartRewardRoundResult)
    (hcopies : ∀ s ∈ results,
      (∃ e ∈ entries, e.id = s.entry.id) ∨ ReadRewardEntry S s.entry.id = some s.entry)
    (hfin : (FinalizeRound S io current next entries results).2 = true)
    (hundo : (UndoFinalizeRound (FinalizeRound S io current next entries results).1 io'
      current results).2 = true)
    (hagain : (FinalizeRound
      (UndoFinalizeRound (FinalizeRound S io current next entries results).1 io'
        current results).1 io'' current next entries results).2 = true) :
    (FinalizeRound
      (UndoFinalizeRound (FinalizeRound S io current next entries results).1 io'
        current results).1 io'' current next entries results).1
      = (FinalizeRound S io current next entries results).1 := by
  have e1 : (FinalizeRound S io current next entries results).1
      = (finalizeRoundBatch current next entries results).foldl Store.apply S := by
    unfold FinalizeRound at hfin ⊢
    exact WriteBatch_success hfin
  rw [e1] at hundo hagain ⊢
  have e2 : (UndoFinalizeRound
      ((finalizeRoundBatch current next entries results).foldl Store.apply S) io'
      current results).1
      = (undoFinalizeRoundBatch current results).foldl Store.apply
          ((finalizeRoundBatch current next entries results).foldl Store.apply S) := by
    unfold UndoFinalizeRound at hundo ⊢
    exact WriteBatch_success hundo
  rw [e2] at hagain ⊢
  unfold FinalizeRound at hagain ⊢
  rw [WriteBatch_success hagain]
  refine Store.ext_of_WF
    (Store.WF_foldl _ (Store.WF_foldl _ (Store.WF_foldl _ hS))) (Store.WF_foldl _ hS)
    (fun k => ?_)
  by_cases hf : ∃ op ∈ finalizeRoundBatch current next entries results, op.key = k
  · obtain ⟨op, _, _, hr⟩ := Store.read_foldl_touched _ S hf
    rw [hr, hr]
  · have hnf : ∀ o ∈ finalizeRoundBatch current next entries results, k ≠ o.key :=
      fun o ho hko => hf ⟨o, ho, hko.symm⟩
    rw [Store.read_foldl_other _ _ hnf, Store.read_foldl_other _ S hnf]
    by_cases hu : ∃ op ∈ undoFinalizeRoundBatch current results, op.key = k
    · obtain ⟨op, hop, hk, hr⟩ := Store.read_foldl_touched _ S hu
      rw [hr]
      rcases (mem_undoFinalizeRoundBatch _ _ op).mp hop with
        ⟨s, hs, rfl⟩ | ⟨s, hs, rfl⟩ | rfl | rfl
      · exact absurd ⟨_, (mem_finalizeRoundBatch _ _ _ _ _).mpr (Or.inl ⟨s, hs, rfl⟩), hk⟩ hf
      · rcases hcopies s hs with ⟨e, he, hid⟩ | hcopy
        · refine absurd ⟨_, (mem_finalizeRoundBatch _ _ _ _ _).mpr
            (Or.inr (Or.inl ⟨e, he, rfl⟩)), ?_⟩ hf
          rw [← hk]
          simp [BatchOp.key, hid]
        · rw [← hk]
          exact ((readRewardEntry_eq_some S _ _).mp hcopy).symm
      · exact absurd ⟨_, (mem_finalizeRoundBatch _ _ _ _ _).mpr
          (Or.inr (Or.inr (Or.inl rfl))), hk⟩ hf
      · exact absurd ⟨_, (mem_finalizeRoundBatch _ _ _ _ _).mpr
          (Or.inr (Or.inr (Or.inr rfl))), hk⟩ hf
    · have hnu : ∀ o ∈ undoFinalizeRoundBatch current results, k ≠ o.key :=
        fun o ho hko => hu ⟨o, ho, hko.symm⟩
      rw [Store.read_foldl_other _ _ hnu, Store.read_foldl_other _ S hnf]


theorem finalizeRound_reapplication_witness :
    storeRound1.WF
      ∧ (∀ s ∈ [resultA, resultB],
          (∃ e ∈ [entryANext, entryB], e.id = s.entry.id)
            ∨ ReadRewardEntry storeRound1 s.entry.id = some s.entry)
      ∧ (FinalizeRound
          (UndoFinalizeRound
            (FinalizeRound storeRound1 true round1 round2 [entryANext, entryB]
              [resultA, resultB]).1 true round1 [resultA, resultB]).1
          true round1 round2 [entryANext, entryB] [resultA, resultB]).1
        = (FinalizeRound storeRound1 true round1 round2 [entryANext, entryB]
            [resultA, resultB]).1 :=
  ⟨storeRound1_WF, by decide,
    finalizeRound_reapplication storeRound1 storeRound1_WF true true true round1 round2
      [entryANext, entryB] [resultA, resultB] (by decide) rfl rfl rfl⟩

/-- C4 as stated fails: on the scenario store, `FinalizeRound` of round 1 with
the entries `[entryANext, entryB]` and the results `[resultA, resultB, resultC]`
gives a store `S1` without an entry for `C`; `UndoFinalizeRound` on `S1`
followed by `FinalizeRound` with the identical inputs succeeds and leaves the
entry of `C` stored, so the store differs from `S1`. -/
theorem finalizeRound_reapplication_adds_entry :
    storeRound1.WF
      ∧ (FinalizeRound storeRound1 true round1 round2 [entryANext, entryB]
          [resultA, resultB, resultC]).2 = true
      ∧ (UndoFinalizeRound
          (FinalizeRound storeRound1 true round1 round2 [entryANext, entryB]
            [resultA, resultB, resultC]).1 true round1 [resultA, resultB, resultC]).2
          = true
      ∧ (FinalizeRound
          (UndoFinalizeRound
            (FinalizeRound storeRound1 true round1 round2 [entryANext, entryB]
              [resultA, resultB, resultC]).1 true round1 [resultA, resultB, resultC]).1
          true round1 round2 [entryANext, entryB] [resultA, resultB, resultC]).2 = true
      ∧ ReadRewardEntry
          (FinalizeRound storeRound1 true round1 round2 [entryANext, entryB]
            [resultA, resultB, resultC]).1 3 = none
      ∧ ReadRewardEntry
          (FinalizeRound
            (UndoFinalizeRound
              (FinalizeRound storeRound1 true round1 round2 [entryANext, entryB]
                [resultA, resultB, resultC]).1 true round1 [resultA, resultB, resultC]).1
            true round1 round2 [entryANext, entryB] [resultA, resultB, resultC]).1 3
          = some resultC.entry
      ∧ (FinalizeRound
          (UndoFinalizeRound
            (FinalizeRound storeRound1 true round1 round2 [entryANext, entryB]
              [resultA, resultB, resultC]).1 true round1 [resultA, resultB, resultC]).1
          true round1 round2 [entryANext, entryB] [resultA, resultB, resultC]).1
        ≠ (FinalizeRound storeRound1 true round1 round2 [entryANext, entryB]
            [resultA, resultB, resultC]).1 :=
  ⟨storeRound1_WF, rfl, rfl, rfl, rfl, rfl, by decide⟩


/-! ## Reading the snapshots of a round -/

theorem snapshot_not_lt_prefix (round : Int) (a : CSmartAddress) :
    codeLt (Key.snapshot round a).code [DB_ROUND_SNAPSHOT, round] = false := by
  simp [Key.code, codeLt]

/-- A key that is not below the seek target of a round and lies below one of
the round's snapshot keys is itself a snapshot key of the round. -/
theorem snapshot_of_between (k : Key) (round : Int) (a : CSmartAddress)
    (h1 : codeLt k.code [DB_ROUND_SNAPSHOT, round] = false)
    (h2 : codeLt k.code (Key.snapshot round a).code = true) :
    ∃ b, k = .snapshot round b := by
  cases k with
  | snapshot n b =>
    refine ⟨b, ?_⟩
    simp only [Key.code, codeLt, lt_self_iff_false, if_false] at h1 h2
    by_cases hlt : n < round
    · simp [hlt] at h1
    · by_cases hgt : round < n
      · simp [hlt, hgt] at h2
      · have : n = round := le_antisymm (not_lt.mp hgt) (not_lt.mp hlt)
        rw [this]
  | roundCurrent => simp [Key.code, codeLt, DB_ROUND_SNAPSHOT, DB_ROUND_CURRENT] at h1
  | round n => simp [Key.code, codeLt, DB_ROUND_SNAPSHOT, DB_ROUND] at h1
  | rewardEntry n => simp [Key.code, codeLt, DB_ROUND_SNAPSHOT, DB_REWARD_ENTRY] at h1
  | block n => simp [Key.code, codeLt, DB_ROUND_SNAPSHOT, DB_BLOCK] at h1
  | blockLast => simp [Key.code, codeLt, DB_ROUND_SNAPSHOT, DB_BLOCK_LAST] at h1
  | txHash n => simp [Key.code, codeLt, DB_ROUND_SNAPSHOT, DB_TX_HASH] at h2
  | version => simp [Key.code, codeLt, DB_ROUND_SNAPSHOT, DB_VERSION] at h1
  | lock => simp [Key.code, codeLt, DB_ROUND_SNAPSHOT, DB_LOCK] at h1

theorem isSnapshotOf_iff (round : Int) (kv : Key × Value) :
    isSnapshotOf round kv = true ↔ ∃ a, kv.1 = .snapshot round a := by
  obtain ⟨k, v⟩ := kv
  cases k <;> simp [isSnapshotOf]

/-- On rows in key order that start at or after the seek target, the loop of
`ReadRewardRoundResults` sees exactly the snapshot rows of the round. -/
theorem readRoundResultsLoop_filter (round : Int) (l : List (Key × Value))
    (hl : l.Pairwise (fun a b => codeLt a.1.code b.1.code = true))
    (hge : ∀ x ∈ l, codeLt x.1.code [DB_ROUND_SNAPSHOT, round] = false)
    (results : List CSmartRewardRoundResult) :
    readRoundResultsLoop round l results
      = readRoundResultsLoop round (l.filter (isSnapshotOf round)) results := by
  induction l generalizing results with
  | nil => rfl
  | cons hd tl ih =>
    obtain ⟨k, v⟩ := hd
    rw [List.pairwise_cons] at hl
    obtain ⟨hhd, htl⟩ := hl
    have hge' : ∀ x ∈ tl, codeLt x.1.code [DB_ROUND_SNAPSHOT, round] = false :=
      fun x hx => hge x (List.mem_cons_of_mem _ hx)
    by_cases hs : isSnapshotOf round (k, v) = true
    · obtain ⟨a, ha⟩ := (isSnapshotOf_iff round (k, v)).mp hs
      simp only at ha
      subst ha
      rw [List.filter_cons_of_pos hs]
      cases v with
      | result nValue =>
        simp only [readRoundResultsLoop, ne_eq, not_true_eq_false, if_false]
        exact ih htl hge' _
      | round r => simp [readRoundResultsLoop]
      | entry e => simp [readRoundResultsLoop]
      | block b => simp [readRoundResultsLoop]
      | tx t => simp [readRoundResultsLoop]
      | version n => simp [readRoundResultsLoop]
      | lock n => simp [readRoundResultsLoop]
    · have hnone : tl.filter (isSnapshotOf round) = [] := by
        rw [List.filter_eq_nil_iff]
        intro x hx hxs
        obtain ⟨a, ha⟩ := (isSnapshotOf_iff round x).mp hxs
        have hlt := hhd x hx
        rw [ha] at hlt
        obtain ⟨b, hb⟩ := snapshot_of_between k round a
          (hge (k, v) (List.mem_cons_self _ _)) hlt
        exact hs ((isSnapshotOf_iff round (k, v)).mpr ⟨b, hb⟩)
      rw [List.filter_cons_of_neg hs, hnone]
      cases k with
      | snapshot n b =>
        have hn : n ≠ round := by
          intro hn
          exact hs ((isSnapshotOf_iff round _).mpr ⟨b, by rw [hn]⟩)
        simp [readRoundResultsLoop, hn]
      | roundCurrent => simp [readRoundResultsLoop]
      | round n => simp [readRoundResultsLoop]
      | rewardEntry n => simp [readRoundResultsLoop]
      | block n => simp [readRoundResultsLoop]
      | blockLast => simp [readRoundResultsLoop]
      | txHash n => simp [readRoundResultsLoop]
      | version => simp [readRoundResultsLoop]
      | lock => simp [readRoundResultsLoop]

/-- On a well-formed store `ReadRewardRoundResults` runs over exactly the
snapshot rows of the round, in key order. -/
theorem readRewardRoundResults_eq_filter (S : Store) (hS : S.WF) (round : Int)
    (results : List CSmartRewardRoundResult) :
    ReadRewardRoundResults S round results
      = readRoundResultsLoop round (S.filter (isSnapshotOf round)) results := by
  unfold ReadRewardRoundResults Store.Seek
  induction S with
  | nil => rfl
  | cons hd tl ih =>
    obtain ⟨k, v⟩ := hd
    unfold Store.WF at hS ih
    have hS' := hS
    rw [List.pairwise_cons] at hS'
    obtain ⟨hhd, htl⟩ := hS'
    by_cases hlt : codeLt k.code [DB_ROUND_SNAPSHOT, round] = true
    · have hns : ¬ isSnapshotOf round (k, v) = true := by
        intro hs
        obtain ⟨a, ha⟩ := (isSnapshotOf_iff round (k, v)).mp hs
        simp only at ha
        rw [ha, snapshot_not_lt_prefix] at hlt
        cases hlt
      rw [List.dropWhile_cons, if_pos hlt, List.filter_cons_of_neg hns]
      exact ih htl
    · rw [List.dropWhile_cons, if_neg hlt]
      have hge : ∀ x ∈ (k, v) :: tl, codeLt x.1.code [DB_ROUND_SNAPSHOT, round] = false := by
        intro x hx
        rcases List.mem_cons.mp hx with rfl | hx
        · simpa using hlt
        · cases hxl : codeLt x.1.code [DB_ROUND_SNAPSHOT, round] with
          | false => rfl
          | true => exact absurd (codeLt_trans (hhd x hx) hxl) hlt
      exact readRoundResultsLoop_filter round _ hS hge results


theorem Store.filter_write (p : Key × Value → Bool) (S : Store) (k : Key) (v : Value)
    (hp : ∀ w, p (k, w) = false) : (S.Write k v).filter p = S.filter p := by
  induction S with
  | nil => simp [Store.Write, hp v]
  | cons hd tl ih =>
    obtain ⟨k', v'⟩ := hd
    unfold Store.Write
    by_cases h1 : k' = k
    · subst h1
      simp [hp v, hp v']
    · by_cases h2 : codeLt k.code k'.code = true
      · rw [if_neg h1, if_pos h2]
        simp [hp v]
      · rw [if_neg h1, if_neg h2]
        simp only [List.filter_cons, ih]

theorem Store.filter_erase (p : Key × Value → Bool) (S : Store) (k : Key)
    (hp : ∀ w, p (k, w) = false) : (S.Erase k).filter p = S.filter p := by
  unfold Store.Erase
  rw [List.filter_filter]
  apply List.filter_congr
  intro x _
  obtain ⟨k', v'⟩ := x
  by_cases h1 : k' = k
  · subst h1
    simp [hp v']
  · simp [h1]

theorem Store.filter_foldl (p : Key × Value → Bool) (ops : List BatchOp) (S : Store)
    (hp : ∀ op ∈ ops, ∀ w, p (op.key, w) = false) :
    (ops.foldl Store.apply S).filter p = S.filter p := by
  induction ops generalizing S with
  | nil => rfl
  | cons op tl ih =>
    rw [List.foldl_cons, ih _ (fun o ho => hp o (List.mem_cons_of_mem _ ho))]
    have := hp op (List.mem_cons_self _ _)
    cases op with
    | write k v => exact Store.filter_write p S k v this
    | erase k => exact Store.filter_erase p S k this

theorem Store.read_of_mem {S : Store} (hS : S.WF) {k : Key} {v : Value} (h : (k, v) ∈ S) :
    S.Read k = some v := by
  induction S with
  | nil => cases h
  | cons hd tl ih =>
    obtain ⟨k', v'⟩ := hd
    unfold Store.WF at hS ih
    rw [List.pairwise_cons] at hS
    obtain ⟨hhd, htl⟩ := hS
    rcases List.mem_cons.mp h with heq | hmem
    · cases heq
      simp [Store.Read]
    · have hne : k' ≠ k := by
        rintro rfl
        have := hhd (k', v) hmem
        rw [codeLt_irrefl] at this
        cases this
      simp only [Store.Read, hne, if_false]
      exact ih htl hmem

theorem Store.nodup_of_WF {S : Store} (hS : S.WF) : S.Nodup := by
  unfold Store.WF at hS
  refine List.Pairwise.imp ?_ hS
  intro a b hab heq
  rw [heq, codeLt_irrefl] at hab
  cases hab

/-- On snapshot rows of the round whose values all decode, the loop succeeds
and appends the decoded values in order. -/
theorem readRoundResultsLoop_rows (round : Int) (l : List (Key × Value))
    (hl : ∀ x ∈ l, ∃ a s, x = (Key.snapshot round a, Value.result s))
    (results : List CSmartRewardRoundResult) :
    readRoundResultsLoop round l results = (true, results ++ l.filterMap rowResult) := by
  induction l generalizing results with
  | nil => simp [readRoundResultsLoop]
  | cons hd tl ih =>
    obtain ⟨a, s, rfl⟩ := hl hd (List.mem_cons_self _ _)
    simp only [readRoundResultsLoop, ne_eq, not_true_eq_false, if_false]
    rw [ih (fun x hx => hl x (List.mem_cons_of_mem _ hx))]
    simp [rowResult]

/-- After the batch of `FinalizeRound` on a well-formed store without snapshots
of the round, the snapshot rows of the round are the supplied results, each
under its own address. -/
theorem finalizeRoundBatch_snapshot_rows (S : Store) (hS : S.WF)
    (current next : CSmartRewardRound) (entries : List CSmartRewardEntry)
    (results : List CSmartRewardRoundResult)
    (hnoSnap : ∀ id : CSmartAddress, S.Exists (.snapshot current.number id) = false)
    (hd : (results.map (fun s => s.entry.id)).Nodup) :
    (((finalizeRoundBatch current next entries results).foldl Store.apply S).filter
        (isSnapshotOf current.number)).Perm
      (results.map (fun s => (Key.snapshot current.number s.entry.id, Value.result s))) := by
  have hWF := Store.WF_foldl (finalizeRoundBatch current next entries results) hS
  have hinj : ∀ x ∈ results, ∀ y ∈ results,
      (Key.snapshot current.number x.entry.id, Value.result x)
        = (Key.snapshot current.number y.entry.id, Value.result y) → x = y := by
    intro x _ y _ hxy
    simp only [Prod.mk.injEq, Value.result.injEq] at hxy
    exact hxy.2
  have hnd : results.Nodup := List.Nodup.of_map _ hd
  rw [List.perm_ext_iff_of_nodup ((Store.nodup_of_WF hWF).filter _)
    (List.Nodup.map_on hinj hnd)]
  intro x
  obtain ⟨k, v⟩ := x
  rw [List.mem_filter, List.mem_map]
  constructor
  · rintro ⟨hmem, hsnap⟩
    obtain ⟨a, ha⟩ := (isSnapshotOf_iff _ _).mp hsnap
    simp only at ha
    subst ha
    have hread := Store.read_of_mem hWF hmem
    by_cases ht : ∃ op ∈ finalizeRoundBatch current next entries results,
        op.key = .snapshot current.number a
    · obtain ⟨op, hop, hk, hr⟩ := Store.read_foldl_touched _ S ht
      rw [hr S] at hread
      rcases (mem_finalizeRoundBatch _ _ _ _ op).mp hop with
        ⟨s, hs, rfl⟩ | ⟨e, _, rfl⟩ | rfl | rfl
      · simp only [BatchOp.key, Key.snapshot.injEq, true_and] at hk
        simp only [BatchOp.effect, Option.some.injEq] at hread
        exact ⟨s, hs, by rw [hk, hread]⟩
      · simp [BatchOp.key] at hk
      · simp [BatchOp.key] at hk
      · simp [BatchOp.key] at hk
    · have hnot : ∀ o ∈ finalizeRoundBatch current next entries results,
          Key.snapshot current.number a ≠ o.key := fun o ho hk => ht ⟨o, ho, hk.symm⟩
      rw [Store.read_foldl_other _ S hnot,
        Store.read_eq_none_of_exists_false (hnoSnap a)] at hread
      cases hread
  · rintro ⟨s, hs, heq⟩
    simp only [Prod.mk.injEq] at heq
    obtain ⟨rfl, rfl⟩ := heq
    refine ⟨?_, (isSnapshotOf_iff _ _).mpr ⟨s.entry.id, rfl⟩⟩
    apply Store.mem_of_read
    obtain ⟨op, hop, hk, hr⟩ := Store.read_foldl_touched
      (finalizeRoundBatch current next entries results) S
      (k := .snapshot current.number s.entry.id)
      ⟨_, (mem_finalizeRoundBatch _ _ _ _ _).mpr (Or.inl ⟨s, hs, rfl⟩), rfl⟩
    rw [hr S]
    rcases (mem_finalizeRoundBatch _ _ _ _ op).mp hop with
      ⟨s', hs', rfl⟩ | ⟨e, _, rfl⟩ | rfl | rfl
    · simp only [BatchOp.key, Key.snapshot.injEq, true_and] at hk
      have : s' = s := List.inj_on_of_nodup_map hd hs' hs hk
      rw [this]
      rfl
    · simp [BatchOp.key] at hk
    · simp [BatchOp.key] at hk
    · simp [BatchOp.key] at hk

/-- C6: on a store that holds no snapshot for round `current.number` (snapshots
of other rounds may be present), for a `results` list with pairwise distinct
addresses, after a successful `FinalizeRound` the call
`ReadRewardRoundResults(current.number)` succeeds and appends a list holding
exactly the elements of `results` (a permutation of it: each once, nothing
else), and `ReadRewardRoundResults` of every other round returns what it
returned before. -/
theorem finalizeRound_results_read_back (S : Store) (hS : S.WF) (io : Bool)
    (current next : CSmartRewardRound) (entries : List CSmartRewardEntry)
    (results : List CSmartRewardRoundResult)
    (hnoSnap : ∀ id : CSmartAddress, S.Exists (.snapshot current.number id) = false)
    (hd : (results.map (fun s => s.entry.id)).Nodup)
    (h : (FinalizeRound S io current next entries results).2 = true) :
    (∀ acc : List CSmartRewardRoundResult, ∃ l : List CSmartRewardRoundResult,
        ReadRewardRoundResults (FinalizeRound S io current next entries results).1
            current.number acc = (true, acc ++ l)
          ∧ l.Perm results)
      ∧ (∀ (round : Int) (acc : List CSmartRewardRoundResult), round ≠ current.number →
          ReadRewardRoundResults (FinalizeRound S io current next entries results).1
              round acc
            = ReadRewardRoundResults S round acc) := by
  unfold FinalizeRound at h ⊢
  rw [WriteBatch_success h]
  have hWF := Store.WF_foldl (finalizeRoundBatch current next entries results) hS
  constructor
  · intro acc
    have hperm := finalizeRoundBatch_snapshot_rows S hS current next entries results
      hnoSnap hd
    refine ⟨(((finalizeRoundBatch current next entries results).foldl Store.apply S).filter
      (isSnapshotOf current.number)).filterMap rowResult, ?_, ?_⟩
    · rw [readRewardRoundResults_eq_filter _ hWF]
      apply readRoundResultsLoop_rows
      intro x hx
      obtain ⟨s, _, hs⟩ := List.mem_map.mp (hperm.mem_iff.mp hx)
      exact ⟨s.entry.id, s, hs.symm⟩
    · have h2 := hperm.filterMap rowResult
      rw [List.filterMap_map] at h2
      have h3 : (rowResult ∘ fun s : CSmartRewardRoundResult =>
          (Key.snapshot current.number s.entry.id, Value.result s)) = some := by
        funext s
        rfl
      rw [h3, List.filterMap_some] at h2
      exact h2
  · intro round acc hne
    rw [readRewardRoundResults_eq_filter _ hWF, readRewardRoundResults_eq_filter _ hS]
    rw [Store.filter_foldl]
    intro op hop w
    rcases (mem_finalizeRoundBatch _ _ _ _ op).mp hop with
      ⟨s, _, rfl⟩ | ⟨e, _, rfl⟩ | rfl | rfl
    · simp [BatchOp.key, isSnapshotOf, Ne.symm hne]
    · simp [BatchOp.key, isSnapshotOf]
    · simp [BatchOp.key, isSnapshotOf]
    · simp [BatchOp.key, isSnapshotOf]


theorem storeRound2_WF : storeRound2.WF := by
  simp [Store.WF, storeRound2, Key.code, codeLt, DB_REWARD_ENTRY, DB_ROUND_CURRENT,
    DB_ROUND, DB_ROUND_SNAPSHOT]

theorem storeRound2_no_snapshot (id : CSmartAddress) :
    storeRound2.Exists (.snapshot round2.number id) = false := by
  simp [storeRound2, Store.Exists, Store.Read, round2]

theorem finalizeRound_results_read_back_witness :
    storeRound2.WF
      ∧ (∀ id : CSmartAddress, storeRound2.Exists (.snapshot round2.number id) = false)
      ∧ ([resultB, resultA2].map (fun s => s.entry.id)).Nodup
      ∧ (FinalizeRound storeRound2 true round2 round3 [entryANext, entryB]
          [resultB, resultA2]).2 = true
      ∧ ReadRewardRoundResults
          (FinalizeRound storeRound2 true round2 round3 [entryANext, entryB]
            [resultB, resultA2]).1 2 [] = (true, [resultA2, resultB])
      ∧ ((∀ acc : List CSmartRewardRoundResult, ∃ l : List CSmartRewardRoundResult,
          ReadRewardRoundResults
              (FinalizeRound storeRound2 true round2 round3 [entryANext, entryB]
                [resultB, resultA2]).1 round2.number acc = (true, acc ++ l)
            ∧ l.Perm [resultB, resultA2])
        ∧ (∀ (round : Int) (acc : List CSmartRewardRoundResult), round ≠ round2.number →
          ReadRewardRoundResults
              (FinalizeRound storeRound2 true round2 round3 [entryANext, entryB]
                [resultB, resultA2]).1 round acc
            = ReadRewardRoundResults storeRound2 round acc)) :=
  ⟨storeRound2_WF, storeRound2_no_snapshot, by decide, rfl, rfl,
    finalizeRound_results_read_back storeRound2 storeRound2_WF true round2 round3
      [entryANext, entryB] [resultB, resultA2] storeRound2_no_snapshot (by decide) rfl⟩

/-! ## SyncCached: the recorded operations -/

theorem mem_syncCachedBatch (IsValid : CSmartRewardBlock → Bool)
    (block : CSmartRewardBlock) (current : CSmartRewardRound)
    (rewards : CSmartRewardEntryMap) (transactions : List CSmartRewardTransaction)
    (fUndo : Bool) (op : BatchOp) :
    op ∈ syncCachedBatch IsValid block current rewards transactions fUndo ↔
      (∃ r ∈ rewards, op = syncEntryOp r)
        ∨ (∃ t ∈ transactions, op = syncTxOp fUndo t)
        ∨ (IsValid block = true ∧ op = .write (.block block.nHeight) (.block block))
        ∨ (IsValid block = true ∧ op = .write .blockLast (.block block))
        ∨ op = .write .roundCurrent (.round current) := by
  unfold syncCachedBatch
  simp only [List.mem_append, List.mem_map, List.mem_singleton]
  cases hv : IsValid block
  · simp only [Bool.false_eq_true, if_false, List.not_mem_nil, false_and, false_or, or_false]
    constructor
    · rintro ((⟨r, hr, rfl⟩ | ⟨t, ht, rfl⟩) | rfl)
      · exact Or.inl ⟨r, hr, rfl⟩
      · exact Or.inr (Or.inl ⟨t, ht, rfl⟩)
      · exact Or.inr (Or.inr rfl)
    · rintro (⟨r, hr, rfl⟩ | ⟨t, ht, rfl⟩ | rfl)
      · exact Or.inl (Or.inl ⟨r, hr, rfl⟩)
      · exact Or.inl (Or.inr ⟨t, ht, rfl⟩)
      · exact Or.inr rfl
  · simp only [if_true, List.mem_cons, List.mem_singleton, List.not_mem_nil, or_false,
      true_and]
    constructor
    · rintro (((⟨r, hr, rfl⟩ | ⟨t, ht, rfl⟩) | rfl | rfl) | rfl)
      · exact Or.inl ⟨r, hr, rfl⟩
      · exact Or.inr (Or.inl ⟨t, ht, rfl⟩)
      · exact Or.inr (Or.inr (Or.inl rfl))
      · exact Or.inr (Or.inr (Or.inr (Or.inl rfl)))
      · exact Or.inr (Or.inr (Or.inr (Or.inr rfl)))
    · rintro (⟨r, hr, rfl⟩ | ⟨t, ht, rfl⟩ | rfl | rfl | rfl)
      · exact Or.inl (Or.inl (Or.inl ⟨r, hr, rfl⟩))
      · exact Or.inl (Or.inl (Or.inr ⟨t, ht, rfl⟩))
      · exact Or.inl (Or.inr (Or.inl rfl))
      · exact Or.inl (Or.inr (Or.inr rfl))
      · exact Or.inr rfl

/-- The transaction loop with `fUndo` unset leaves, under a hash, the last
listed transaction with that hash, or what the store held when none has it. -/
theorem read_foldl_txWrites (transactions : List CSmartRewardTransaction) (S : Store)
    (hash : uint256) :
    ((transactions.map (syncTxOp false)).foldl Store.apply S).Read (.txHash hash)
      = match (transactions.filter (fun u => decide (u.hash = hash))).getLast? with
        | some t => some (.tx t)
        | none => S.Read (.txHash hash) := by
  induction transactions using List.reverseRecOn with
  | nil => rfl
  | append_singleton init u ih =>
    rw [List.map_append, List.foldl_append, List.filter_append]
    simp only [List.map_cons, List.map_nil, List.foldl_cons, List.foldl_nil]
    by_cases hu : u.hash = hash
    · subst hu
      have hf : List.filter (fun t => decide (t.hash = u.hash)) [u] = [u] := by simp
      rw [hf, List.getLast?_append_of_ne_nil _ (by simp)]
      simp only [List.getLast?_singleton]
      have := Store.read_apply_same
        ((init.map (syncTxOp false)).foldl Store.apply S) (syncTxOp false u)
      rw [syncTxOp_key] at this
      rw [this]
      simp [syncTxOp, BatchOp.effect]
    · have hf : List.filter (fun t => decide (t.hash = hash)) [u] = [] := by simp [hu]
      rw [hf, List.append_nil, ← ih]
      apply Store.read_apply_other
      rw [syncTxOp_key]
      intro heq
      injection heq with heq
      exact hu heq.symm

/-- C11: after a successful `SyncCached`, for each transaction `t` of the list
the guard keyed by `t.hash` exists if and only if `fUndo` is false, and then
`ReadTransaction(t.hash)` returns the last listed transaction with that hash;
the rows of hashes that are not in the list are unchanged. With `fUndo` set,
every `t` of the list therefore has `Exists(t.hash) = false` afterwards. -/
theorem syncCached_transaction_guards (IsValid : CSmartRewardBlock → Bool) (S : Store)
    (io : Bool) (block : CSmartRewardBlock) (current : CSmartRewardRound)
    (rewards : CSmartRewardEntryMap) (transactions : List CSmartRewardTransaction)
    (fUndo : Bool)
    (h : (SyncCached IsValid S io block current rewards transactions fUndo).2 = true) :
    (∀ t ∈ transactions,
        ((SyncCached IsValid S io block current rewards transactions fUndo).1.Exists
            (.txHash t.hash) = true ↔ fUndo = false)
          ∧ (fUndo = false →
            ReadTransaction
                (SyncCached IsValid S io block current rewards transactions fUndo).1 t.hash
              = (transactions.filter (fun u => decide (u.hash = t.hash))).getLast?))
      ∧ (∀ hash : uint256, (∀ t ∈ transactions, t.hash ≠ hash) →
          (SyncCached IsValid S io block current rewards transactions fUndo).1.Read
              (.txHash hash) = S.Read (.txHash hash)) := by
  unfold SyncCached at h ⊢
  rw [WriteBatch_success h]
  refine ⟨fun t ht => ⟨?_, ?_⟩, ?_⟩
  · obtain ⟨op, hop, hk, hr⟩ := Store.read_foldl_touched
      (syncCachedBatch IsValid block current rewards transactions fUndo) S
      (k := .txHash t.hash)
      ⟨_, (mem_syncCachedBatch _ _ _ _ _ _ _).mpr (Or.inr (Or.inl ⟨t, ht, rfl⟩)),
        syncTxOp_key fUndo t⟩
    rw [Store.Exists, hr S]
    rcases (mem_syncCachedBatch _ _ _ _ _ _ op).mp hop with
      ⟨r, _, rfl⟩ | ⟨u, _, rfl⟩ | ⟨_, rfl⟩ | ⟨_, rfl⟩ | rfl
    · rw [syncEntryOp_key] at hk
      cases hk
    · cases fUndo <;> simp [syncTxOp, BatchOp.effect]
    · simp [BatchOp.key] at hk
    · simp [BatchOp.key] at hk
    · simp [BatchOp.key] at hk
  · intro hf
    subst hf
    unfold syncCachedBatch ReadTransaction
    rw [List.foldl_append, List.foldl_append, List.foldl_append]
    rw [Store.read_foldl_other [BatchOp.write .roundCurrent (.round current)] _
      (k := .txHash t.hash)
      (by intro o ho; simp only [List.mem_singleton] at ho; subst ho; simp [BatchOp.key])]
    rw [Store.read_foldl_other
      (if IsValid block then
        [BatchOp.write (.block block.nHeight) (.block block),
         BatchOp.write .blockLast (.block block)]
       else []) _ (k := .txHash t.hash)
      (by
        intro o ho
        split at ho
        · simp only [List.mem_cons, List.mem_singleton, List.not_mem_nil, or_false] at ho
          rcases ho with rfl | rfl <;> simp [BatchOp.key]
        · simp at ho)]
    rw [read_foldl_txWrites]
    have hne : transactions.filter (fun u => decide (u.hash = t.hash)) ≠ [] := by
      intro hnil
      have hmem : t ∈ transactions.filter (fun u => decide (u.hash = t.hash)) :=
        List.mem_filter.mpr ⟨ht, by simp⟩
      rw [hnil] at hmem
      cases hmem
    cases hl : (transactions.filter (fun u => decide (u.hash = t.hash))).getLast? with
    | none => exact absurd (List.getLast?_eq_none_iff.mp hl) hne
    | some u => rfl
  · intro hash hnot
    apply Store.read_foldl_other
    intro o ho
    rcases (mem_syncCachedBatch _ _ _ _ _ _ o).mp ho with
      ⟨r, _, rfl⟩ | ⟨u, hu, rfl⟩ | ⟨_, rfl⟩ | ⟨_, rfl⟩ | rfl
    · rw [syncEntryOp_key]
      simp
    · rw [syncTxOp_key]
      intro heq
      injection heq with heq
      exact hnot u hu heq.symm
    · simp [BatchOp.key]
    · simp [BatchOp.key]
    · simp [BatchOp.key]

theorem syncCached_transaction_guards_witness :
    (SyncCached hashNotNull storeBlocks2 true block3 round1 [] [tx1Again, tx2] true).2 = true
      ∧ storeBlocks2.Exists (.txHash tx1.hash) = true
      ∧ (SyncCached hashNotNull storeBlocks2 true block3 round1 [] [tx1Again, tx2]
          true).1.Exists (.txHash tx1.hash) = false
      ∧ ReadTransaction
          (SyncCached hashNotNull storeFresh true block1 round1 [] [tx1, tx2, tx1Again]
            false).1 tx1.hash = some tx1Again
      ∧ ((∀ t ∈ [tx1Again, tx2],
          ((SyncCached hashNotNull storeBlocks2 true block3 round1 [] [tx1Again, tx2]
              true).1.Exists (.txHash t.hash) = true ↔ true = false)
            ∧ (true = false →
              ReadTransaction
                  (SyncCached hashNotNull storeBlocks2 true block3 round1 []
                    [tx1Again, tx2] true).1 t.hash
                = ([tx1Again, tx2].filter (fun u => decide (u.hash = t.hash))).getLast?))
        ∧ (∀ hash : uint256, (∀ t ∈ [tx1Again, tx2], t.hash ≠ hash) →
            (SyncCached hashNotNull storeBlocks2 true block3 round1 [] [tx1Again, tx2]
                true).1.Read (.txHash hash) = storeBlocks2.Read (.txHash hash))) :=
  ⟨rfl, rfl, rfl, rfl,
    syncCached_transaction_guards hashNotNull storeBlocks2 true block3 round1 []
      [tx1Again, tx2] true rfl⟩

/-! ## SyncCached: the block record -/

/-- The batch of `SyncCached` with a block that is not valid acts on no
per-height block record and not on the last-block record. -/
theorem syncCachedBatch_block_untouched (IsValid : CSmartRewardBlock → Bool)
    (block : CSmartRewardBlock) (current : CSmartRewardRound)
    (rewards : CSmartRewardEntryMap) (transactions : List CSmartRewardTransaction)
    (fUndo : Bool) (S : Store) (hv : IsValid block = false) :
    (∀ n : Int,
        ((syncCachedBatch IsValid block current rewards transactions fUndo).foldl
          Store.apply S).Read (.block n) = S.Read (.block n))
      ∧ ((syncCachedBatch IsValid block current rewards transactions fUndo).foldl
          Store.apply S).Read .blockLast = S.Read .blockLast := by
  constructor
  · intro n
    apply Store.read_foldl_other
    intro o ho
    rcases (mem_syncCachedBatch _ _ _ _ _ _ o).mp ho with
      ⟨r, _, rfl⟩ | ⟨u, _, rfl⟩ | ⟨hv', _⟩ | ⟨hv', _⟩ | rfl
    · rw [syncEntryOp_key]
      simp
    · rw [syncTxOp_key]
      simp
    · rw [hv] at hv'
      cases hv'
    · rw [hv] at hv'
      cases hv'
    · simp [BatchOp.key]
  · apply Store.read_foldl_other
    intro o ho
    rcases (mem_syncCachedBatch _ _ _ _ _ _ o).mp ho with
      ⟨r, _, rfl⟩ | ⟨u, _, rfl⟩ | ⟨hv', _⟩ | ⟨hv', _⟩ | rfl
    · rw [syncEntryOp_key]
      simp
    · rw [syncTxOp_key]
      simp
    · rw [hv] at hv'
      cases hv'
    · rw [hv] at hv'
      cases hv'
    · simp [BatchOp.key]

/-- The batch of `SyncCached` with a valid block leaves the block under its
height and under the last-block key, and every other per-height record as it
was. -/
theorem syncCachedBatch_block_written (IsValid : CSmartRewardBlock → Bool)
    (block : CSmartRewardBlock) (current : CSmartRewardRound)
    (rewards : CSmartRewardEntryMap) (transactions : List CSmartRewardTransaction)
    (fUndo : Bool) (S : Store) (hv : IsValid block = true) :
    ((syncCachedBatch IsValid block current rewards transactions fUndo).foldl
        Store.apply S).Read (.block block.nHeight) = some (.block block)
      ∧ ((syncCachedBatch IsValid block current rewards transactions fUndo).foldl
        Store.apply S).Read .blockLast = some (.block block)
      ∧ (∀ n : Int, n ≠ block.nHeight →
        ((syncCachedBatch IsValid block current rewards transactions fUndo).foldl
          Store.apply S).Read (.block n) = S.Read (.block n)) := by
  refine ⟨?_, ?_, ?_⟩
  · obtain ⟨op, hop, hk, hr⟩ := Store.read_foldl_touched
      (syncCachedBatch IsValid block current rewards transactions fUndo) S
      (k := .block block.nHeight)
      ⟨_, (mem_syncCachedBatch _ _ _ _ _ _ _).mpr (Or.inr (Or.inr (Or.inl ⟨hv, rfl⟩))), rfl⟩
    rw [hr S]
    rcases (mem_syncCachedBatch _ _ _ _ _ _ op).mp hop with
      ⟨r, _, rfl⟩ | ⟨u, _, rfl⟩ | ⟨_, rfl⟩ | ⟨_, rfl⟩ | rfl
    · rw [syncEntryOp_key] at hk
      cases hk
    · rw [syncTxOp_key] at hk
      cases hk
    · rfl
    · simp [BatchOp.key] at hk
    · simp [BatchOp.key] at hk
  · obtain ⟨op, hop, hk, hr⟩ := Store.read_foldl_touched
      (syncCachedBatch IsValid block current rewards transactions fUndo) S
      (k := .blockLast)
      ⟨_, (mem_syncCachedBatch _ _ _ _ _ _ _).mpr
        (Or.inr (Or.inr (Or.inr (Or.inl ⟨hv, rfl⟩)))), rfl⟩
    rw [hr S]
    rcases (mem_syncCachedBatch _ _ _ _ _ _ op).mp hop with
      ⟨r, _, rfl⟩ | ⟨u, _, rfl⟩ | ⟨_, rfl⟩ | ⟨_, rfl⟩ | rfl
    · rw [syncEntryOp_key] at hk
      cases hk
    · rw [syncTxOp_key] at hk
      cases hk
    · simp [BatchOp.key] at hk
    · rfl
    · simp [BatchOp.key] at hk
  · intro n hn
    apply Store.read_foldl_other
    intro o ho
    rcases (mem_syncCachedBatch _ _ _ _ _ _ o).mp ho with
      ⟨r, _, rfl⟩ | ⟨u, _, rfl⟩ | ⟨_, rfl⟩ | ⟨_, rfl⟩ | rfl
    · rw [syncEntryOp_key]
      simp
    · rw [syncTxOp_key]
      simp
    · simpa [BatchOp.key] using hn
    · simp [BatchOp.key]
    · simp [BatchOp.key]

/-- C12: after a successful `SyncCached` with a valid block, `ReadBlock` at
`block.nHeight` and `ReadLastBlock` return that block and every other
per-height record is unchanged; with a block that is not valid, every
per-height record and the last-block record are unchanged. The overload without
a block argument passes the default-constructed block, which is not valid
(`hempty`), so it too leaves all block records unchanged. -/
theorem syncCached_block_record (IsValid : CSmartRewardBlock → Bool) (S : Store) (io : Bool)
    (block : CSmartRewardBlock) (current : CSmartRewardRound)
    (rewards : CSmartRewardEntryMap) (transactions : List CSmartRewardTransaction)
    (fUndo : Bool) (hempty : IsValid emptyBlock = false) :
    ((SyncCached IsValid S io block current rewards transactions fUndo).2 = true →
        IsValid block = true →
        ReadBlock (SyncCached IsValid S io block current rewards transactions fUndo).1
            block.nHeight = some block
          ∧ ReadLastBlock (SyncCached IsValid S io block current rewards transactions fUndo).1
            = some block
          ∧ (∀ n : Int, n ≠ block.nHeight →
            (SyncCached IsValid S io block current rewards transactions fUndo).1.Read
              (.block n) = S.Read (.block n)))
      ∧ ((SyncCached IsValid S io block current rewards transactions fUndo).2 = true →
        IsValid block = false →
        (∀ n : Int,
            (SyncCached IsValid S io block current rewards transactions fUndo).1.Read
              (.block n) = S.Read (.block n))
          ∧ (SyncCached IsValid S io block current rewards transactions fUndo).1.Read
              .blockLast = S.Read .blockLast)
      ∧ ((SyncCachedNoBlock IsValid S io current rewards transactions fUndo).2 = true →
        (∀ n : Int,
            (SyncCachedNoBlock IsValid S io current rewards transactions fUndo).1.Read
              (.block n) = S.Read (.block n))
          ∧ (SyncCachedNoBlock IsValid S io current rewards transactions fUndo).1.Read
              .blockLast = S.Read .blockLast) := by
  refine ⟨?_, ?_, ?_⟩
  · intro h hv
    unfold SyncCached at h ⊢
    rw [WriteBatch_success h]
    obtain ⟨h1, h2, h3⟩ := syncCachedBatch_block_written IsValid block current rewards
      transactions fUndo S hv
    exact ⟨by simp only [ReadBlock, h1], by simp only [ReadLastBlock, h2], h3⟩
  · intro h hv
    unfold SyncCached at h ⊢
    rw [WriteBatch_success h]
    exact syncCachedBatch_block_untouched IsValid block current rewards transactions fUndo
      S hv
  · intro h
    unfold SyncCachedNoBlock SyncCached at h ⊢
    rw [WriteBatch_success h]
    exact syncCachedBatch_block_untouched IsValid emptyBlock current rewards transactions
      fUndo S hempty

theorem syncCached_block_record_witness :
    hashNotNull emptyBlock = false
      ∧ (SyncCached hashNotNull storeBlocks2 true block3 round1 [] [tx2] false).2 = true
      ∧ hashNotNull block3 = true
      ∧ ReadBlock (SyncCached hashNotNull storeBlocks2 true block3 round1 [] [tx2] false).1
          block3.nHeight = some block3
      ∧ ReadLastBlock
          (SyncCached hashNotNull storeBlocks2 true block3 round1 [] [tx2] false).1
          = some block3
      ∧ (SyncCachedNoBlock hashNotNull storeBlocks2 true round1 [] [tx2] false).2 = true
      ∧ ReadLastBlock (SyncCachedNoBlock hashNotNull storeBlocks2 true round1 [] [tx2] false).1
          = some block2
      ∧ (∀ n : Int,
          (SyncCachedNoBlock hashNotNull storeBlocks2 true round1 [] [tx2] false).1.Read
            (.block n) = storeBlocks2.Read (.block n)) :=
  ⟨rfl, rfl, rfl,
    ((syncCached_block_record hashNotNull storeBlocks2 true block3 round1 [] [tx2] false
      rfl).1 rfl rfl).1,
    ((syncCached_block_record hashNotNull storeBlocks2 true block3 round1 [] [tx2] false
      rfl).1 rfl rfl).2.1,
    rfl, rfl,
    ((syncCached_block_record hashNotNull storeBlocks2 true block3 round1 [] [tx2] false
      rfl).2.2 rfl).1⟩

/-! ## One atomic batch per operation -/

theorem WriteBatch_failure {S : Store} {io : Bool} {batch : CDBBatch}
    (h : (WriteBatch S io batch).2 = false) : (WriteBatch S io batch).1 = S := by
  cases io <;> simp_all [WriteBatch]

/-- C13: each of `SyncCached`, `StartFirstRound`, `FinalizeRound` and
`UndoFinalizeRound` hands its writes and erases to one atomic batch: when the
call returns false the store is exactly the store before the call, and when it
returns true the store is the store before the call with every operation of the
batch applied, in order. -/
theorem batches_atomic (IsValid : CSmartRewardBlock → Bool) (S : Store) (io : Bool)
    (block : CSmartRewardBlock) (current next start : CSmartRewardRound)
    (rewards : CSmartRewardEntryMap) (transactions : List CSmartRewardTransaction)
    (fUndo : Bool) (entries : List CSmartRewardEntry)
    (results : List CSmartRewardRoundResult) :
    (((SyncCached IsValid S io block current rewards transactions fUndo).2 = false →
          (SyncCached IsValid S io block current rewards transactions fUndo).1 = S)
        ∧ ((SyncCached IsValid S io block current rewards transactions fUndo).2 = true →
          (SyncCached IsValid S io block current rewards transactions fUndo).1
            = (syncCachedBatch IsValid block current rewards transactions fUndo).foldl
                Store.apply S))
      ∧ (((StartFirstRound S io start entries).2 = false →
          (StartFirstRound S io start entries).1 = S)
        ∧ ((StartFirstRound S io start entries).2 = true →
          (StartFirstRound S io start entries).1
            = (startFirstRoundBatch start entries).foldl Store.apply S))
      ∧ (((FinalizeRound S io current next entries results).2 = false →
          (FinalizeRound S io current next entries results).1 = S)
        ∧ ((FinalizeRound S io current next entries results).2 = true →
          (FinalizeRound S io current next entries results).1
            = (finalizeRoundBatch current next entries results).foldl Store.apply S))
      ∧ (((UndoFinalizeRound S io current results).2 = false →
          (UndoFinalizeRound S io current results).1 = S)
        ∧ ((UndoFinalizeRound S io current results).2 = true →
          (UndoFinalizeRound S io current results).1
            = (undoFinalizeRoundBatch current results).foldl Store.apply S)) := by
  unfold SyncCached StartFirstRound FinalizeRound UndoFinalizeRound
  exact ⟨⟨WriteBatch_failure, WriteBatch_success⟩, ⟨WriteBatch_failure, WriteBatch_success⟩,
    ⟨WriteBatch_failure, WriteBatch_success⟩, ⟨WriteBatch_failure, WriteBatch_success⟩⟩

theorem batches_atomic_witness :
    ((SyncCached hashNotNull storeBlocks2 false block3 round1 [(1, entryAZero)] [tx2]
        false).2 = false
      ∧ (SyncCached hashNotNull storeBlocks2 false block3 round1 [(1, entryAZero)] [tx2]
        false).1 = storeBlocks2)
      ∧ ((FinalizeRound storeRound1 false round1 round2 [entryANext, entryB]
        [resultA, resultB]).2 = false
      ∧ (FinalizeRound storeRound1 false round1 round2 [entryANext, entryB]
        [resultA, resultB]).1 = storeRound1)
      ∧ ((UndoFinalizeRound storeRound2 true round1 [resultA, resultB]).2 = true
      ∧ (UndoFinalizeRound storeRound2 true round1 [resultA, resultB]).1
        = (undoFinalizeRoundBatch round1 [resultA, resultB]).foldl Store.apply storeRound2)
      ∧ ((StartFirstRound storeFresh true round1 [entryA, entryB]).2 = true
      ∧ (StartFirstRound storeFresh true round1 [entryA, entryB]).1
        = [(.rewardEntry 1, .entry entryA), (.rewardEntry 2, .entry entryB),
           (.roundCurrent, .round round1), (.version, .version 10)]) :=
  ⟨⟨rfl, (batches_atomic hashNotNull storeBlocks2 false block3 round1 round2 round1
      [(1, entryAZero)] [tx2] false [] []).1.1 rfl⟩,
    ⟨rfl, (batches_atomic hashNotNull storeRound1 false block3 round1 round2 round1
      [] [] false [entryANext, entryB] [resultA, resultB]).2.2.1.1 rfl⟩,
    ⟨rfl, (batches_atomic hashNotNull storeRound2 true block3 round1 round2 round1
      [] [] false [] [resultA, resultB]).2.2.2.2 rfl⟩,
    ⟨rfl, by
      rw [(batches_atomic hashNotNull storeFresh true block3 round1 round2 round1
        [] [] false [entryA, entryB] []).2.1.2 rfl]
      rfl⟩⟩

/-! ## StartFirstRound -/

/-- C19: for an entry list with pairwise distinct addresses, after a successful
`StartFirstRound(start, entries)`, `ReadCurrentRound` returns `start` (with a
header numbered 1 the current round number is 1) and `ReadRewardEntry(e.id)`
returns `e` for every `e` of `entries`. -/
theorem startFirstRound_postcondition (S : Store) (io : Bool) (start : CSmartRewardRound)
    (entries : List CSmartRewardEntry)
    (hd : (entries.map (fun e => e.id)).Nodup)
    (h : (StartFirstRound S io start entries).2 = true) :
    ReadCurrentRound (StartFirstRound S io start entries).1 = some start
      ∧ (start.number = 1 →
        (ReadCurrentRound (StartFirstRound S io start entries).1).map (fun r => r.number)
          = some 1)
      ∧ (∀ e ∈ entries, ReadRewardEntry (StartFirstRound S io start entries).1 e.id = some e) := by
  unfold StartFirstRound startFirstRoundBatch at h ⊢
  rw [WriteBatch_success h]
  have hcur : ReadCurrentRound
      ((entries.map (fun e => BatchOp.write (.rewardEntry e.id) (.entry e))
        ++ [BatchOp.write .roundCurrent (.round start)]).foldl Store.apply S)
      = some start := by
    have hr := Store.read_foldl_split
      (entries.map (fun e => BatchOp.write (.rewardEntry e.id) (.entry e)))
      [] (BatchOp.write .roundCurrent (.round start)) S (by simp)
    simp only [BatchOp.key, BatchOp.effect] at hr
    simp only [ReadCurrentRound, hr]
  refine ⟨hcur, ?_, ?_⟩
  · intro hn
    rw [hcur]
    simp [hn]
  · intro e he
    obtain ⟨l₁, l₂, rfl⟩ := List.append_of_mem he
    have hnot : ∀ e' ∈ l₂, e'.id ≠ e.id := by
      intro e' he' heq
      rw [List.map_append, List.map_cons] at hd
      have h2 := (List.nodup_append.mp hd).2.1
      rw [List.nodup_cons] at h2
      exact h2.1 (List.mem_map.mpr ⟨e', he', heq⟩)
    have hr := Store.read_foldl_split
      (l₁.map (fun e => BatchOp.write (.rewardEntry e.id) (.entry e)))
      (l₂.map (fun e => BatchOp.write (.rewardEntry e.id) (.entry e))
        ++ [BatchOp.write .roundCurrent (.round start)])
      (BatchOp.write (.rewardEntry e.id) (.entry e)) S
      (by
        intro o ho
        rcases List.mem_append.mp ho with ho | ho
        · obtain ⟨e', he', rfl⟩ := List.mem_map.mp ho
          simpa [BatchOp.key] using (hnot e' he').symm
        · simp only [List.mem_singleton] at ho
          subst ho
          simp [BatchOp.key])
    simp only [BatchOp.key, BatchOp.effect] at hr
    have hshape : (l₁ ++ e :: l₂).map
          (fun e => BatchOp.write (.rewardEntry e.id) (.entry e))
          ++ [BatchOp.write .roundCurrent (.round start)]
        = l₁.map (fun e => BatchOp.write (.rewardEntry e.id) (.entry e))
          ++ BatchOp.write (.rewardEntry e.id) (.entry e)
            :: (l₂.map (fun e => BatchOp.write (.rewardEntry e.id) (.entry e))
              ++ [BatchOp.write .roundCurrent (.round start)]) := by
      simp only [List.map_append, List.map_cons, List.append_assoc, List.cons_append]
    rw [hshape]
    simp only [ReadRewardEntry, hr]

theorem startFirstRound_postcondition_witness :
    ([entryA, entryB].map (fun e => e.id)).Nodup
      ∧ (StartFirstRound storeFresh true round1 [entryA, entryB]).2 = true
      ∧ (ReadCurrentRound (StartFirstRound storeFresh true round1 [entryA, entryB]).1
          = some round1
        ∧ (round1.number = 1 →
          (ReadCurrentRound (StartFirstRound storeFresh true round1 [entryA, entryB]).1).map
            (fun r => r.number) = some 1)
        ∧ (∀ e ∈ [entryA, entryB],
          ReadRewardEntry (StartFirstRound storeFresh true round1 [entryA, entryB]).1 e.id
            = some e)) :=
  ⟨by decide, rfl,
    startFirstRound_postcondition storeFresh true round1 [entryA, entryB] (by decide) rfl⟩

/-- C20 (amended): `StartFirstRound` does not look at the store. On every
store, also one that already holds a current-round record, the call whose batch
write fails returns false and leaves the store as it was, and the call whose
batch write succeeds returns true and leaves `start` as the current round. -/
theorem startFirstRound_ignores_current_round (S : Store) (start : CSmartRewardRound)
    (entries : List CSmartRewardEntry) :
    StartFirstRound S false start entries = (S, false)
      ∧ (StartFirstRound S true start entries).2 = true
      ∧ ReadCurrentRound (StartFirstRound S true start entries).1 = some start := by
  refine ⟨rfl, rfl, ?_⟩
  have hr := Store.read_foldl_split
    (entries.map (fun e => BatchOp.write (.rewardEntry e.id) (.entry e)))
    [] (BatchOp.write .roundCurrent (.round start)) S (by simp)
  simp only [BatchOp.key, BatchOp.effect] at hr
  simp only [StartFirstRound, startFirstRoundBatch, WriteBatch, if_true, ReadCurrentRound, hr]

/-- C20 as stated fails: the scenario store holds `round1` as current round;
`StartFirstRound` with the header `round5` succeeds on it, replaces the
current-round pointer and overwrites the entry of `A`. -/
theorem startFirstRound_overwrites_current_round :
    ReadCurrentRound storeRound1 = some round1
      ∧ (StartFirstRound storeRound1 true round5 [entryANext]).2 = true
      ∧ ReadCurrentRound (StartFirstRound storeRound1 true round5 [entryANext]).1
          = some round5
      ∧ ReadRewardEntry storeRound1 1 = some entryA
      ∧ ReadRewardEntry (StartFirstRound storeRound1 true round5 [entryANext]).1 1
          = some entryANext
      ∧ (StartFirstRound storeRound1 true round5 [entryANext]).1 ≠ storeRound1 :=
  ⟨rfl, rfl, rfl, rfl, rfl, by decide⟩

/-! ## Verify: the version and the empty ledger -/

theorem readVersion_eq_none_of_exists_false {S : Store} (h : S.Exists .version = false) :
    ReadVersion S = none := by
  unfold ReadVersion
  rw [Store.read_eq_none_of_exists_false h]

theorem readLastBlock_eq_none_of_exists_false {S : Store} (h : S.Exists .blockLast = false) :
    ReadLastBlock S = none := by
  unfold ReadLastBlock
  rw [Store.read_eq_none_of_exists_false h]

/-- C16: on every store whose version marker is present and not below
`REWARDS_DB_VERSION` and that has no last-block record, `Verify` returns true
and reports `lastBlockHeight = 0`, whatever else the store holds. -/
theorem verify_empty_ledger (REWARDS_DB_VERSION : Nat) (S : Store) (dbVersion : Nat)
    (hv : ReadVersion S = some dbVersion) (hge : REWARDS_DB_VERSION ≤ dbVersion)
    (hlast : S.Exists .blockLast = false) :
    Verify REWARDS_DB_VERSION S = some (true, 0) := by
  unfold Verify
  rw [hv]
  simp only [not_lt.mpr hge, if_false]
  rw [readLastBlock_eq_none_of_exists_false hlast]

theorem verify_empty_ledger_witness :
    ReadVersion storeFresh = some 10 ∧ 10 ≤ 10 ∧ storeFresh.Exists .blockLast = false
      ∧ Verify 10 storeFresh = some (true, 0)
      ∧ Verify 10 ((.rewardEntry 1, .entry entryA) :: storeFresh) = some (true, 0) :=
  ⟨rfl, le_refl 10, rfl, verify_empty_ledger 10 storeFresh 10 rfl (le_refl 10) rfl,
    verify_empty_ledger 10 ((.rewardEntry 1, .entry entryA) :: storeFresh) 10 rfl
      (le_refl 10) rfl⟩

/-- C17: on every store in which the version marker is absent or smaller than
`REWARDS_DB_VERSION`, `Verify` returns false and reports `lastBlockHeight = 0`,
whatever block records the store holds. -/
theorem verify_rejects_version (REWARDS_DB_VERSION : Nat) (S : Store)
    (h : S.Exists .version = false
      ∨ ∃ dbVersion, ReadVersion S = some dbVersion ∧ dbVersion < REWARDS_DB_VERSION) :
    Verify REWARDS_DB_VERSION S = some (false, 0) := by
  unfold Verify
  rcases h with h | ⟨dbVersion, hv, hlt⟩
  · rw [readVersion_eq_none_of_exists_false h]
  · rw [hv]
    simp only [hlt, if_true]

theorem verify_rejects_version_witness :
    (∃ dbVersion, ReadVersion storeBlocks2 = some dbVersion ∧ dbVersion < 11)
      ∧ Verify 11 storeBlocks2 = some (false, 0)
      ∧ storeRound1.Exists .version = false
      ∧ Verify 10 storeRound1 = some (false, 0) :=
  ⟨⟨10, rfl, by decide⟩,
    verify_rejects_version 11 storeBlocks2 (Or.inr ⟨10, rfl, by decide⟩),
    rfl, verify_rejects_version 10 storeRound1 (Or.inl rfl)⟩

/-! ## SyncCached: the block ledger stays contiguous -/

theorem Store.exists_congr {S S' : Store} {k : Key} (h : S'.Read k = S.Read k) :
    S'.Exists k = S.Exists k := by
  unfold Store.Exists
  rw [h]

/-- C14 (amended): on a store whose per-height block records are exactly the
heights `1..tip` with the last-block record at height `tip` (or that has no
block at all, `tip = 0`), a successful `SyncCached` whose block is not valid, or
is valid and has height `tip + 1` (or height `tip`, rewriting the last block),
leaves the per-height records exactly at the heights `1..tip'`, where `tip'` is
the height of the last-block record afterwards. -/
theorem syncCached_keeps_ledger_contiguous (IsValid : CSmartRewardBlock → Bool) (S : Store)
    (io : Bool) (block : CSmartRewardBlock) (current : CSmartRewardRound)
    (rewards : CSmartRewardEntryMap) (transactions : List CSmartRewardTransaction)
    (fUndo : Bool) (tip : Int)
    (hS : LedgerContiguous S tip)
    (hblock : IsValid block = true →
      block.nHeight = tip + 1 ∨ (block.nHeight = tip ∧ 0 < tip))
    (h : (SyncCached IsValid S io block current rewards transactions fUndo).2 = true) :
    LedgerContiguous (SyncCached IsValid S io block current rewards transactions fUndo).1
      (if IsValid block then block.nHeight else tip) := by
  unfold SyncCached at h ⊢
  rw [WriteBatch_success h]
  obtain ⟨htip, hrec, hlast⟩ := hS
  cases hv : IsValid block
  · obtain ⟨hb, hl⟩ := syncCachedBatch_block_untouched IsValid block current rewards
      transactions fUndo S hv
    simp only [Bool.false_eq_true, if_false]
    refine ⟨htip, ?_, ?_⟩
    · intro n
      rw [Store.exists_congr (hb n)]
      exact hrec n
    · rcases hlast with ⟨h0, hno⟩ | ⟨hpos, hl'⟩
      · exact Or.inl ⟨h0, by rw [Store.exists_congr hl]; exact hno⟩
      · refine Or.inr ⟨hpos, ?_⟩
        unfold ReadLastBlock at hl' ⊢
        rw [hl]
        exact hl'
  · obtain ⟨hb, hl, hother⟩ := syncCachedBatch_block_written IsValid block current rewards
      transactions fUndo S hv
    simp only [if_true]
    have hpos : 0 < block.nHeight := by
      rcases hblock hv with h1 | ⟨h1, h2⟩
      · omega
      · omega
    refine ⟨le_of_lt hpos, ?_, Or.inr ⟨hpos, ?_⟩⟩
    · intro n
      by_cases hn : n = block.nHeight
      · subst hn
        rw [Store.Exists, hb]
        simp only [Option.isSome_some, true_iff]
        omega
      · rw [Store.exists_congr (hother n hn), hrec n]
        rcases hblock hv with h1 | ⟨h1, h2⟩
        · omega
        · omega
    · unfold ReadLastBlock
      rw [hl]
      rfl

theorem storeBlocks2_ledgerContiguous : LedgerContiguous storeBlocks2 2 := by
  refine ⟨by decide, ?_, Or.inr ⟨by decide, rfl⟩⟩
  intro n
  by_cases h1 : n = 1
  · subst h1
    decide
  · by_cases h2 : n = 2
    · subst h2
      decide
    · have hf : storeBlocks2.Exists (.block n) = false := by
        simp [storeBlocks2, Store.Exists, Store.Read, Ne.symm h1, Ne.symm h2]
      rw [hf]
      constructor
      · intro hc
        cases hc
      · intro hc
        omega

theorem syncCached_keeps_ledger_contiguous_witness :
    LedgerContiguous storeBlocks2 2
      ∧ (hashNotNull block3 = true → block3.nHeight = 2 + 1 ∨ (block3.nHeight = 2 ∧ (0 : Int) < 2))
      ∧ (SyncCached hashNotNull storeBlocks2 true block3 round1 [] [tx2] false).2 = true
      ∧ LedgerContiguous
          (SyncCached hashNotNull storeBlocks2 true block3 round1 [] [tx2] false).1 3 :=
  ⟨storeBlocks2_ledgerContiguous, fun _ => Or.inl rfl, rfl,
    syncCached_keeps_ledger_contiguous hashNotNull storeBlocks2 true block3 round1 [] [tx2]
      false 2 storeBlocks2_ledgerContiguous (fun _ => Or.inl rfl) rfl⟩

/-- C14 as stated fails: the store `storeBlocks2` holds exactly the blocks 1
and 2 with last block 2. A successful `SyncCached` with the valid block of
height 5 leaves the last-block record at height 5 and no record at height 3; a
successful `SyncCached` with a valid block of height 1 (the tip after block 2
is disconnected) leaves the last-block record at height 1 and the record of
height 2 in place. -/
theorem syncCached_block_height_unchecked :
    LedgerContiguous storeBlocks2 2
      ∧ ((SyncCached hashNotNull storeBlocks2 true block5 round1 [] [] false).2 = true
        ∧ (ReadLastBlock
            (SyncCached hashNotNull storeBlocks2 true block5 round1 [] [] false).1).map
            (fun b => b.nHeight) = some 5
        ∧ (SyncCached hashNotNull storeBlocks2 true block5 round1 [] [] false).1.Exists
            (.block 3) = false
        ∧ ¬ LedgerContiguous
            (SyncCached hashNotNull storeBlocks2 true block5 round1 [] [] false).1 5)
      ∧ ((SyncCached hashNotNull storeBlocks2 true block1 round1 [] [tx1] true).2 = true
        ∧ (ReadLastBlock
            (SyncCached hashNotNull storeBlocks2 true block1 round1 [] [tx1] true).1).map
            (fun b => b.nHeight) = some 1
        ∧ (SyncCached hashNotNull storeBlocks2 true block1 round1 [] [tx1] true).1.Exists
            (.block 2) = true
        ∧ ¬ LedgerContiguous
            (SyncCached hashNotNull storeBlocks2 true block1 round1 [] [tx1] true).1 1) := by
  refine ⟨storeBlocks2_ledgerContiguous, ⟨rfl, rfl, rfl, ?_⟩, ⟨rfl, rfl, rfl, ?_⟩⟩
  · intro hc
    have h3 := (hc.2.1 3).mpr ⟨by decide, by decide⟩
    exact absurd h3 (by decide)
  · intro hc
    have h2 := (hc.2.1 2).mp rfl
    exact absurd h2.2 (by decide)

/-! ## Verify: the block rows -/

theorem codeLt_block_tag (k : Key) : codeLt k.code [DB_BLOCK] = false := by
  cases k <;>
    simp [Key.code, codeLt, DB_ROUND_CURRENT, DB_ROUND, DB_ROUND_SNAPSHOT, DB_REWARD_ENTRY,
      DB_BLOCK, DB_BLOCK_LAST, DB_TX_HASH, DB_VERSION, DB_LOCK]

/-- The cursor of `Verify` starts on the first row: no key sorts below the tag
of the block records. -/
theorem Store.seek_block (S : Store) : S.Seek [DB_BLOCK] = S := by
  unfold Store.Seek
  cases S with
  | nil => rfl
  | cons hd tl =>
    rw [List.dropWhile_cons]
    simp [codeLt_block_tag]

theorem isBlockRow_iff (kv : Key × Value) :
    isBlockRow kv = true ↔ ∃ n, kv.1 = .block n := by
  obtain ⟨k, v⟩ := kv
  cases k <;> simp [isBlockRow]

/-- Only a block key sorts below a block key. -/
theorem block_of_lt_block (k : Key) (n : Int)
    (h : codeLt k.code (Key.block n).code = true) : ∃ m, k = .block m := by
  cases k with
  | block m => exact ⟨m, rfl⟩
  | roundCurrent => simp [Key.code, codeLt, DB_BLOCK, DB_ROUND_CURRENT] at h
  | round m => simp [Key.code, codeLt, DB_BLOCK, DB_ROUND] at h
  | snapshot m a => simp [Key.code, codeLt, DB_BLOCK, DB_ROUND_SNAPSHOT] at h
  | rewardEntry a => simp [Key.code, codeLt, DB_BLOCK, DB_REWARD_ENTRY] at h
  | blockLast => simp [Key.code, codeLt, DB_BLOCK, DB_BLOCK_LAST] at h
  | txHash a => simp [Key.code, codeLt, DB_BLOCK, DB_TX_HASH] at h
  | version => simp [Key.code, codeLt, DB_BLOCK, DB_VERSION] at h
  | lock => simp [Key.code, codeLt, DB_BLOCK, DB_LOCK] at h

theorem codeLt_block_iff (m n : Int) :
    codeLt (Key.block m).code (Key.block n).code = true ↔ m < n := by
  simp only [Key.code, codeLt, lt_self_iff_false, if_false]
  by_cases hlt : m < n
  · simp [hlt]
  · by_cases hgt : n < m
    · simp [hlt, hgt]
    · simp [hlt, hgt]

/-- On rows in key order that hold a row of another class, a successful cursor
loop of `Verify` has collected the blocks of all block rows, each stored under
its own height, and at least `size_t(last.nHeight)` of them. -/
theorem verifyLoop_some (lastHeight : Int) (rows : List (Key × Value))
    (hrows : rows.Pairwise (fun a b => codeLt a.1.code b.1.code = true))
    (hother : ∃ x ∈ rows, isBlockRow x = false)
    (acc testBlocks : List CSmartRewardBlock)
    (h : verifyLoop lastHeight rows acc = some testBlocks) :
    testBlocks = acc ++ (rows.filter isBlockRow).filterMap rowBlock
      ∧ (∀ x ∈ rows.filter isBlockRow,
          ∃ n b, x = (Key.block n, Value.block b) ∧ b.nHeight = n)
      ∧ size_t lastHeight ≤ testBlocks.length := by
  induction rows generalizing acc with
  | nil =>
    obtain ⟨x, hx, _⟩ := hother
    cases hx
  | cons hd tl ih =>
    obtain ⟨k, v⟩ := hd
    rw [List.pairwise_cons] at hrows
    obtain ⟨hhd, htl⟩ := hrows
    by_cases hb : isBlockRow (k, v) = true
    · obtain ⟨n, hn⟩ := (isBlockRow_iff (k, v)).mp hb
      simp only at hn
      subst hn
      have hother' : ∃ x ∈ tl, isBlockRow x = false := by
        obtain ⟨x, hx, hxb⟩ := hother
        rcases List.mem_cons.mp hx with rfl | hx
        · rw [hb] at hxb
          cases hxb
        · exact ⟨x, hx, hxb⟩
      cases v with
      | block nValue =>
        simp only [verifyLoop] at h
        by_cases hne : nValue.nHeight = n
        · simp only [hne, ne_eq, not_true_eq_false, if_false] at h
          obtain ⟨h1, h2, h3⟩ := ih htl hother' _ h
          refine ⟨?_, ?_, h3⟩
          · rw [h1, List.filter_cons_of_pos hb]
            simp [rowBlock]
          · intro x hx
            rw [List.filter_cons_of_pos hb] at hx
            rcases List.mem_cons.mp hx with rfl | hx
            · exact ⟨n, nValue, rfl, hne⟩
            · exact h2 x hx
        · simp [hne] at h
      | round r => simp [verifyLoop] at h
      | result r => simp [verifyLoop] at h
      | entry e => simp [verifyLoop] at h
      | tx t => simp [verifyLoop] at h
      | version n => simp [verifyLoop] at h
      | lock n => simp [verifyLoop] at h
    · have hnone : tl.filter isBlockRow = [] := by
        rw [List.filter_eq_nil_iff]
        intro x hx hxb
        obtain ⟨n, hn⟩ := (isBlockRow_iff x).mp hxb
        have hlt := hhd x hx
        rw [hn] at hlt
        obtain ⟨m, hm⟩ := block_of_lt_block k n hlt
        exact hb ((isBlockRow_iff (k, v)).mpr ⟨m, hm⟩)
      rw [List.filter_cons_of_neg hb, hnone]
      have hres : (if acc.length < size_t lastHeight then none else some acc)
          = some testBlocks := by
        cases k with
        | block n => exact absurd ((isBlockRow_iff _).mpr ⟨n, rfl⟩) hb
        | roundCurrent => simpa [verifyLoop] using h
        | round n => simpa [verifyLoop] using h
        | snapshot n a => simpa [verifyLoop] using h
        | rewardEntry a => simpa [verifyLoop] using h
        | blockLast => simpa [verifyLoop] using h
        | txHash a => simpa [verifyLoop] using h
        | version => simpa [verifyLoop] using h
        | lock => simpa [verifyLoop] using h
      by_cases hlen : acc.length < size_t lastHeight
      · rw [if_pos hlen] at hres
        cases hres
      · rw [if_neg hlen] at hres
        cases hres
        refine ⟨by simp, ?_, not_lt.mp hlen⟩
        intro x hx
        cases hx

/-- In a well-formed store the heights of the block rows increase strictly. -/
theorem blockRows_heights_increasing {S : Store} (hS : S.WF) :
    ((S.filter isBlockRow).map rowHeight).Pairwise (fun m n => m < n) := by
  rw [List.pairwise_map]
  refine List.Pairwise.imp_of_mem ?_ (List.Pairwise.filter isBlockRow hS)
  intro a b ha hb hab
  obtain ⟨m, hm⟩ := (isBlockRow_iff a).mp (List.mem_filter.mp ha).2
  obtain ⟨n, hn⟩ := (isBlockRow_iff b).mp (List.mem_filter.mp hb).2
  rw [hm, hn] at hab
  simp only [rowHeight, hm, hn]
  exact (codeLt_block_iff m n).mp hab

/-- A block row of a well-formed store is a stored per-height record. -/
theorem exists_of_mem_blockRows {S : Store} (hS : S.WF) {x : Key × Value}
    (hx : x ∈ S.filter isBlockRow) : S.Exists (.block (rowHeight x)) = true := by
  obtain ⟨hmem, hb⟩ := List.mem_filter.mp hx
  obtain ⟨n, hn⟩ := (isBlockRow_iff x).mp hb
  obtain ⟨k, v⟩ := x
  simp only at hn
  subst hn
  simp only [rowHeight, Store.Exists, Store.read_of_mem hS hmem, Option.isSome_some]

/-- Strictly increasing heights within `1..tip` that avoid one height `k` of
that range are fewer than `tip`. -/
theorem length_lt_of_gap (l : List Int) (tip k : Int)
    (hl : l.Pairwise (fun m n => m < n))
    (hrange : ∀ n ∈ l, 1 ≤ n ∧ n ≤ tip ∧ n ≠ k) (hk : 1 ≤ k ∧ k ≤ tip) :
    (l.length : Int) < tip := by
  have hnd : l.Nodup := List.Pairwise.imp (fun hmn => ne_of_lt hmn) hl
  have hsub : l.toFinset ⊆ (Finset.Icc 1 tip).erase k := by
    intro n hn
    rw [List.mem_toFinset] at hn
    obtain ⟨h1, h2, h3⟩ := hrange n hn
    exact Finset.mem_erase.mpr ⟨h3, Finset.mem_Icc.mpr ⟨h1, h2⟩⟩
  have hcard := Finset.card_le_card hsub
  rw [List.toFinset_card_of_nodup hnd,
    Finset.card_erase_of_mem (Finset.mem_Icc.mpr hk), Int.card_Icc] at hcard
  omega

theorem readVersion_mem {S : Store} {dbVersion : Nat} (h : ReadVersion S = some dbVersion) :
    ∃ x ∈ S, isBlockRow x = false := by
  unfold ReadVersion at h
  cases hr : S.Read .version with
  | none => rw [hr] at h; cases h
  | some v => exact ⟨(.version, v), Store.mem_of_read hr, rfl⟩

theorem size_t_of_nonneg {n : Int} (h : 0 ≤ n) : (size_t n : Int) = n := by
  unfold size_t
  rw [if_pos h]
  exact Int.toNat_of_nonneg h

/-- C15: for every `tip ≥ 1` and every `k` with `1 ≤ k ≤ tip`, on a store with a
supported version marker, a last-block record of height `tip` and per-height
block records for exactly the heights `1..tip` except `k`, `Verify` returns
false (and reports `tip` as last block height). -/
theorem verify_fails_on_gap (REWARDS_DB_VERSION : Nat) (S : Store) (hS : S.WF)
    (tip k : Int) (dbVersion : Nat) (last : CSmartRewardBlock)
    (htip : 1 ≤ tip) (hk : 1 ≤ k ∧ k ≤ tip)
    (hv : ReadVersion S = some dbVersion) (hge : REWARDS_DB_VERSION ≤ dbVersion)
    (hlast : ReadLastBlock S = some last) (hheight : last.nHeight = tip)
    (hrec : ∀ n : Int, S.Exists (.block n) = true ↔ (1 ≤ n ∧ n ≤ tip ∧ n ≠ k)) :
    Verify REWARDS_DB_VERSION S = some (false, tip) := by
  unfold Verify
  rw [hv]
  simp only [not_lt.mpr hge, if_false]
  rw [hlast]
  simp only [Store.seek_block, hheight]
  cases hloop : verifyLoop tip S [] with
  | none => rfl
  | some testBlocks =>
    exfalso
    obtain ⟨h1, _, h3⟩ := verifyLoop_some tip S hS (readVersion_mem hv) [] testBlocks hloop
    have hlen : testBlocks.length ≤ ((S.filter isBlockRow).map rowHeight).length := by
      rw [h1, List.nil_append, List.length_map]
      exact List.length_filterMap_le _ _
    have hcount := length_lt_of_gap ((S.filter isBlockRow).map rowHeight) tip k
      (blockRows_heights_increasing hS)
      (by
        intro n hn
        obtain ⟨x, hx, rfl⟩ := List.mem_map.mp hn
        exact (hrec _).mp (exists_of_mem_blockRows hS hx))
      hk
    have hsz := size_t_of_nonneg (le_trans (by decide) htip)
    omega

theorem storeGap_WF : storeGap.WF := by
  simp [Store.WF, storeGap, Key.code, codeLt, DB_BLOCK, DB_VERSION, DB_BLOCK_LAST]

theorem storeGap_records (n : Int) :
    storeGap.Exists (.block n) = true ↔ (1 ≤ n ∧ n ≤ 3 ∧ n ≠ 2) := by
  by_cases h1 : n = 1
  · subst h1
    decide
  · by_cases h3 : n = 3
    · subst h3
      decide
    · have hf : storeGap.Exists (.block n) = false := by
        simp [storeGap, Store.Exists, Store.Read, Ne.symm h1, Ne.symm h3]
      rw [hf]
      constructor
      · intro hc
        cases hc
      · intro hc
        omega

theorem verify_fails_on_gap_witness :
    storeGap.WF
      ∧ ReadVersion storeGap = some 10
      ∧ ReadLastBlock storeGap = some block3
      ∧ (∀ n : Int, storeGap.Exists (.block n) = true ↔ (1 ≤ n ∧ n ≤ 3 ∧ n ≠ 2))
      ∧ Verify 10 storeGap = some (false, 3) :=
  ⟨storeGap_WF, rfl, rfl, storeGap_records,
    verify_fails_on_gap 10 storeGap storeGap_WF 3 2 10 block3 (by decide)
      ⟨by decide, by decide⟩ rfl (le_refl 10) rfl rfl storeGap_records⟩

/-! ## Verify: what a positive answer guarantees -/

/-- When the final loop of `Verify` passes, the heights of the sorted blocks
are the consecutive integers from the first height on. -/
theorem adjacentHeights_mem (first : CSmartRewardBlock) (rest : List CSmartRewardBlock)
    (h : adjacentHeights first rest = true) (n : Int) :
    (∃ b ∈ first :: rest, b.nHeight = n)
      ↔ first.nHeight ≤ n ∧ n < first.nHeight + (rest.length + 1 : Nat) := by
  induction rest generalizing first with
  | nil =>
    simp only [List.mem_singleton, exists_eq_left, List.length_nil, Nat.zero_add,
      Nat.cast_one]
    omega
  | cons b tl ih =>
    simp only [adjacentHeights] at h
    by_cases hb : first.nHeight + 1 = b.nHeight
    · simp only [hb, ne_eq, not_true_eq_false, if_false] at h
      have hrec := ih b h
      constructor
      · rintro ⟨x, hx, hxn⟩
        rcases List.mem_cons.mp hx with rfl | hx
        · simp only [List.length_cons, Nat.cast_add, Nat.cast_one]
          omega
        · have := hrec.mp ⟨x, hx, hxn⟩
          simp only [List.length_cons, Nat.cast_add, Nat.cast_one] at this ⊢
          omega
      · intro hn
        simp only [List.length_cons, Nat.cast_add, Nat.cast_one] at hn
        by_cases hfirst : n = first.nHeight
        · exact ⟨first, List.mem_cons_self _ _, hfirst.symm⟩
        · have hin : b.nHeight ≤ n ∧ n < b.nHeight + (tl.length + 1 : Nat) := by
            simp only [Nat.cast_add, Nat.cast_one]
            omega
          obtain ⟨x, hx, hxn⟩ := hrec.mpr hin
          exact ⟨x, List.mem_cons_of_mem _ hx, hxn⟩
    · simp [hb] at h

/-- C18 (amended): on every store on which `Verify` returns true with a
reported `lastBlockHeight = h > 0`, the last-block record has height `h`, every
per-height block record decodes and is stored under its own height, and the
heights of the records are a run of consecutive integers (no gap) of at least
`h` records. -/
theorem verify_true_sound (REWARDS_DB_VERSION : Nat) (S : Store) (hS : S.WF) (h : Int)
    (hpos : 0 < h) (hver : Verify REWARDS_DB_VERSION S = some (true, h)) :
    (ReadLastBlock S).map (fun b => b.nHeight) = some h
      ∧ (∀ (n : Int) (b : CSmartRewardBlock), ReadBlock S n = some b → b.nHeight = n)
      ∧ (∀ n : Int, S.Exists (.block n) = true → (ReadBlock S n).isSome = true)
      ∧ ∃ first count : Int, h ≤ count
          ∧ ∀ n : Int, S.Exists (.block n) = true ↔ first ≤ n ∧ n < first + count := by
  unfold Verify at hver
  cases hv : ReadVersion S with
  | none =>
    rw [hv] at hver
    simp at hver
  | some dbVersion =>
    rw [hv] at hver
    by_cases hlt : dbVersion < REWARDS_DB_VERSION
    · simp [hlt] at hver
    · simp only [hlt, if_false] at hver
      cases hl : ReadLastBlock S with
      | none =>
        rw [hl] at hver
        simp only [Option.some.injEq, Prod.mk.injEq, true_and] at hver
        omega
      | some last =>
        rw [hl] at hver
        simp only [Store.seek_block] at hver
        cases hloop : verifyLoop last.nHeight S [] with
        | none =>
          rw [hloop] at hver
          simp at hver
        | some testBlocks =>
          rw [hloop] at hver
          simp only at hver
          cases hsort : sortBlocks testBlocks with
          | nil =>
            rw [hsort] at hver
            simp at hver
          | cons first rest =>
            rw [hsort] at hver
            simp only [Option.some.injEq, Prod.mk.injEq] at hver
            obtain ⟨hadj, hheight⟩ := hver
            obtain ⟨h1, h2, h3⟩ := verifyLoop_some last.nHeight S hS (readVersion_mem hv) []
              testBlocks hloop
            rw [List.nil_append] at h1
            have hperm : (first :: rest).Perm testBlocks := by
              rw [← hsort]
              exact List.perm_insertionSort _ _
            have hrows : ∀ n : Int, S.Exists (.block n) = true
                ↔ ∃ b ∈ testBlocks, b.nHeight = n := by
              intro n
              constructor
              · intro hex
                cases hr : S.Read (.block n) with
                | none =>
                  rw [Store.Exists, hr] at hex
                  cases hex
                | some v =>
                  have hmem : (Key.block n, v) ∈ S.filter isBlockRow :=
                    List.mem_filter.mpr ⟨Store.mem_of_read hr, rfl⟩
                  obtain ⟨m, b, hxb, hbm⟩ := h2 _ hmem
                  simp only [Prod.mk.injEq, Key.block.injEq] at hxb
                  obtain ⟨hnm, hvb⟩ := hxb
                  subst hvb
                  refine ⟨b, ?_, by rw [hbm, hnm]⟩
                  rw [h1]
                  exact List.mem_filterMap.mpr ⟨_, hmem, rfl⟩
              · rintro ⟨b, hb, hbn⟩
                rw [h1] at hb
                obtain ⟨x, hx, hxb⟩ := List.mem_filterMap.mp hb
                obtain ⟨m, b', hxeq, hbm⟩ := h2 x hx
                subst hxeq
                simp only [rowBlock, Option.some.injEq] at hxb
                subst hxb
                have := exists_of_mem_blockRows hS hx
                simp only [rowHeight] at this
                rw [← hbn, hbm]
                exact this
            refine ⟨?_, ?_, ?_, first.nHeight, (testBlocks.length : Int), ?_, ?_⟩
            · simp [hheight]
            · intro n b hb
              unfold ReadBlock at hb
              cases hr : S.Read (.block n) with
              | none =>
                rw [hr] at hb
                cases hb
              | some v =>
                have hmem : (Key.block n, v) ∈ S.filter isBlockRow :=
                  List.mem_filter.mpr ⟨Store.mem_of_read hr, rfl⟩
                obtain ⟨m, b', hxb, hbm⟩ := h2 _ hmem
                simp only [Prod.mk.injEq, Key.block.injEq] at hxb
                obtain ⟨hnm, hvb⟩ := hxb
                subst hvb
                rw [hr] at hb
                simp only [Option.some.injEq] at hb
                subst hb
                rw [hbm, hnm]
            · intro n hex
              unfold ReadBlock
              cases hr : S.Read (.block n) with
              | none =>
                rw [Store.Exists, hr] at hex
                cases hex
              | some v =>
                have hmem : (Key.block n, v) ∈ S.filter isBlockRow :=
                  List.mem_filter.mpr ⟨Store.mem_of_read hr, rfl⟩
                obtain ⟨m, b', hxb, _⟩ := h2 _ hmem
                simp only [Prod.mk.injEq, Key.block.injEq] at hxb
                obtain ⟨_, hvb⟩ := hxb
                subst hvb
                rfl
            · have hsz := size_t_of_nonneg (le_of_lt (hheight ▸ hpos))
              rw [hheight] at hsz
              have : (size_t last.nHeight : Int) ≤ (testBlocks.length : Int) := by
                exact_mod_cast h3
              rw [hheight] at this
              omega
            · intro n
              rw [hrows n]
              have hlen : testBlocks.length = rest.length + 1 := by
                rw [← hperm.length_eq]
                rfl
              rw [hlen, ← adjacentHeights_mem first rest hadj n]
              constructor
              · rintro ⟨b, hb, hbn⟩
                exact ⟨b, hperm.mem_iff.mpr hb, hbn⟩
              · rintro ⟨b, hb, hbn⟩
                exact ⟨b, hperm.mem_iff.mp hb, hbn⟩

theorem storeBlocks2_WF : storeBlocks2.WF := by
  simp [Store.WF, storeBlocks2, Key.code, codeLt, DB_BLOCK, DB_REWARD_ENTRY,
    DB_ROUND_CURRENT, DB_VERSION, DB_BLOCK_LAST, DB_TX_HASH]

theorem storeAhead_WF : storeAhead.WF := by
  simp [Store.WF, storeAhead, Key.code, codeLt, DB_BLOCK, DB_VERSION, DB_BLOCK_LAST]

theorem storeNoFirst_WF : storeNoFirst.WF := by
  simp [Store.WF, storeNoFirst, Key.code, codeLt, DB_BLOCK, DB_VERSION, DB_BLOCK_LAST]

theorem verify_true_sound_witness :
    storeBlocks2.WF ∧ (0 : Int) < 2 ∧ Verify 10 storeBlocks2 = some (true, 2)
      ∧ ((ReadLastBlock storeBlocks2).map (fun b => b.nHeight) = some 2
        ∧ (∀ (n : Int) (b : CSmartRewardBlock),
            ReadBlock storeBlocks2 n = some b → b.nHeight = n)
        ∧ (∀ n : Int, storeBlocks2.Exists (.block n) = true →
            (ReadBlock storeBlocks2 n).isSome = true)
        ∧ ∃ first count : Int, 2 ≤ count
            ∧ ∀ n : Int, storeBlocks2.Exists (.block n) = true
                ↔ first ≤ n ∧ n < first + count) :=
  ⟨storeBlocks2_WF, by decide, rfl,
    verify_true_sound 10 storeBlocks2 storeBlocks2_WF 2 (by decide) rfl⟩

/-- C18 as stated fails: `Verify` returns true with `lastBlockHeight = 2` on
the well-formed store `storeAhead`, which holds the blocks 1, 2 and 3 (three
records, one above the reported height), and on `storeNoFirst`, which holds the
blocks 2 and 3 and no block 1. -/
theorem verify_accepts_other_ledgers :
    (storeAhead.WF
        ∧ Verify 10 storeAhead = some (true, 2)
        ∧ storeAhead.Exists (.block 3) = true)
      ∧ (storeNoFirst.WF
        ∧ Verify 10 storeNoFirst = some (true, 2)
        ∧ storeNoFirst.Exists (.block 1) = false
        ∧ storeNoFirst.Exists (.block 3) = true) :=
  ⟨⟨storeAhead_WF, rfl, rfl⟩, ⟨storeNoFirst_WF, rfl, rfl, rfl⟩⟩

/-! ## Eligibility and score -/

/-- C25: `CSmartRewardEntry::IsEligible` returns true exactly when the vote
proof is not null, the smartnode payment transaction is null, `balanceEligible`
is positive and the disqualifying transaction is null; for every entry it equals
`voteProofFlag ∧ ¬smartnodeFlag ∧ balanceEligible>0 ∧ ¬disqualifyingFlag`. -/
theorem isEligible_iff (e : CSmartRewardEntry) :
    (e.IsEligible = true
        ↔ e.voteProof ≠ 0 ∧ e.smartnodePaymentTx = 0 ∧ 0 < e.balanceEligible
          ∧ e.disqualifyingTx = 0)
      ∧ e.IsEligible = IsEligibleSpec e := by
  constructor
  · simp [CSmartRewardEntry.IsEligible, uint256.IsNull, and_assoc]
  · simp [CSmartRewardEntry.IsEligible, IsEligibleSpec, uint256.IsNull, voteProofFlag,
      smartnodeFlag, disqualifyingFlag]

/-- C26 (amended): the eligible amount derived for a reward entry is the same
for change addresses and wallet addresses. Below the first 1.3 round it is
`balanceEligible` itself, whatever the flags, which is `balanceEligible` if
positive and 0 otherwise whenever `balanceEligible` is not negative; from that
round on it is `balanceEligible` if `IsEligible()` holds and 0 otherwise. -/
theorem eligible_amount_rule (nFirst_1_3_Round : Int) (currentRound : CSmartRewardRound)
    (reward : CSmartRewardEntry) :
    changeAddressEligible nFirst_1_3_Round currentRound reward
        = walletAddressEligible nFirst_1_3_Round currentRound reward
      ∧ (currentRound.number < nFirst_1_3_Round →
          walletAddressEligible nFirst_1_3_Round currentRound reward
            = reward.balanceEligible)
      ∧ (currentRound.number < nFirst_1_3_Round → 0 ≤ reward.balanceEligible →
          walletAddressEligible nFirst_1_3_Round currentRound reward
            = if reward.balanceEligible > 0 then reward.balanceEligible else 0)
      ∧ (nFirst_1_3_Round ≤ currentRound.number →
          walletAddressEligible nFirst_1_3_Round currentRound reward
            = if reward.IsEligible then reward.balanceEligible else 0) := by
  refine ⟨rfl, ?_, ?_, ?_⟩
  · intro hlt
    simp only [walletAddressEligible, hlt, if_true]
  · intro hlt hnn
    simp only [walletAddressEligible, hlt, if_true]
    by_cases hpos : reward.balanceEligible > 0
    · rw [if_pos hpos]
    · rw [if_neg hpos]
      omega
  · intro hge
    simp only [walletAddressEligible, not_lt.mpr hge, if_false]

theorem eligible_amount_rule_witness :
    (round1.number < 12 → walletAddressEligible 12 round1 resultAOther.entry
        = resultAOther.entry.balanceEligible)
      ∧ walletAddressEligible 12 round1 entryA = 100
      ∧ (round1.number < 12 → 0 ≤ entryA.balanceEligible →
          walletAddressEligible 12 round1 entryA
            = if entryA.balanceEligible > 0 then entryA.balanceEligible else 0)
      ∧ walletAddressEligible 1 round1 entryB = 0
      ∧ ((1 : Int) ≤ round1.number →
          walletAddressEligible 1 round1 entryB
            = if entryB.IsEligible then entryB.balanceEligible else 0) :=
  ⟨(eligible_amount_rule 12 round1 resultAOther.entry).2.1, rfl,
    fun _ _ => (eligible_amount_rule 12 round1 entryA).2.2.1 (by decide) (by decide), rfl,
    fun _ => (eligible_amount_rule 1 round1 entryB).2.2.2 (by decide)⟩

/-- C26 as stated fails: in round 1, below a first 1.3 round of 12, the
eligible amount derived for an entry with `balanceEligible = -5` is `-5` for
change and wallet addresses, not 0. -/
theorem legacy_rule_copies_negative_amount :
    round1.number < 12
      ∧ entryNegative.balanceEligible = -5
      ∧ changeAddressEligible 12 round1 entryNegative = -5
      ∧ walletAddressEligible 12 round1 entryNegative = -5
      ∧ walletAddressEligible 12 round1 entryNegative
          ≠ (if entryNegative.balanceEligible > 0 then entryNegative.balanceEligible else 0) :=
  ⟨by decide, rfl, rfl, rfl, by decide⟩

/-- C27: `CalculateScore` depends only on the reward, the address and the block
hash: two round results that agree on `reward` and `entry.id` get the same
score for every block hash, whatever their other entry fields; in particular
the score of one result for one hash is always the same. -/
theorem calculateScore_depends_on (GetHash : List Int → uint256)
    (r₁ r₂ : CSmartRewardRoundResult) (blockHash : uint256)
    (hreward : r₁.reward = r₂.reward) (hid : r₁.entry.id = r₂.entry.id) :
    r₁.CalculateScore GetHash blockHash = r₂.CalculateScore GetHash blockHash := by
  unfold CSmartRewardRoundResult.CalculateScore
  rw [hreward, hid]

theorem calculateScore_depends_on_witness :
    resultA.reward = resultAOther.reward ∧ resultA.entry.id = resultAOther.entry.id
      ∧ resultA.entry ≠ resultAOther.entry
      ∧ resultA.CalculateScore sampleHash 11 = resultAOther.CalculateScore sampleHash 11 :=
  ⟨rfl, rfl, by decide, calculateScore_depends_on sampleHash resultA resultAOther 11 rfl rfl⟩

/-! ## UndoFinalizeRound without a finalized round -/

/-- The batch of `UndoFinalizeRound` leaves `current` under the current-round
key. -/
theorem undoFinalizeRoundBatch_read_roundCurrent (S : Store) (current : CSmartRewardRound)
    (results : List CSmartRewardRoundResult) :
    ((undoFinalizeRoundBatch current results).foldl Store.apply S).Read .roundCurrent
      = some (.round current) := by
  have hr := Store.read_foldl_split
    ((results.map (undoResultOps current.number)).flatten
      ++ [BatchOp.erase (.round current.number)])
    [] (BatchOp.write .roundCurrent (.round current)) S (by simp)
  simp only [BatchOp.key, BatchOp.effect, List.append_assoc, List.singleton_append] at hr
  simp only [undoFinalizeRoundBatch, hr]

/-- The entry loop of `UndoFinalizeRound` leaves, under an address, the entry
embedded in the last listed snapshot with that address, or what the store held
when no snapshot has it. -/
theorem read_foldl_undoResultOps (number : Int) (results : List CSmartRewardRoundResult)
    (S : Store) (id : CSmartAddress) :
    ((results.map (undoResultOps number)).flatten.foldl Store.apply S).Read (.rewardEntry id)
      = match (results.filter (fun s => decide (s.entry.id = id))).getLast? with
        | some s => some (.entry s.entry)
        | none => S.Read (.rewardEntry id) := by
  induction results using List.reverseRecOn with
  | nil => rfl
  | append_singleton init u ih =>
    rw [List.map_append, List.flatten_append, List.foldl_append, List.filter_append]
    simp only [List.map_cons, List.map_nil, List.flatten_cons, List.flatten_nil,
      List.append_nil, undoResultOps, List.foldl_cons, List.foldl_nil]
    by_cases hu : u.entry.id = id
    · subst hu
      have hf : List.filter (fun s => decide (s.entry.id = u.entry.id)) [u] = [u] := by simp
      rw [hf, List.getLast?_append_of_ne_nil _ (by simp)]
      simp only [List.getLast?_singleton, Store.apply]
      exact Store.read_write_same _ _ _
    · have hf : List.filter (fun s => decide (s.entry.id = id)) [u] = [] := by simp [hu]
      rw [hf, List.append_nil, ← ih]
      simp only [Store.apply, undoResultOps]
      rw [Store.read_write_other _ _ (by
        intro heq
        injection heq with heq
        exact hu heq.symm)]
      exact Store.read_erase_other _ (by simp)

/-- C21 (amended): `UndoFinalizeRound` does not look at the store. On every
store, also one without a finalized-round record under `current.number`, the
call whose batch write fails returns false and leaves the store as it was. The
call whose batch write succeeds returns true, applies every operation of its
batch, leaves `current` as the current round, and leaves under every address
the entry embedded in the last element of `results` with that address (the
entry the store held before when `results` has no such element). -/
theorem undoFinalizeRound_ignores_history (S : Store) (current : CSmartRewardRound)
    (results : List CSmartRewardRoundResult) :
    UndoFinalizeRound S false current results = (S, false)
      ∧ (UndoFinalizeRound S true current results).2 = true
      ∧ (UndoFinalizeRound S true current results).1
          = (undoFinalizeRoundBatch current results).foldl Store.apply S
      ∧ ReadCurrentRound (UndoFinalizeRound S true current results).1 = some current
      ∧ (∀ id : CSmartAddress,
          ReadRewardEntry (UndoFinalizeRound S true current results).1 id
            = match (results.filter (fun s => decide (s.entry.id = id))).getLast? with
              | some s => some s.entry
              | none => ReadRewardEntry S id)
      ∧ (∀ s ∈ results, ∃ s' ∈ results, s'.entry.id = s.entry.id
          ∧ ReadRewardEntry (UndoFinalizeRound S true current results).1 s.entry.id
              = some s'.entry) := by
  have hentry : ∀ id : CSmartAddress,
      ReadRewardEntry (UndoFinalizeRound S true current results).1 id
        = match (results.filter (fun s => decide (s.entry.id = id))).getLast? with
          | some s => some s.entry
          | none => ReadRewardEntry S id := by
    intro id
    have hr : (UndoFinalizeRound S true current results).1.Read (.rewardEntry id)
        = match (results.filter (fun s => decide (s.entry.id = id))).getLast? with
          | some s => some (.entry s.entry)
          | none => S.Read (.rewardEntry id) := by
      simp only [UndoFinalizeRound, WriteBatch, if_true, undoFinalizeRoundBatch]
      rw [List.foldl_append, Store.read_foldl_other
        [BatchOp.erase (.round current.number), BatchOp.write .roundCurrent (.round current)]
        _ (k := .rewardEntry id)
        (by
          intro o ho
          simp only [List.mem_cons, List.mem_singleton, List.not_mem_nil, or_false] at ho
          rcases ho with rfl | rfl <;> simp [BatchOp.key])]
      exact read_foldl_undoResultOps current.number results S id
    unfold ReadRewardEntry
    rw [hr]
    cases (results.filter (fun s => decide (s.entry.id = id))).getLast? with
    | none => rfl
    | some s => rfl
  refine ⟨rfl, rfl, rfl, ?_, hentry, ?_⟩
  · simp only [UndoFinalizeRound, WriteBatch, if_true, ReadCurrentRound,
      undoFinalizeRoundBatch_read_roundCurrent]
  · intro s hs
    rw [hentry s.entry.id]
    cases hl : (results.filter (fun t => decide (t.entry.id = s.entry.id))).getLast? with
    | none =>
      have hmem : s ∈ results.filter (fun t => decide (t.entry.id = s.entry.id)) :=
        List.mem_filter.mpr ⟨hs, by simp⟩
      rw [List.getLast?_eq_none_iff.mp hl] at hmem
      cases hmem
    | some s' =>
      have hmem := List.mem_of_getLast?_eq_some hl
      obtain ⟨h1, h2⟩ := List.mem_filter.mp hmem
      exact ⟨s', h1, by simpa using h2, rfl⟩

/-- C21 as stated fails: the scenario store holds no finalized-round record
under 2; `UndoFinalizeRound` for `round2` with a snapshot of `A` succeeds on
it, overwrites the entry of `A` and replaces the current-round pointer. -/
theorem undoFinalizeRound_applies_without_record :
    storeRound1.Exists (.round round2.number) = false
      ∧ (UndoFinalizeRound storeRound1 true round2 [resultA2]).2 = true
      ∧ ReadRewardEntry storeRound1 1 = some entryA
      ∧ ReadRewardEntry (UndoFinalizeRound storeRound1 true round2 [resultA2]).1 1
          = some entryANext
      ∧ ReadCurrentRound storeRound1 = some round1
      ∧ ReadCurrentRound (UndoFinalizeRound storeRound1 true round2 [resultA2]).1
          = some round2
      ∧ (UndoFinalizeRound storeRound1 true round2 [resultA2]).1 ≠ storeRound1 :=
  ⟨rfl, rfl, rfl, rfl, rfl, rfl, by decide⟩

/-! ## Keys the batch operations act on -/

theorem mem_startFirstRoundBatch (start : CSmartRewardRound)
    (entries : List CSmartRewardEntry) (op : BatchOp) :
    op ∈ startFirstRoundBatch start entries ↔
      (∃ e ∈ entries, op = .write (.rewardEntry e.id) (.entry e))
        ∨ op = .write .roundCurrent (.round start) := by
  unfold startFirstRoundBatch
  simp only [List.mem_append, List.mem_map, List.mem_singleton]
  constructor
  · rintro (⟨e, he, rfl⟩ | rfl)
    · exact Or.inl ⟨e, he, rfl⟩
    · exact Or.inr rfl
  · rintro (⟨e, he, rfl⟩ | rfl)
    · exact Or.inl ⟨e, he, rfl⟩
    · exact Or.inr rfl

theorem BatchCall.run_eq (IsValid : CSmartRewardBlock → Bool) (c : BatchCall) (S : Store)
    (io : Bool) : c.run IsValid S io = WriteBatch S io (c.batch IsValid) := by
  cases c <;> rfl

/-- A call leaves every key its batch has no operation on as it was, whether
its batch write succeeds or fails. -/
theorem BatchCall.read_run_other (IsValid : CSmartRewardBlock → Bool) (c : BatchCall)
    (S : Store) (io : Bool) {k : Key} (h : ∀ op ∈ c.batch IsValid, k ≠ op.key) :
    (c.run IsValid S io).1.Read k = S.Read k := by
  rw [BatchCall.run_eq]
  cases io
  · rfl
  · exact Store.read_foldl_other _ S h

/-- Every operation of a batch call acts on a reward entry, a transaction
guard, a block record, the last-block record, the current-round pointer, a
snapshot or a finalized round; a call that is not `SyncCached` acts on no block
record. -/
theorem BatchCall.key_of_mem_batch (IsValid : CSmartRewardBlock → Bool) (c : BatchCall)
    (op : BatchOp) (hop : op ∈ c.batch IsValid) :
    (∃ id, op.key = .rewardEntry id) ∨ (∃ hash, op.key = .txHash hash)
      ∨ ((∃ block current rewards transactions fUndo,
            c = .syncCached block current rewards transactions fUndo)
          ∧ ((∃ n, op.key = .block n) ∨ op.key = .blockLast))
      ∨ op.key = .roundCurrent ∨ (∃ n id, op.key = .snapshot n id)
      ∨ (∃ n, op.key = .round n) := by
  cases c with
  | syncCached block current rewards transactions fUndo =>
    rcases (mem_syncCachedBatch _ _ _ _ _ _ op).mp hop with
      ⟨r, _, rfl⟩ | ⟨u, _, rfl⟩ | ⟨_, rfl⟩ | ⟨_, rfl⟩ | rfl
    · exact Or.inl ⟨r.1, syncEntryOp_key r⟩
    · exact Or.inr (Or.inl ⟨u.hash, syncTxOp_key fUndo u⟩)
    · exact Or.inr (Or.inr (Or.inl ⟨⟨_, _, _, _, _, rfl⟩, Or.inl ⟨_, rfl⟩⟩))
    · exact Or.inr (Or.inr (Or.inl ⟨⟨_, _, _, _, _, rfl⟩, Or.inr rfl⟩))
    · exact Or.inr (Or.inr (Or.inr (Or.inl rfl)))
  | startFirstRound start entries =>
    rcases (mem_startFirstRoundBatch _ _ op).mp hop with ⟨e, _, rfl⟩ | rfl
    · exact Or.inl ⟨e.id, rfl⟩
    · exact Or.inr (Or.inr (Or.inr (Or.inl rfl)))
  | finalizeRound current next entries results =>
    rcases (mem_finalizeRoundBatch _ _ _ _ op).mp hop with
      ⟨r, _, rfl⟩ | ⟨e, _, rfl⟩ | rfl | rfl
    · exact Or.inr (Or.inr (Or.inr (Or.inr (Or.inl ⟨_, _, rfl⟩))))
    · exact Or.inl ⟨e.id, rfl⟩
    · exact Or.inr (Or.inr (Or.inr (Or.inr (Or.inr ⟨_, rfl⟩))))
    · exact Or.inr (Or.inr (Or.inr (Or.inl rfl)))
  | undoFinalizeRound current results =>
    rcases (mem_undoFinalizeRoundBatch _ _ op).mp hop with
      ⟨r, _, rfl⟩ | ⟨r, _, rfl⟩ | rfl | rfl
    · exact Or.inr (Or.inr (Or.inr (Or.inr (Or.inl ⟨_, _, rfl⟩))))
    · exact Or.inl ⟨r.entry.id, rfl⟩
    · exact Or.inr (Or.inr (Or.inr (Or.inr (Or.inr ⟨_, rfl⟩))))
    · exact Or.inr (Or.inr (Or.inr (Or.inl rfl)))

/-- No batch call changes the row of the lock flag. -/
theorem BatchCall.read_run_lock (IsValid : CSmartRewardBlock → Bool) (c : BatchCall)
    (S : Store) (io : Bool) : (c.run IsValid S io).1.Read .lock = S.Read .lock := by
  apply BatchCall.read_run_other
  intro op hop heq
  rcases BatchCall.key_of_mem_batch IsValid c op hop with
    ⟨_, h⟩ | ⟨_, h⟩ | ⟨_, ⟨_, h⟩ | h⟩ | h | ⟨_, _, h⟩ | ⟨_, h⟩ <;>
    · rw [h] at heq
      cases heq

theorem runCalls_read_lock (IsValid : CSmartRewardBlock → Bool) (S : Store)
    (calls : List (BatchCall × Bool)) :
    (runCalls IsValid S calls).Read .lock = S.Read .lock := by
  induction calls generalizing S with
  | nil => rfl
  | cons hd tl ih =>
    obtain ⟨c, io⟩ := hd
    simp only [runCalls]
    rw [ih, BatchCall.read_run_lock]

/-! ## The lock flag -/

/-- Constructing an instance changes no row other than the version marker. -/
theorem construct_read_other (REWARDS_DB_VERSION : Nat) (opened : Store) (io : Bool)
    {k : Key} (hk : k ≠ .version) :
    (CSmartRewardsDB.construct REWARDS_DB_VERSION opened io).store.Read k = opened.Read k := by
  unfold CSmartRewardsDB.construct
  simp only
  split
  · cases io
    · rfl
    · exact Store.read_write_other opened _ hk
  · rfl

theorem isLocked_lock (db : CSmartRewardsDB) : (db.Lock true).IsLocked = true := by
  simp only [CSmartRewardsDB.IsLocked, CSmartRewardsDB.Lock, WriteBatch, if_true,
    List.foldl_cons, List.foldl_nil, Store.apply, Store.Exists, Store.read_write_same,
    Option.isSome_some]

theorem isLocked_runCalls (IsValid : CSmartRewardBlock → Bool) (db : CSmartRewardsDB)
    (calls : List (BatchCall × Bool)) :
    (db.runCalls IsValid calls).IsLocked = db.IsLocked := by
  simp only [CSmartRewardsDB.IsLocked, CSmartRewardsDB.runCalls, Store.Exists,
    runCalls_read_lock]

/-- C24: `IsLocked()` is true immediately after `Lock()`; it stays true through
any sequence of `SyncCached`, `StartFirstRound`, `FinalizeRound` and
`UndoFinalizeRound` calls, none of which changes the lock flag, whether its
batch write succeeds or fails; and after `Unlock()` on the same instance
`IsLocked()` is false. The writes of `Lock` and `Unlock` are taken to succeed. -/
theorem lock_then_unlock (IsValid : CSmartRewardBlock → Bool) (db : CSmartRewardsDB)
    (calls : List (BatchCall × Bool)) :
    (db.Lock true).IsLocked = true
      ∧ ((db.Lock true).runCalls IsValid calls).IsLocked = true
      ∧ (((db.Lock true).runCalls IsValid calls).Unlock true).IsLocked = false
      ∧ (∀ (S : Store) (c : BatchCall) (io : Bool),
          (c.run IsValid S io).1.Exists .lock = S.Exists .lock) := by
  refine ⟨isLocked_lock db, ?_, ?_, ?_⟩
  · rw [isLocked_runCalls, isLocked_lock]
  · have hlocked : ((db.Lock true).runCalls IsValid calls).locked = true := rfl
    simp only [CSmartRewardsDB.Unlock, hlocked, if_true, CSmartRewardsDB.IsLocked,
      WriteBatch, List.foldl_cons, List.foldl_nil, Store.apply, Store.Exists,
      Store.read_erase_same, Option.isSome_none]
  · intro S c io
    simp only [Store.Exists, BatchCall.read_run_lock]

/-- C23: when `Lock()` was called on an instance (its write succeeding),
possibly followed by batch calls, and a new instance is constructed over the
store it leaves, `IsLocked()` on the new instance returns true although its
member `locked` is false. Constructing an instance over any store changes no
row other than the version marker, changes nothing when the marker is present,
and writes `REWARDS_DB_VERSION` when it is absent. -/
theorem lock_survives_restart (REWARDS_DB_VERSION : Nat)
    (IsValid : CSmartRewardBlock → Bool) (db : CSmartRewardsDB)
    (calls : List (BatchCall × Bool)) (io : Bool) :
    (CSmartRewardsDB.construct REWARDS_DB_VERSION
        ((db.Lock true).runCalls IsValid calls).store io).IsLocked = true
      ∧ (CSmartRewardsDB.construct REWARDS_DB_VERSION
        ((db.Lock true).runCalls IsValid calls).store io).locked = false
      ∧ (∀ opened : Store,
          (∀ k : Key, k ≠ .version →
            (CSmartRewardsDB.construct REWARDS_DB_VERSION opened io).store.Read k
              = opened.Read k)
          ∧ (opened.Exists .version = true →
            (CSmartRewardsDB.construct REWARDS_DB_VERSION opened io).store = opened)
          ∧ (opened.Exists .version = false →
            (CSmartRewardsDB.construct REWARDS_DB_VERSION opened true).store.Read .version
              = some (.version REWARDS_DB_VERSION))) := by
  refine ⟨?_, rfl, fun opened => ⟨fun k hk => construct_read_other _ opened io hk, ?_, ?_⟩⟩
  · have h1 := construct_read_other REWARDS_DB_VERSION
      ((db.Lock true).runCalls IsValid calls).store io (k := .lock) (by simp)
    have h2 : ((db.Lock true).runCalls IsValid calls).IsLocked = true := by
      rw [isLocked_runCalls, isLocked_lock]
    simp only [CSmartRewardsDB.IsLocked, Store.Exists] at h2 ⊢
    rw [h1]
    exact h2
  · intro hex
    simp [CSmartRewardsDB.construct, hex]
  · intro hex
    simp only [CSmartRewardsDB.construct, hex, Bool.not_false, if_true, WriteBatch,
      List.foldl_cons, List.foldl_nil, Store.apply, Store.read_write_same]

theorem lock_survives_restart_witness :
    (CSmartRewardsDB.construct 10
        (((CSmartRewardsDB.construct 10 storeRound1 true).Lock true).runCalls hashNotNull
          [(.syncCached block1 round1 [(1, entryAZero)] [tx1] false, true)]).store
        true).IsLocked = true
      ∧ storeRound1.Exists .version = false
      ∧ (CSmartRewardsDB.construct 10 storeRound1 true).store.Read .version
          = some (.version 10)
      ∧ storeFresh.Exists .version = true
      ∧ (CSmartRewardsDB.construct 11 storeFresh true).store = storeFresh :=
  ⟨(lock_survives_restart 10 hashNotNull (CSmartRewardsDB.construct 10 storeRound1 true)
      [(.syncCached block1 round1 [(1, entryAZero)] [tx1] false, true)] true).1,
    rfl,
    ((lock_survives_restart 10 hashNotNull ⟨[], false⟩ [] true).2.2 storeRound1).2.2 rfl,
    rfl,
    ((lock_survives_restart 11 hashNotNull ⟨[], false⟩ [] true).2.2 storeFresh).2.1 rfl⟩

/-- C30: on an instance whose member `locked` is false, as after construction,
`Unlock()` leaves the instance and its store unchanged; so when the lock flag
is in the store an instance is constructed over, `IsLocked()` is still true
after `Unlock()` on that instance. -/
theorem unlock_without_lock (REWARDS_DB_VERSION : Nat) (db : CSmartRewardsDB)
    (opened : Store) (io io' : Bool) :
    (db.locked = false → db.Unlock io' = db)
      ∧ (CSmartRewardsDB.construct REWARDS_DB_VERSION opened io).Unlock io'
          = CSmartRewardsDB.construct REWARDS_DB_VERSION opened io
      ∧ (opened.Exists .lock = true →
          ((CSmartRewardsDB.construct REWARDS_DB_VERSION opened io).Unlock io').IsLocked
            = true) := by
  have hU : (CSmartRewardsDB.construct REWARDS_DB_VERSION opened io).Unlock io'
      = CSmartRewardsDB.construct REWARDS_DB_VERSION opened io := by
    simp [CSmartRewardsDB.Unlock, CSmartRewardsDB.construct]
  refine ⟨?_, hU, ?_⟩
  · intro h
    simp [CSmartRewardsDB.Unlock, h]
  · intro hex
    rw [hU]
    simp only [CSmartRewardsDB.IsLocked, Store.Exists] at hex ⊢
    rw [construct_read_other REWARDS_DB_VERSION opened io (k := .lock) (by simp)]
    exact hex

theorem unlock_without_lock_witness :
    ((CSmartRewardsDB.construct 10 storeRound1 true).Lock true).store.Exists .lock = true
      ∧ ((CSmartRewardsDB.construct 10
            ((CSmartRewardsDB.construct 10 storeRound1 true).Lock true).store true).Unlock
          true).IsLocked = true
      ∧ (⟨storeRound1, false⟩ : CSmartRewardsDB).Unlock true = ⟨storeRound1, false⟩ :=
  ⟨rfl,
    (unlock_without_lock 10 ⟨storeRound1, false⟩
      ((CSmartRewardsDB.construct 10 storeRound1 true).Lock true).store true true).2.2 rfl,
    (unlock_without_lock 10 ⟨storeRound1, false⟩ [] true true).1 rfl⟩

/-! ## Payouts as the filter of the round results -/

/-- On rows whose snapshot values all decode, the three cursor loops succeed,
run over the same snapshots, and the payout loops keep those with a reward
that is not zero. -/
theorem payoutLoops_filter (round : Int) (rows : List (Key × Value))
    (hdec : ∀ x ∈ rows, (∃ n id, x.1 = Key.snapshot n id) → ∃ s, x.2 = Value.result s)
    (results payouts payouts' : List CSmartRewardRoundResult) :
    ∃ l : List CSmartRewardRoundResult,
      readRoundResultsLoop round rows results = (true, results ++ l)
        ∧ readPayoutsLoop round rows payouts
            = (true, payouts ++ l.filter (fun s => decide (s.reward ≠ 0)))
        ∧ readPayoutsPtrLoop round rows payouts'
            = (true, payouts' ++ l.filter (fun s => decide (s.reward ≠ 0))) := by
  induction rows generalizing results payouts payouts' with
  | nil => exact ⟨[], by simp [readRoundResultsLoop, readPayoutsLoop, readPayoutsPtrLoop]⟩
  | cons hd tl ih =>
    obtain ⟨k, v⟩ := hd
    have hdec' : ∀ x ∈ tl, (∃ n id, x.1 = Key.snapshot n id) → ∃ s, x.2 = Value.result s :=
      fun x hx => hdec x (List.mem_cons_of_mem _ hx)
    cases k with
    | snapshot n id =>
      by_cases hn : n = round
      · obtain ⟨s, hs⟩ := hdec (Key.snapshot n id, v) (List.mem_cons_self _ _) ⟨n, id, rfl⟩
        simp only at hs
        subst hs
        subst hn
        by_cases hr : s.reward ≠ 0
        · obtain ⟨l, h1, h2, h3⟩ := ih hdec' (results ++ [s]) (payouts ++ [s])
            (payouts' ++ [s])
          refine ⟨s :: l, ?_, ?_, ?_⟩
          · simp only [readRoundResultsLoop, ne_eq, not_true_eq_false, if_false, h1]
            simp
          · simp only [readPayoutsLoop, ne_eq, not_true_eq_false, if_false]
            rw [if_pos hr, h2]
            simp [hr]
          · simp only [readPayoutsPtrLoop, ne_eq, not_true_eq_false, if_false]
            rw [if_pos hr, h3]
            simp [hr]
        · obtain ⟨l, h1, h2, h3⟩ := ih hdec' (results ++ [s]) payouts payouts'
          refine ⟨s :: l, ?_, ?_, ?_⟩
          · simp only [readRoundResultsLoop, ne_eq, not_true_eq_false, if_false, h1]
            simp
          · simp only [readPayoutsLoop, ne_eq, not_true_eq_false, if_false]
            rw [if_neg hr, h2]
            simp [hr]
          · simp only [readPayoutsPtrLoop, ne_eq, not_true_eq_false, if_false]
            rw [if_neg hr, h3]
            simp [hr]
      · exact ⟨[], by simp [readRoundResultsLoop, readPayoutsLoop, readPayoutsPtrLoop, hn]⟩
    | roundCurrent =>
      exact ⟨[], by simp [readRoundResultsLoop, readPayoutsLoop, readPayoutsPtrLoop]⟩
    | round n =>
      exact ⟨[], by simp [readRoundResultsLoop, readPayoutsLoop, readPayoutsPtrLoop]⟩
    | rewardEntry a =>
      exact ⟨[], by simp [readRoundResultsLoop, readPayoutsLoop, readPayoutsPtrLoop]⟩
    | block n =>
      exact ⟨[], by simp [readRoundResultsLoop, readPayoutsLoop, readPayoutsPtrLoop]⟩
    | blockLast =>
      exact ⟨[], by simp [readRoundResultsLoop, readPayoutsLoop, readPayoutsPtrLoop]⟩
    | txHash a =>
      exact ⟨[], by simp [readRoundResultsLoop, readPayoutsLoop, readPayoutsPtrLoop]⟩
    | version =>
      exact ⟨[], by simp [readRoundResultsLoop, readPayoutsLoop, readPayoutsPtrLoop]⟩
    | lock =>
      exact ⟨[], by simp [readRoundResultsLoop, readPayoutsLoop, readPayoutsPtrLoop]⟩

/-- C29: on every store in which all snapshot values decode, and for every
round, `ReadRewardRoundResults` and both overloads of `ReadRewardPayouts`
succeed, and each overload appends, in the same order, exactly the results
that `ReadRewardRoundResults(round)` appends whose reward is not zero; the two
overloads therefore yield equal sequences. -/
theorem readRewardPayouts_filter (S : Store) (round : Int)
    (hdec : ∀ x ∈ S, (∃ n id, x.1 = Key.snapshot n id) → ∃ s, x.2 = Value.result s)
    (results payouts : List CSmartRewardRoundResult) :
    (∃ l : List CSmartRewardRoundResult,
        ReadRewardRoundResults S round results = (true, results ++ l)
          ∧ ReadRewardPayouts S round payouts
              = (true, payouts ++ l.filter (fun s => decide (s.reward ≠ 0)))
          ∧ ReadRewardPayoutsPtr S round payouts
              = (true, payouts ++ l.filter (fun s => decide (s.reward ≠ 0))))
      ∧ ReadRewardPayouts S round payouts = ReadRewardPayoutsPtr S round payouts := by
  have hrows : ∀ x ∈ S.Seek [DB_ROUND_SNAPSHOT, round],
      (∃ n id, x.1 = Key.snapshot n id) → ∃ s, x.2 = Value.result s :=
    fun x hx => hdec x ((List.dropWhile_sublist _).subset hx)
  obtain ⟨l, h1, h2, h3⟩ := payoutLoops_filter round (S.Seek [DB_ROUND_SNAPSHOT, round])
    hrows results payouts payouts
  refine ⟨⟨l, h1, h2, h3⟩, ?_⟩
  unfold ReadRewardPayouts ReadRewardPayoutsPtr
  rw [h2, h3]

theorem storeRound2_snapshots_decode :
    ∀ x ∈ storeRound2, (∃ n id, x.1 = Key.snapshot n id) → ∃ s, x.2 = Value.result s := by
  intro x hx hsnap
  simp only [storeRound2, List.mem_cons, List.mem_singleton, List.not_mem_nil,
    or_false] at hx
  obtain ⟨n, id, hk⟩ := hsnap
  rcases hx with rfl | rfl | rfl | rfl | rfl | rfl
  · cases hk
  · cases hk
  · cases hk
  · cases hk
  · exact ⟨resultA, rfl⟩
  · exact ⟨resultB, rfl⟩

theorem readRewardPayouts_filter_witness :
    (∀ x ∈ storeRound2, (∃ n id, x.1 = Key.snapshot n id) → ∃ s, x.2 = Value.result s)
      ∧ ReadRewardRoundResults storeRound2 1 [] = (true, [resultA, resultB])
      ∧ ReadRewardPayouts storeRound2 1 [resultC] = (true, [resultC, resultA])
      ∧ ((∃ l : List CSmartRewardRoundResult,
          ReadRewardRoundResults storeRound2 1 [] = (true, [] ++ l)
            ∧ ReadRewardPayouts storeRound2 1 [resultC]
                = (true, [resultC] ++ l.filter (fun s => decide (s.reward ≠ 0)))
            ∧ ReadRewardPayoutsPtr storeRound2 1 [resultC]
                = (true, [resultC] ++ l.filter (fun s => decide (s.reward ≠ 0))))
        ∧ ReadRewardPayouts storeRound2 1 [resultC]
            = ReadRewardPayoutsPtr storeRound2 1 [resultC]) :=
  ⟨storeRound2_snapshots_decode, rfl, rfl,
    readRewardPayouts_filter storeRound2 1 storeRound2_snapshots_decode [] [resultC]⟩

/-! ## Snapshots and finalized rounds under later calls -/

/-- A batch of writes removes no row. -/
theorem Store.exists_foldl_writes (ops : List BatchOp) (S : Store) (k : Key)
    (hw : ∀ op ∈ ops, ∃ v, op.effect = some v) (h : S.Exists k = true) :
    (ops.foldl Store.apply S).Exists k = true := by
  by_cases ht : ∃ op ∈ ops, op.key = k
  · obtain ⟨op, hop, _, hr⟩ := Store.read_foldl_touched ops S ht
    obtain ⟨v, hv⟩ := hw op hop
    rw [Store.Exists, hr S, hv]
    rfl
  · have hnot : ∀ o ∈ ops, k ≠ o.key := fun o ho hk => ht ⟨o, ho, hk.symm⟩
    rw [Store.Exists, Store.read_foldl_other ops S hnot]
    exact h

theorem finalizeRoundBatch_writes (current next : CSmartRewardRound)
    (entries : List CSmartRewardEntry) (results : List CSmartRewardRoundResult) :
    ∀ op ∈ finalizeRoundBatch current next entries results, ∃ v, op.effect = some v := by
  intro op hop
  rcases (mem_finalizeRoundBatch _ _ _ _ op).mp hop with
    ⟨r, _, rfl⟩ | ⟨e, _, rfl⟩ | rfl | rfl <;> exact ⟨_, rfl⟩

/-- A call of `FinalizeRound` or `UndoFinalizeRound` for another round, and
every call of `SyncCached` or `StartFirstRound`, has no operation on the
snapshots and the finalized record of round `n`. -/
theorem BatchCall.round_keys_untouched (IsValid : CSmartRewardBlock → Bool) (c : BatchCall)
    (n : Int)
    (hc : ∀ current next entries results,
      c = .finalizeRound current next entries results → current.number ≠ n)
    (hu : ∀ current results, c = .undoFinalizeRound current results → current.number ≠ n)
    (op : BatchOp) (hop : op ∈ c.batch IsValid) :
    (∀ addr, Key.snapshot n addr ≠ op.key) ∧ Key.round n ≠ op.key := by
  cases c with
  | syncCached block current rewards transactions fUndo =>
    rcases (mem_syncCachedBatch _ _ _ _ _ _ op).mp hop with
      ⟨r, _, rfl⟩ | ⟨u, _, rfl⟩ | ⟨_, rfl⟩ | ⟨_, rfl⟩ | rfl
    · rw [syncEntryOp_key]
      simp
    · rw [syncTxOp_key]
      simp
    · simp [BatchOp.key]
    · simp [BatchOp.key]
    · simp [BatchOp.key]
  | startFirstRound start entries =>
    rcases (mem_startFirstRoundBatch _ _ op).mp hop with ⟨e, _, rfl⟩ | rfl <;>
      simp [BatchOp.key]
  | finalizeRound current next entries results =>
    have hne := hc current next entries results rfl
    rcases (mem_finalizeRoundBatch _ _ _ _ op).mp hop with
      ⟨r, _, rfl⟩ | ⟨e, _, rfl⟩ | rfl | rfl
    · simp [BatchOp.key, Ne.symm hne]
    · simp [BatchOp.key]
    · simp [BatchOp.key, Ne.symm hne]
    · simp [BatchOp.key]
  | undoFinalizeRound current results =>
    have hne := hu current results rfl
    rcases (mem_undoFinalizeRoundBatch _ _ op).mp hop with
      ⟨r, _, rfl⟩ | ⟨r, _, rfl⟩ | rfl | rfl
    · simp [BatchOp.key, Ne.symm hne]
    · simp [BatchOp.key]
    · simp [BatchOp.key, Ne.symm hne]
    · simp [BatchOp.key]

/-- C28 (amended): the snapshot stored under `(n, addr)` and the finalized
record stored under `n` are left as they are by every `SyncCached` and
`StartFirstRound` call and by every `FinalizeRound` and `UndoFinalizeRound`
call for a round number other than `n`; a `FinalizeRound` call for any round
removes neither. A `FinalizeRound` call for round `n` itself may overwrite
them. -/
theorem snapshot_and_round_frame (IsValid : CSmartRewardBlock → Bool) (S : Store) (io : Bool)
    (n : Int) (addr : CSmartAddress) :
    (∀ block current rewards transactions fUndo,
        (SyncCached IsValid S io block current rewards transactions fUndo).1.Read
            (.snapshot n addr) = S.Read (.snapshot n addr)
          ∧ (SyncCached IsValid S io block current rewards transactions fUndo).1.Read
            (.round n) = S.Read (.round n))
      ∧ (∀ start entries,
        (StartFirstRound S io start entries).1.Read (.snapshot n addr)
            = S.Read (.snapshot n addr)
          ∧ (StartFirstRound S io start entries).1.Read (.round n) = S.Read (.round n))
      ∧ (∀ current next entries results, current.number ≠ n →
        (FinalizeRound S io current next entries results).1.Read (.snapshot n addr)
            = S.Read (.snapshot n addr)
          ∧ (FinalizeRound S io current next entries results).1.Read (.round n)
            = S.Read (.round n))
      ∧ (∀ current results, current.number ≠ n →
        (UndoFinalizeRound S io current results).1.Read (.snapshot n addr)
            = S.Read (.snapshot n addr)
          ∧ (UndoFinalizeRound S io current results).1.Read (.round n) = S.Read (.round n))
      ∧ (∀ current next entries results,
        (S.Exists (.snapshot n addr) = true →
            (FinalizeRound S io current next entries results).1.Exists (.snapshot n addr)
              = true)
          ∧ (S.Exists (.round n) = true →
            (FinalizeRound S io current next entries results).1.Exists (.round n)
              = true)) := by
  have key : ∀ c : BatchCall,
      (∀ current next entries results,
        c = .finalizeRound current next entries results → current.number ≠ n) →
      (∀ current results, c = .undoFinalizeRound current results → current.number ≠ n) →
      (c.run IsValid S io).1.Read (.snapshot n addr) = S.Read (.snapshot n addr)
        ∧ (c.run IsValid S io).1.Read (.round n) = S.Read (.round n) := by
    intro c hc hu
    exact ⟨BatchCall.read_run_other IsValid c S io
        (fun op hop => (BatchCall.round_keys_untouched IsValid c n hc hu op hop).1 addr),
      BatchCall.read_run_other IsValid c S io
        (fun op hop => (BatchCall.round_keys_untouched IsValid c n hc hu op hop).2)⟩
  refine ⟨?_, ?_, ?_, ?_, ?_⟩
  · intro block current rewards transactions fUndo
    exact key (.syncCached block current rewards transactions fUndo)
      (fun _ _ _ _ h => by cases h) (fun _ _ h => by cases h)
  · intro start entries
    exact key (.startFirstRound start entries)
      (fun _ _ _ _ h => by cases h) (fun _ _ h => by cases h)
  · intro current next entries results hne
    exact key (.finalizeRound current next entries results)
      (fun _ _ _ _ h => by cases h; exact hne) (fun _ _ h => by cases h)
  · intro current results hne
    exact key (.undoFinalizeRound current results)
      (fun _ _ _ _ h => by cases h) (fun _ _ h => by cases h; exact hne)
  · intro current next entries results
    unfold FinalizeRound
    cases io
    · exact ⟨fun h => h, fun h => h⟩
    · exact ⟨Store.exists_foldl_writes _ S _ (finalizeRoundBatch_writes _ _ _ _),
        Store.exists_foldl_writes _ S _ (finalizeRoundBatch_writes _ _ _ _)⟩

theorem snapshot_and_round_frame_witness :
    round2.number ≠ 1
      ∧ storeRound2.Read (.snapshot 1 1) = some (.result resultA)
      ∧ (FinalizeRound storeRound2 true round2 round3 [entryANext, entryB]
          [resultB, resultA2]).1.Read (.snapshot 1 1) = storeRound2.Read (.snapshot 1 1)
      ∧ (FinalizeRound storeRound2 true round2 round3 [entryANext, entryB]
          [resultB, resultA2]).1.Read (.round 1) = storeRound2.Read (.round 1)
      ∧ (SyncCached hashNotNull storeRound2 true block1 round2 [(1, entryAZero)] [tx1]
          false).1.Read (.snapshot 1 1) = storeRound2.Read (.snapshot 1 1)
      ∧ (FinalizeRound storeRound2 true round1Other round2 [] [resultAOther]).1.Exists
          (.snapshot 1 1) = true :=
  ⟨by decide, rfl,
    ((snapshot_and_round_frame hashNotNull storeRound2 true 1 1).2.2.1 round2 round3
      [entryANext, entryB] [resultB, resultA2] (by decide)).1,
    ((snapshot_and_round_frame hashNotNull storeRound2 true 1 1).2.2.1 round2 round3
      [entryANext, entryB] [resultB, resultA2] (by decide)).2,
    ((snapshot_and_round_frame hashNotNull storeRound2 true 1 1).1 block1 round2
      [(1, entryAZero)] [tx1] false).1,
    ((snapshot_and_round_frame hashNotNull storeRound2 true 1 1).2.2.2.2 round1Other round2
      [] [resultAOther]).1 rfl⟩

/-- C28 as stated fails: the store `storeRound2` holds the snapshot `resultA`
under `(1, A)` and the finalized record `round1` under 1; a successful
`FinalizeRound` called again for a round numbered 1 replaces both stored
values. -/
theorem finalizeRound_overwrites_same_round :
    storeRound2.Read (.snapshot 1 1) = some (.result resultA)
      ∧ storeRound2.Read (.round 1) = some (.round round1)
      ∧ round1Other.number = 1
      ∧ (FinalizeRound storeRound2 true round1Other round2 [] [resultAOther]).2 = true
      ∧ (FinalizeRound storeRound2 true round1Other round2 [] [resultAOther]).1.Read
          (.snapshot 1 1) = some (.result resultAOther)
      ∧ (FinalizeRound storeRound2 true round1Other round2 [] [resultAOther]).1.Read
          (.round 1) = some (.round round1Other)
      ∧ resultAOther ≠ resultA ∧ round1Other ≠ round1 :=
  ⟨rfl, rfl, rfl, rfl, rfl, rfl, by decide, by decide⟩

/-! ## The last-block record against the per-height records -/

theorem heightsAtMost_spec {S : Store} {nHeight : Int} (h : heightsAtMost S nHeight = true)
    (n : Int) (hn : S.Exists (.block n) = true) : n ≤ nHeight := by
  unfold heightsAtMost at h
  rw [List.all_eq_true] at h
  cases hr : S.Read (.block n) with
  | none =>
    rw [Store.Exists, hr] at hn
    cases hn
  | some v =>
    have hmem : (Key.block n, v) ∈ S.filter isBlockRow :=
      List.mem_filter.mpr ⟨Store.mem_of_read hr, rfl⟩
    have := h _ hmem
    simpa [rowHeight] using this

/-- The property depends only on the block rows and the last-block row. -/
theorem LastBlockMirrors.of_frame {S S' : Store}
    (hb : ∀ n : Int, S'.Read (.block n) = S.Read (.block n))
    (hl : S'.Read .blockLast = S.Read .blockLast) (h : LastBlockMirrors S) :
    LastBlockMirrors S' := by
  intro last hlast
  have hlast' : ReadLastBlock S = some last := by
    unfold ReadLastBlock at hlast ⊢
    rw [← hl]
    exact hlast
  obtain ⟨h1, h2⟩ := h last hlast'
  constructor
  · unfold ReadBlock at h1 ⊢
    rw [hb]
    exact h1
  · intro n hn
    apply h2 n
    rw [← Store.exists_congr (hb n)]
    exact hn

/-- One call keeps the property when the block it supplies, if valid, is not
below a stored per-height record. -/
theorem LastBlockMirrors.run (IsValid : CSmartRewardBlock → Bool) (S : Store)
    (c : BatchCall) (io : Bool) (h : LastBlockMirrors S)
    (hasc : (match c with
      | .syncCached block _ _ _ _ => !IsValid block || heightsAtMost S block.nHeight
      | _ => true) = true) :
    LastBlockMirrors (c.run IsValid S io).1 := by
  cases io
  · rw [BatchCall.run_eq]
    exact h
  · cases c with
    | syncCached block current rewards transactions fUndo =>
      simp only [BatchCall.run, SyncCached, WriteBatch, if_true]
      cases hv : IsValid block
      · obtain ⟨hb, hl⟩ := syncCachedBatch_block_untouched IsValid block current rewards
          transactions fUndo S hv
        exact LastBlockMirrors.of_frame hb hl h
      · simp only [hv, Bool.not_true, Bool.false_or] at hasc
        obtain ⟨hb, hl, hother⟩ := syncCachedBatch_block_written IsValid block current
          rewards transactions fUndo S hv
        intro last hlast
        have hlast' : last = block := by
          unfold ReadLastBlock at hlast
          rw [hl] at hlast
          simp only [Option.some.injEq] at hlast
          exact hlast.symm
        subst hlast'
        constructor
        · unfold ReadBlock
          rw [hb]
        · intro n hn
          by_cases hneq : n = last.nHeight
          · rw [hneq]
          · rw [Store.exists_congr (hother n hneq)] at hn
            exact heightsAtMost_spec hasc n hn
    | startFirstRound start entries =>
      refine LastBlockMirrors.of_frame (fun n => ?_) ?_ h
      · apply BatchCall.read_run_other
        intro op hop heq
        rcases BatchCall.key_of_mem_batch IsValid _ op hop with
          ⟨_, hk⟩ | ⟨_, hk⟩ | ⟨⟨_, _, _, _, _, hc⟩, _⟩ | hk | ⟨_, _, hk⟩ | ⟨_, hk⟩
        · rw [hk] at heq; cases heq
        · rw [hk] at heq; cases heq
        · cases hc
        · rw [hk] at heq; cases heq
        · rw [hk] at heq; cases heq
        · rw [hk] at heq; cases heq
      · apply BatchCall.read_run_other
        intro op hop heq
        rcases BatchCall.key_of_mem_batch IsValid _ op hop with
          ⟨_, hk⟩ | ⟨_, hk⟩ | ⟨⟨_, _, _, _, _, hc⟩, _⟩ | hk | ⟨_, _, hk⟩ | ⟨_, hk⟩
        · rw [hk] at heq; cases heq
        · rw [hk] at heq; cases heq
        · cases hc
        · rw [hk] at heq; cases heq
        · rw [hk] at heq; cases heq
        · rw [hk] at heq; cases heq
    | finalizeRound current next entries results =>
      refine LastBlockMirrors.of_frame (fun n => ?_) ?_ h
      · apply BatchCall.read_run_other
        intro op hop heq
        rcases BatchCall.key_of_mem_batch IsValid _ op hop with
          ⟨_, hk⟩ | ⟨_, hk⟩ | ⟨⟨_, _, _, _, _, hc⟩, _⟩ | hk | ⟨_, _, hk⟩ | ⟨_, hk⟩
        · rw [hk] at heq; cases heq
        · rw [hk] at heq; cases heq
        · cases hc
        · rw [hk] at heq; cases heq
        · rw [hk] at heq; cases heq
        · rw [hk] at heq; cases heq
      · apply BatchCall.read_run_other
        intro op hop heq
        rcases BatchCall.key_of_mem_batch IsValid _ op hop with
          ⟨_, hk⟩ | ⟨_, hk⟩ | ⟨⟨_, _, _, _, _, hc⟩, _⟩ | hk | ⟨_, _, hk⟩ | ⟨_, hk⟩
        · rw [hk] at heq; cases heq
        · rw [hk] at heq; cases heq
        · cases hc
        · rw [hk] at heq; cases heq
        · rw [hk] at heq; cases heq
        · rw [hk] at heq; cases heq
    | undoFinalizeRound current results =>
      refine LastBlockMirrors.of_frame (fun n => ?_) ?_ h
      · apply BatchCall.read_run_other
        intro op hop heq
        rcases BatchCall.key_of_mem_batch IsValid _ op hop with
          ⟨_, hk⟩ | ⟨_, hk⟩ | ⟨⟨_, _, _, _, _, hc⟩, _⟩ | hk | ⟨_, _, hk⟩ | ⟨_, hk⟩
        · rw [hk] at heq; cases heq
        · rw [hk] at heq; cases heq
        · cases hc
        · rw [hk] at heq; cases heq
        · rw [hk] at heq; cases heq
        · rw [hk] at heq; cases heq
      · apply BatchCall.read_run_other
        intro op hop heq
        rcases BatchCall.key_of_mem_batch IsValid _ op hop with
          ⟨_, hk⟩ | ⟨_, hk⟩ | ⟨⟨_, _, _, _, _, hc⟩, _⟩ | hk | ⟨_, _, hk⟩ | ⟨_, hk⟩
        · rw [hk] at heq; cases heq
        · rw [hk] at heq; cases heq
        · cases hc
        · rw [hk] at heq; cases heq
        · rw [hk] at heq; cases heq
        · rw [hk] at heq; cases heq

theorem LastBlockMirrors.runCalls (IsValid : CSmartRewardBlock → Bool) (S : Store)
    (calls : List (BatchCall × Bool)) (h : LastBlockMirrors S)
    (hasc : blocksAscending IsValid S calls = true) :
    LastBlockMirrors (runCalls IsValid S calls) := by
  induction calls generalizing S with
  | nil => exact h
  | cons hd tl ih =>
    obtain ⟨c, io⟩ := hd
    simp only [blocksAscending, Bool.and_eq_true] at hasc
    exact ih _ (LastBlockMirrors.run IsValid S c io h hasc.1) hasc.2

end SmartRewards
